import Mathlib

/-!
# Julia set visualiser: iteration engines and their reference

Shallow embedding of the per-pixel iteration engines of the Julia set
visualiser (`naive.c`, `intrin_v0.c`, `intrin_v1.c`), of the reference
iterator and the harness `test` of `correctness.c`, of `get_args`,
`get_img`, `map_to_color`, `offset` and `color_pixel` from `util.c`, and of
`measure` from `performanz.c`.

Conventions of the embedding.

* `float` values are read as exact rationals (`ℚ`): every `float` operation is
  the exact field operation, and `FLT_MAX` is the rational `(2^24 - 1) * 2^104`.
  Statements over `ℚ` are statements about the program in exact arithmetic.
* The scalar iterators, `get_args`, the colour map and the main loop of V0 are
  given a second time over binary32 values (`F32`, prefix `binary32.`): every
  operation rounds to nearest, ties to even, overflows to an infinity and
  propagates NaN as IEEE 754 prescribes. These are used on the inputs on which
  the `float` operations leave the exact reading.
* `unsigned` and `size_t` values are natural numbers; the 32-bit vector add and
  the unsigned subtraction are reduced modulo `2^32`.
* An `__m128` / `__m128i` register and a C array of length four are functions
  on `Fin 4` (one value per lane).
* Every engine hands its results to `color_pixel`; an engine is embedded as the
  list of its `color_pixel` calls, in the order in which it makes them.
* Memory that the C code reads before writing (the `malloc`ed fields of
  `four_complexes`, the `__m128 _reals` register of V0, the blocks of counts of
  `test`) is a parameter of the embedded function.
* The image buffer and `CORRECTNESS_BUFFER` are functions from indices to
  values (the bounds of the allocation are not tracked), the null pointer is
  `none`, and a run that dereferences it has no result. The globals
  `CORRECTNESS_TEST` and `CORRECTNESS_BUFFER` are passed as a state.
-/

namespace Julia

/-- The colour value `BLACK` of `util.h`, used for points that do not escape. -/
def BLACK : ℕ := 0

/-- The constant `FLT_MAX` of `float.h`, the largest finite `float`. -/
def FLT_MAX : ℚ := (2 ^ 24 - 1) * 2 ^ 104

/-- The struct `Arguments` of `util.h`; the complex fields are split in real and imaginary part. -/
structure Arguments where
  c_re : ℚ
  c_im : ℚ
  start_re : ℚ
  start_im : ℚ
  res : ℚ
  n : ℕ
  radius_sqr : ℚ

/-- The function `get_args` of `util.c`. The code computes `c_betrag = sqrtf(|c|^2)`,
`radius = c_betrag > 2 ? c_betrag : 2` and `radius_sqr = radius * radius`. Read exactly,
`c_betrag > 2` holds iff `|c|^2 > 4`, and `radius * radius` is then `|c|^2`, else `4`.
With the roundings of `sqrtf` and of the products: `binary32.get_args`. -/
def get_args (c_re c_im start_re start_im res : ℚ) (n : ℕ) : Arguments :=
  let betrag_sqr := c_re * c_re + c_im * c_im
  { c_re := c_re
    c_im := c_im
    start_re := start_re
    start_im := start_im
    res := res
    n := n
    radius_sqr := if betrag_sqr > 4 then betrag_sqr else 4 }

/-- One `color_pixel(img, y, x, iterations)` call. -/
structure ColorCall where
  y : ℕ
  x : ℕ
  iterations : ℕ
deriving DecidableEq, Repr

/-- A four-lane register or a C array of length four. -/
abbrev Lanes (α : Type) := Fin 4 → α

/-! ## The reference iterator (`correctness.c`) -/

/-- The `do ... while` loop of `iterate_reference`, entered with the current `x`, `y`
and `k`. The body runs once per unit of `fuel`; `fuel = n + 1` is never used up
(see `reference_loop_fuel`). -/
def reference_loop (args : Arguments) : ℕ → ℚ → ℚ → ℕ → ℕ
  | 0, _, _, k => k
  | fuel + 1, x, y, k =>
    let xtemp := x
    let x := x * x - y * y + args.c_re
    let y := 2 * xtemp * y + args.c_im
    let k := k + 1
    if x * x + y * y ≤ args.radius_sqr ∧ k < args.n then reference_loop args fuel x y k
    else k

/-- The function `iterate_reference` of `correctness.c`, in exact arithmetic; over binary32:
`binary32.iterate_reference`. -/
def iterate_reference (x y : ℚ) (args : Arguments) : ℕ :=
  let k := reference_loop args (args.n + 1) x y 0
  if k = args.n then BLACK else k

/-! ## The naive engine (`naive.c`) -/

/-- The `for (i = 1; i < n; i++)` loop of `iterate_naive`, with `rem = n - i` passes left. -/
def naive_loop (args : Arguments) : ℕ → ℚ → ℚ → ℕ → ℕ
  | 0, _, _, _ => BLACK
  | rem + 1, a, b, i =>
    let tmp_a := a
    let a := a * a - b * b + args.c_re
    let b := 2 * tmp_a * b + args.c_im
    if a * a + b * b > args.radius_sqr then i
    else naive_loop args rem a b (i + 1)

/-- The function `iterate_naive` of `naive.c`, in exact arithmetic; over binary32:
`binary32.iterate_naive`. -/
def iterate_naive (a b : ℚ) (args : Arguments) : ℕ :=
  naive_loop args (args.n - 1) a b 1

/-- The function `enumerate` of `naive.c`: every pixel in row-major order. -/
def naive.enumerate (args : Arguments) (width height : ℕ) : List ColorCall :=
  (List.range height).flatMap fun (y : ℕ) =>
    let im := args.start_im + (y : ℚ) * args.res
    (List.range width).map fun (x : ℕ) =>
      let re := args.start_re + (x : ℚ) * args.res
      let iterations := iterate_naive re im args
      ⟨y, x, iterations⟩

/-- The function `julia_V2` of `naive.c`. -/
def julia_V2 (c_re c_im start_re start_im : ℚ) (width height : ℕ) (res : ℚ) (n : ℕ) :
    List ColorCall :=
  let args := get_args c_re c_im start_re start_im res n
  naive.enumerate args width height

/-! ## The fully vectorised engine V0 (`intrin_v0.c`) -/

/-- The intrinsic `_mm_movemask_ps` on a comparison result: bit `j` is the sign bit of lane `j`. -/
def movemask (v : Lanes Bool) : ℕ :=
  (if v 0 then 1 else 0) + (if v 1 then 2 else 0) + (if v 2 then 4 else 0) +
    (if v 3 then 8 else 0)

/-- The main iterations loop `for (i = 0; i < n; i++)` of V0, with `rem = n - i` passes
left. It returns the registers `_reals` and `iterations` as the loop leaves them. -/
def intrin_v0.main_loop (args : Arguments) :
    ℕ → Lanes ℚ → Lanes ℚ → Lanes ℕ → ℕ → Lanes ℚ × Lanes ℕ
  | 0, _reals, _, iterations, _ => (_reals, iterations)
  | rem + 1, _reals, _imags, iterations, mask =>
    let _re : Lanes ℚ := fun j => _reals j * _reals j
    let _im : Lanes ℚ := fun j => _imags j * _imags j
    let abs : Lanes ℚ := fun j => _re j + _im j
    let abs : Lanes Bool := fun j => decide (abs j ≤ args.radius_sqr)
    let mask := mask &&& movemask abs
    let ones : Lanes ℕ := fun j => if abs j then 1 else 0
    let iterations : Lanes ℕ := fun j => (iterations j + ones j) % 2 ^ 32
    if mask = 0 then (_reals, iterations)
    else
      let _imags1 : Lanes ℚ := fun j => _reals j * _imags j
      let _imags2 : Lanes ℚ := fun j => _imags1 j * 2
      let _imags3 : Lanes ℚ := fun j => _imags2 j + args.c_im
      let _reals1 : Lanes ℚ := fun j => _re j - _im j
      let _reals2 : Lanes ℚ := fun j => _reals1 j + args.c_re
      intrin_v0.main_loop args rem _reals2 _imags3 iterations mask

/-- The loop `for (int i = 0; i < 4; i++)` of V0 that colours the four pixels of a batch
ending at column `x`. -/
def intrin_v0.color_batch (args : Arguments) (y x : ℕ) (results : Lanes ℕ) : List ColorCall :=
  (List.finRange 4).map fun i =>
    if results i = args.n then ⟨y, x - 3 + i, BLACK⟩
    else if results i = 0 then ⟨y, x - 3 + i, 1⟩
    else ⟨y, x - 3 + i, results i⟩

/-- The body of the loop over `x` of V0 `enumerate`; the state is the register `_reals`
and the calls made so far. -/
def intrin_v0.enumerate_x (args : Arguments) (y : ℕ) (im : ℚ)
    (st : Lanes ℚ × List ColorCall) (x : ℕ) : Lanes ℚ × List ColorCall :=
  let re := args.start_re + (x : ℚ) * args.res
  let _reals := Function.update st.1 ⟨x % 4, Nat.mod_lt x (by decide)⟩ re
  if x % 4 = 3 then
    let _imags : Lanes ℚ := fun _ => im
    let iterations : Lanes ℕ := fun _ => 0
    let mask := 15
    let r := intrin_v0.main_loop args args.n _reals _imags iterations mask
    (r.1, st.2 ++ intrin_v0.color_batch args y x r.2)
  else (_reals, st.2)

/-- The body of the loop over `y` of V0 `enumerate`. -/
def intrin_v0.enumerate_y (args : Arguments) (width : ℕ)
    (st : Lanes ℚ × List ColorCall) (y : ℕ) : Lanes ℚ × List ColorCall :=
  let im := args.start_im + (y : ℚ) * args.res
  (List.range width).foldl (intrin_v0.enumerate_x args y im) st

/-- The function `enumerate` of `intrin_v0.c`; `_reals` is the content of the register
of that name when the function is entered (the code does not initialise it). -/
def intrin_v0.enumerate (args : Arguments) (width height : ℕ) (_reals : Lanes ℚ) :
    List ColorCall :=
  ((List.range height).foldl (intrin_v0.enumerate_y args width) (_reals, [])).2

/-- The function `compute_last_points` of `intrin_v0.c`: the columns from
`width - width % 4` on, with the naive iterator. -/
def intrin_v0.compute_last_points (args : Arguments) (width height : ℕ) : List ColorCall :=
  let column := width - width % 4
  (List.range height).flatMap fun (y : ℕ) =>
    let im := args.start_im + (y : ℚ) * args.res
    (List.range' column (width - column)).map fun (x : ℕ) =>
      let re := args.start_re + (x : ℚ) * args.res
      let iterations := iterate_naive re im args
      ⟨y, x, iterations⟩

/-- The function `julia` of `intrin_v0.c` (engine V0). -/
def julia (_reals : Lanes ℚ) (c_re c_im start_re start_im : ℚ) (width height : ℕ) (res : ℚ)
    (n : ℕ) : List ColorCall :=
  let args := get_args c_re c_im start_re start_im res n
  intrin_v0.enumerate args width height _reals ++
    (if width % 4 ≠ 0 then intrin_v0.compute_last_points args width height else [])

/-! ## The batched vector engine V1 (`intrin_v1.c`) -/

/-- The struct `four_complexes` of `intrin_v1.c` (without the field `adress`, which only
serves `free`). -/
structure four_complexes where
  x_coords : Lanes ℕ
  y_coords : Lanes ℕ
  reals : Lanes ℚ
  imags : Lanes ℚ
  count : Lanes ℕ
  bits : Lanes ℕ
  population : ℤ

/-- The function `get_aligned_four_complexes`; `memory` is the content of the block that
`malloc` returns. Only `population` and `reals` are initialised. -/
def get_aligned_four_complexes (memory : four_complexes) : four_complexes :=
  { memory with population := 0, reals := fun _ => FLT_MAX }

/-- The function `next_of_four`: the new real parts, the new imaginary parts and `dist`,
the squared absolute values of the numbers that were passed in. -/
def next_of_four (args : Arguments) (a b : Lanes ℚ) : Lanes ℚ × Lanes ℚ × Lanes ℚ :=
  let _a := a
  let _b := b
  let a1 : Lanes ℚ := fun j => _a j * a j
  let b1 : Lanes ℚ := fun j => _b j * b j
  let dist : Lanes ℚ := fun j => a1 j + b1 j
  let a2 : Lanes ℚ := fun j => a1 j - b1 j
  let a3 : Lanes ℚ := fun j => a2 j + args.c_re
  let b2 : Lanes ℚ := fun j => _a j * _b j
  let b3 : Lanes ℚ := fun j => b2 j * 2
  let b4 : Lanes ℚ := fun j => b3 j + args.c_im
  (a3, b4, dist)

/-- The function `insert` of `intrin_v1.c`: the point goes to the first entry whose real
part equals `FLT_MAX`; when there is none, nothing happens. -/
def intrin_v1.insert (nums : four_complexes) (a b : ℚ) (y x : ℕ) : four_complexes :=
  match (List.finRange 4).find? (fun i => decide (nums.reals i = FLT_MAX)) with
  | some i =>
    { nums with
      reals := Function.update nums.reals i a
      imags := Function.update nums.imags i b
      count := Function.update nums.count i 0
      x_coords := Function.update nums.x_coords i x
      y_coords := Function.update nums.y_coords i y
      population := nums.population + 1 }
  | none => nums

/-- The body of the loop `for (int i = 0; i < 4; i++)` inside `while (full)`; the state is
`nums`, the flag `full` and the calls made so far. -/
def intrin_v1.check_lane (args : Arguments) (st : four_complexes × Bool × List ColorCall)
    (i : Fin 4) : four_complexes × Bool × List ColorCall :=
  let nums := st.1
  if nums.bits i ≠ 0 then
    let call : ColorCall :=
      if nums.count i = 1 then ⟨nums.y_coords i, nums.x_coords i, 1⟩
      else ⟨nums.y_coords i, nums.x_coords i, (nums.count i + (2 ^ 32 - 1)) % 2 ^ 32⟩
    ({ nums with
        population := nums.population - 1
        reals := Function.update nums.reals i FLT_MAX },
      false, st.2.2 ++ [call])
  else if nums.count i ≥ args.n then
    ({ nums with
        population := nums.population - 1
        reals := Function.update nums.reals i FLT_MAX },
      false, st.2.2 ++ [⟨nums.y_coords i, nums.x_coords i, BLACK⟩])
  else st

/-- The loop `while (full)` of V1 `enumerate`, on `nums`, the registers `xmms->reals`,
`xmms->imags`, `xmms->count` and the calls made so far. The body runs once per unit of
`fuel`; the loop is left when a lane has been coloured in a pass. -/
def intrin_v1.full_loop (args : Arguments) :
    ℕ → four_complexes → Lanes ℚ → Lanes ℚ → Lanes ℕ → List ColorCall →
      four_complexes × Lanes ℚ × Lanes ℚ × List ColorCall
  | 0, nums, xreals, ximags, _, calls => (nums, xreals, ximags, calls)
  | fuel + 1, nums, xreals, ximags, xcount, calls =>
    let r := next_of_four args xreals ximags
    let xcount : Lanes ℕ := fun j => (xcount j + 1) % 2 ^ 32
    let nums := { nums with count := xcount }
    let xdist : Lanes ℕ := fun j => if r.2.2 j > args.radius_sqr then 2 ^ 32 - 1 else 0
    let nums := { nums with bits := xdist }
    let st := (List.finRange 4).foldl (intrin_v1.check_lane args) (nums, true, calls)
    if st.2.1 then intrin_v1.full_loop args fuel st.1 r.1 r.2.1 xcount st.2.2
    else (st.1, r.1, r.2.1, st.2.2)

/-- The body of the loop over `x` of V1 `enumerate`; the state is `nums` and the calls
made so far. The loop `while (full)` never needs more than `n + 1` passes
(`full_loop_fuel`). -/
def intrin_v1.enumerate_x (args : Arguments) (y : ℕ) (im : ℚ)
    (st : four_complexes × List ColorCall) (x : ℕ) : four_complexes × List ColorCall :=
  let re := args.start_re + (x : ℚ) * args.res
  let nums := intrin_v1.insert st.1 re im y x
  if nums.population < 4 then (nums, st.2)
  else
    let r := intrin_v1.full_loop args (args.n + 1) nums nums.reals nums.imags nums.count st.2
    let nums := r.1
    let tmp := nums.reals
    let nums := { nums with reals := r.2.1, imags := r.2.2.1 }
    let nums := { nums with reals := fun i => if tmp i = FLT_MAX then FLT_MAX else nums.reals i }
    (nums, r.2.2.2)

/-- The body of the loop over `y` of V1 `enumerate`. -/
def intrin_v1.enumerate_y (args : Arguments) (width : ℕ)
    (st : four_complexes × List ColorCall) (y : ℕ) : four_complexes × List ColorCall :=
  let im := args.start_im + (y : ℚ) * args.res
  (List.range width).foldl (intrin_v1.enumerate_x args y im) st

/-- The function `enumerate` of `intrin_v1.c`: the final `nums` and the calls made. -/
def intrin_v1.enumerate (args : Arguments) (width height : ℕ) (nums : four_complexes) :
    four_complexes × List ColorCall :=
  (List.range height).foldl (intrin_v1.enumerate_y args width) (nums, [])

/-- The loop `for (i = nums->count[j]; i < n; i++)` of V1 `compute_last_points`, with
`rem = n - i` passes left: the colour passed to `color_pixel` before the `break`, if any,
and the value of `i` after the loop. -/
def intrin_v1.last_loop (args : Arguments) : ℕ → ℚ → ℚ → ℕ → Option ℕ × ℕ
  | 0, _, _, i => (none, i)
  | rem + 1, a, b, i =>
    if a * a + b * b > args.radius_sqr then (some i, i)
    else
      let tmp_a := a
      let a := a * a - b * b + args.c_re
      let b := 2 * tmp_a * b + args.c_im
      intrin_v1.last_loop args rem a b (i + 1)

/-- The function `compute_last_points` of `intrin_v1.c`. -/
def intrin_v1.compute_last_points (args : Arguments) (nums : four_complexes) :
    List ColorCall :=
  (List.finRange 4).flatMap fun j =>
    if nums.reals j ≠ FLT_MAX then
      let a := nums.reals j
      let b := nums.imags j
      if nums.count j = 0 then
        let iter := iterate_naive a b args
        [⟨nums.y_coords j, nums.x_coords j, iter⟩]
      else
        let r := intrin_v1.last_loop args (args.n - nums.count j) a b (nums.count j)
        (match r.1 with
          | some i => [(⟨nums.y_coords j, nums.x_coords j, i⟩ : ColorCall)]
          | none => []) ++
        (if r.2 = args.n then [⟨nums.y_coords j, nums.x_coords j, BLACK⟩] else [])
    else []

/-- The function `julia_V1` of `intrin_v1.c` (engine V1); `memory` is the content of the
block that `malloc` returns for the struct `four_complexes`. -/
def julia_V1 (memory : four_complexes) (c_re c_im start_re start_im : ℚ) (width height : ℕ)
    (res : ℚ) (n : ℕ) : List ColorCall :=
  let args := get_args c_re c_im start_re start_im res n
  let nums := get_aligned_four_complexes memory
  let r := intrin_v1.enumerate args width height nums
  r.2 ++ intrin_v1.compute_last_points args r.1

/-- The value the calls `calls` leave for pixel `(x, y)`: the `iterations` of the last call
with these coordinates, `none` when there is no such call. -/
def recorded (calls : List ColorCall) (y x : ℕ) : Option ℕ :=
  (calls.reverse.find? fun c => c.y = y ∧ c.x = x).map fun c => c.iterations

/-! ## The iterates of a point -/

/-- The `k`-th iterate `z_k` of the point `x + y i` under `z ↦ z^2 + c`, as the pair of its
real and imaginary part; `z_0` is the point itself. -/
def orbit (args : Arguments) (x y : ℚ) : ℕ → ℚ × ℚ
  | 0 => (x, y)
  | k + 1 =>
    let z := orbit args x y k
    (z.1 * z.1 - z.2 * z.2 + args.c_re, 2 * z.1 * z.2 + args.c_im)

/-- The iterate `z_k` lies outside the escape radius: `|z_k|^2 > radius_sqr`. -/
def escaped (args : Arguments) (x y : ℚ) (k : ℕ) : Prop :=
  (orbit args x y k).1 * (orbit args x y k).1 + (orbit args x y k).2 * (orbit args x y k).2
    > args.radius_sqr

instance (args : Arguments) (x y : ℚ) (k : ℕ) : Decidable (escaped args x y k) :=
  inferInstanceAs (Decidable
    ((orbit args x y k).1 * (orbit args x y k).1 + (orbit args x y k).2 * (orbit args x y k).2
      > args.radius_sqr))

/-- The property of `radius_sqr` that the engines rely on: one application of the map to a
point outside the radius strictly increases its squared absolute value. -/
def Absorbing (args : Arguments) : Prop :=
  ∀ a b : ℚ, args.radius_sqr < a * a + b * b →
    a * a + b * b < (a * a - b * b + args.c_re) * (a * a - b * b + args.c_re)
      + (2 * a * b + args.c_im) * (2 * a * b + args.c_im)

/-- The number of passes of the main loop of V0, out of `rem`, that a lane holding `a + b i`
spends inside the radius before its first pass outside. -/
def inside_count (args : Arguments) : ℕ → ℚ → ℚ → ℕ
  | 0, _, _ => 0
  | rem + 1, a, b =>
    if a * a + b * b ≤ args.radius_sqr then
      1 + inside_count args rem (a * a - b * b + args.c_re) (a * b * 2 + args.c_im)
    else 0

/-- The real parts that V0 loads for the batch of four pixels ending at column `x`. -/
def intrin_v0.batch_reals (args : Arguments) (x : ℕ) : Lanes ℚ :=
  fun j => args.start_re + ((x - 3 + j.val : ℕ) : ℚ) * args.res

/-- The calls V0 makes for the batch of four pixels of row `y` ending at column `x`. -/
def intrin_v0.batch_calls (args : Arguments) (y x : ℕ) : List ColorCall :=
  intrin_v0.color_batch args y x
    (intrin_v0.main_loop args args.n (intrin_v0.batch_reals args x)
      (fun _ => args.start_im + (y : ℚ) * args.res) (fun _ => 0) 15).2

/-- A content of the block that `malloc` returns for `four_complexes`: all zero. In the runs
below every entry is written by `insert` before the loop `while (full)` reads it. -/
def zero_memory : four_complexes :=
  { x_coords := fun _ => 0
    y_coords := fun _ => 0
    reals := fun _ => 0
    imags := fun _ => 0
    count := fun _ => 0
    bits := fun _ => 0
    population := 0 }

/-- The colour V0 passes to `color_pixel` for a lane that was loaded with the point
`re + im i`: the branches of the loop over `results`, on the counter of that lane. -/
def intrin_v0.lane_color (args : Arguments) (re im : ℚ) : ℕ :=
  if inside_count args args.n re im = args.n then BLACK
  else if inside_count args args.n re im = 0 then 1
  else inside_count args args.n re im

/-! ## Colouring (`util.c`) -/

/-- The globals `CORRECTNESS_TEST` and `CORRECTNESS_BUFFER` of `util.c`; the buffer is the
content of the array the pointer designates, entry by entry. -/
structure Globals where
  CORRECTNESS_TEST : Bool
  CORRECTNESS_BUFFER : ℕ → ℕ

/-- The struct `Image` of `util.h`. The field `buffer` is the content of the byte array the
pointer designates, byte by byte, and `none` for the null pointer. -/
structure Image where
  width : ℕ
  height : ℕ
  buffer : Option (ℕ → ℕ)
  color_const : ℚ

/-- The function `get_img` of `util.c`. For `n = 0` the `float` quotient `255.0f / n` is
infinite, which the rationals do not represent (`255 / 0 = 0` here). -/
def get_img (width height : ℕ) (img : Option (ℕ → ℕ)) (n : ℕ) : Image :=
  { width := width
    height := height
    buffer := img
    color_const := 255 / (n : ℚ) }

/-- The conversion `(unsigned char) f` of a `float`: the fractional part is discarded; a
result outside `[0, 255]` (undefined in C) is reduced modulo `256`. -/
def float_to_uchar (f : ℚ) : ℕ :=
  ((if 0 ≤ f then ⌊f⌋ else ⌈f⌉) % 256).toNat

/-- The function `map_to_color` of `util.c`, in exact arithmetic; over binary32:
`binary32.map_to_color`. -/
def map_to_color (iterations : ℕ) (color_const : ℚ) : ℕ :=
  if iterations = BLACK then 0
  else 255 - float_to_uchar ((iterations : ℚ) * color_const)

/-- The function `offset` of `util.c`: the sum is formed in `size_t` (64 bit) and returned
as `unsigned` (32 bit). -/
def offset (img : Image) (y x : ℕ) : ℕ :=
  ((y * img.width * 3 + x * 3) % 2 ^ 64) % 2 ^ 32

/-- The function `color_pixel` of `util.c`, on the globals and the image; `none` when the
null pointer is dereferenced. The index sums `o + 2` and `o + 1` are `unsigned`. -/
def color_pixel (g : Globals) (img : Image) (y x iterations : ℕ) : Option (Globals × Image) :=
  if g.CORRECTNESS_TEST then
    let offset := ((y * img.width + x) % 2 ^ 64) % 2 ^ 32
    some ({ g with CORRECTNESS_BUFFER := Function.update g.CORRECTNESS_BUFFER offset iterations },
      img)
  else
    let color := map_to_color iterations img.color_const
    let o := offset img y x
    match img.buffer with
    | none => none
    | some buffer =>
      let buffer := Function.update buffer ((o + 2) % 2 ^ 32) (color >>> 1)
      let buffer := Function.update buffer ((o + 1) % 2 ^ 32) (color >>> 2)
      let buffer := Function.update buffer o color
      some (g, { img with buffer := some buffer })

/-- The calls `calls` made one after the other, from the globals and the image `s`. -/
def color_calls : List ColorCall → Globals × Image → Option (Globals × Image)
  | [], s => some s
  | c :: calls, s => (color_pixel s.1 s.2 c.y c.x c.iterations).bind (color_calls calls)

/-- The function `julia` of `intrin_v0.c` with its effect: the globals and the content of
`img` after the call. -/
def run_julia (_reals : Lanes ℚ) (g : Globals) (c_re c_im start_re start_im : ℚ)
    (width height : ℕ) (res : ℚ) (n : ℕ) (img : Option (ℕ → ℕ)) :
    Option (Globals × Option (ℕ → ℕ)) :=
  let my_img := get_img width height img n
  (color_calls (julia _reals c_re c_im start_re start_im width height res n) (g, my_img)).map
    fun s => (s.1, s.2.buffer)

/-- The function `julia_V1` of `intrin_v1.c` with its effect. -/
def run_julia_V1 (memory : four_complexes) (g : Globals) (c_re c_im start_re start_im : ℚ)
    (width height : ℕ) (res : ℚ) (n : ℕ) (img : Option (ℕ → ℕ)) :
    Option (Globals × Option (ℕ → ℕ)) :=
  let my_img := get_img width height img n
  (color_calls (julia_V1 memory c_re c_im start_re start_im width height res n) (g, my_img)).map
    fun s => (s.1, s.2.buffer)

/-- The function `julia_V2` of `naive.c` with its effect. -/
def run_julia_V2 (g : Globals) (c_re c_im start_re start_im : ℚ)
    (width height : ℕ) (res : ℚ) (n : ℕ) (img : Option (ℕ → ℕ)) :
    Option (Globals × Option (ℕ → ℕ)) :=
  let my_img := get_img width height img n
  (color_calls (julia_V2 c_re c_im start_re start_im width height res n) (g, my_img)).map
    fun s => (s.1, s.2.buffer)

/-- The content of `four_complexes` when `julia_V1` frees it: the block an allocator
hands out again at the next `malloc` of that size. -/
def intrin_v1.final_pool (memory : four_complexes) (c_re c_im start_re start_im : ℚ)
    (width height : ℕ) (res : ℚ) (n : ℕ) : four_complexes :=
  (intrin_v1.enumerate (get_args c_re c_im start_re start_im res n) width height
    (get_aligned_four_complexes memory)).1

/-! ## The correctness harness (`correctness.c`) -/

/-- The ways `test` ends: the path `Passed` with a normal return, or one of the three
`Failed` messages followed by `exit(0)`. -/
inductive TestOutcome where
  | passed
  | failed_optimized
  | failed_less_optimized
  | failed_naive
deriving DecidableEq, Repr

/-- The body of the comparison loops of `test` for the pixel `(x, y)`: the message, if one
of the three comparisons fails. -/
def test.compare (args : Arguments) (width : ℕ) (iterations0 iterations1 iterations2 : ℕ → ℕ)
    (y x : ℕ) : Option TestOutcome :=
  let im := args.start_im + (y : ℚ) * args.res
  let re := args.start_re + (x : ℚ) * args.res
  let iter := iterate_reference re im args
  let offset := ((y * width + x) % 2 ^ 64) % 2 ^ 32
  if iterations0 offset ≠ iter then some TestOutcome.failed_optimized
  else if iterations1 offset ≠ iter then some TestOutcome.failed_less_optimized
  else if iterations2 offset ≠ iter then some TestOutcome.failed_naive
  else none

/-- The function `test` of `correctness.c`. `iterations0`, `iterations1`, `iterations2` are
the contents of the three blocks that `malloc` returns (the exit for a failed allocation is
not part of the embedding); `_reals` and `memory` are what V0 and V1 find uninitialised. The
result is the way the function ends and the globals at that moment; `none` when the null
image pointer is dereferenced. -/
def test (_reals : Lanes ℚ) (memory : four_complexes) (iterations0 iterations1 iterations2 : ℕ → ℕ)
    (g : Globals) (args : Arguments) (width height : ℕ) : Option (TestOutcome × Globals) :=
  let g := { g with CORRECTNESS_TEST := true }
  let g := { g with CORRECTNESS_BUFFER := iterations0 }
  (run_julia _reals g args.c_re args.c_im args.start_re args.start_im width height args.res
      args.n none).bind fun r0 =>
    let iterations0 := r0.1.CORRECTNESS_BUFFER
    let g := { r0.1 with CORRECTNESS_BUFFER := iterations1 }
    (run_julia_V1 memory g args.c_re args.c_im args.start_re args.start_im width height args.res
        args.n none).bind fun r1 =>
      let iterations1 := r1.1.CORRECTNESS_BUFFER
      let g := { r1.1 with CORRECTNESS_BUFFER := iterations2 }
      (run_julia_V2 g args.c_re args.c_im args.start_re args.start_im width height args.res
          args.n none).bind fun r2 =>
        let iterations2 := r2.1.CORRECTNESS_BUFFER
        let g := r2.1
        match (List.range height).findSome? (fun y =>
            (List.range width).findSome? (fun x =>
              test.compare args width iterations0 iterations1 iterations2 y x)) with
        | some failed => some (failed, g)
        | none => some (TestOutcome.passed, { g with CORRECTNESS_TEST := false })

/-- The content of a block of counts after an engine has made the calls `calls` in
verification mode on an image of width `width`. -/
def recorded_counts (calls : List ColorCall) (width : ℕ) (block : ℕ → ℕ) : ℕ → ℕ :=
  calls.foldl (fun b c =>
    Function.update b (((c.y * width + c.x) % 2 ^ 64) % 2 ^ 32) c.iterations) block

/-- The index at which `color_pixel` in verification mode and the comparison loops of `test`
access a block of counts for the pixel `(x, y)`: `y * width + x` as an `unsigned`. -/
def test.index (width y x : ℕ) : ℕ :=
  ((y * width + x) % 2 ^ 64) % 2 ^ 32

/-- The value of the reference iterator that `test` compares with for the pixel `(x, y)`. -/
def test.reference (args : Arguments) (y x : ℕ) : ℕ :=
  iterate_reference (args.start_re + (x : ℚ) * args.res) (args.start_im + (y : ℚ) * args.res) args

/-- The block `iterations0` after the run of V0 in `test`. -/
def test.counts0 (_reals : Lanes ℚ) (iterations0 : ℕ → ℕ) (args : Arguments)
    (width height : ℕ) : ℕ → ℕ :=
  recorded_counts (julia _reals args.c_re args.c_im args.start_re args.start_im width height
    args.res args.n) width iterations0

/-- The block `iterations1` after the run of V1 in `test`. -/
def test.counts1 (memory : four_complexes) (iterations1 : ℕ → ℕ) (args : Arguments)
    (width height : ℕ) : ℕ → ℕ :=
  recorded_counts (julia_V1 memory args.c_re args.c_im args.start_re args.start_im width height
    args.res args.n) width iterations1

/-- The block `iterations2` after the run of the naive engine in `test`. -/
def test.counts2 (iterations2 : ℕ → ℕ) (args : Arguments) (width height : ℕ) : ℕ → ℕ :=
  recorded_counts (julia_V2 args.c_re args.c_im args.start_re args.start_im width height
    args.res args.n) width iterations2

/-- The globals of a run in image mode: `CORRECTNESS_TEST` is false (its initial value). -/
def image_mode : Globals :=
  { CORRECTNESS_TEST := false, CORRECTNESS_BUFFER := fun _ => 0 }

/-- A content of the block that `malloc` returns for `four_complexes`: as `zero_memory`, with
every `count` equal to 1. -/
def ones_memory : four_complexes :=
  { zero_memory with count := fun _ => 1 }

/-- The first `size` bytes of the image buffer after a run (`none` when the run faulted or
there is no buffer). -/
def buffer_bytes (r : Option (Globals × Option (ℕ → ℕ))) (size : ℕ) : Option (List ℕ) :=
  r.bind fun s => s.2.map fun buffer => (List.range size).map buffer

/-- The three stores of `color_pixel` in image mode for the call `c`, on the content
`buffer` of an image buffer of an image of width `width` and colour scale `color_const`. -/
def paint_pixel (width : ℕ) (color_const : ℚ) (buffer : ℕ → ℕ) (c : ColorCall) : ℕ → ℕ :=
  let color := map_to_color c.iterations color_const
  let o := ((c.y * width * 3 + c.x * 3) % 2 ^ 64) % 2 ^ 32
  Function.update
    (Function.update (Function.update buffer ((o + 2) % 2 ^ 32) (color >>> 1))
      ((o + 1) % 2 ^ 32) (color >>> 2))
    o color

/-- The content of an image buffer after the calls `calls` in image mode. -/
def paint (width : ℕ) (color_const : ℚ) (calls : List ColorCall) (buffer : ℕ → ℕ) : ℕ → ℕ :=
  calls.foldl (paint_pixel width color_const) buffer

/-- The byte at index `i` of the picture in which the pixel `(x, y)` has the count `f y x`:
the level, the level shifted by 2 and the level shifted by 1 for the three bytes of a
pixel. -/
def rendered_byte (width : ℕ) (color_const : ℚ) (f : ℕ → ℕ → ℕ) (i : ℕ) : ℕ :=
  let level := map_to_color (f (i / 3 / width) (i / 3 % width)) color_const
  if i % 3 = 0 then level else if i % 3 = 1 then level >>> 2 else level >>> 1

/-- The image buffer that holds the picture of the counts `f` in its first
`3 * width * height` bytes and the content `buffer` beyond. -/
def rendered (width height : ℕ) (color_const : ℚ) (f : ℕ → ℕ → ℕ) (buffer : ℕ → ℕ) :
    ℕ → ℕ :=
  fun i => if i < 3 * (width * height) then rendered_byte width color_const f i else buffer i

/-! ## The time measurement (`performanz.c`) -/

/-- The three engines, as the values of the function pointer `julia_impl` of `measure`. -/
inductive Engine where
  | julia
  | julia_V1
  | julia_V2
deriving DecidableEq, Repr

/-- The macro `INTRIN_V0` of `util.h`. -/
def INTRIN_V0 : ℤ := 0

/-- The macro `INTRIN_V1` of `util.h`. -/
def INTRIN_V1 : ℤ := 1

/-- The macro `NAIVE` of `util.h`. -/
def NAIVE : ℤ := 2

/-- A call `julia_impl(args->c, args->start, img->width, img->height, args->res, args->n,
img->buffer)` of `measure`: the engine called and its arguments. `buffer` stands for the
pointer `img->buffer`, identified with what it points to when `measure` is entered (the
calls themselves write through it). -/
structure EngineCall where
  impl : Engine
  c_re : ℚ
  c_im : ℚ
  start_re : ℚ
  start_im : ℚ
  width : ℕ
  height : ℕ
  res : ℚ
  n : ℕ
  buffer : Option (ℕ → ℕ)

/-- How a call of `measure` ends: with `exit(EXIT_FAILURE)`, with a counter overflow that C
leaves undefined, or by returning, after the engine calls `calls`. The average time that is
returned depends on the clock and is not part of the embedding. -/
inductive MeasureResult where
  | exit_failure
  | undefined
  | returned (calls : List EngineCall)

/-- The `switch (implementation)` of `measure`: the engine selected, `none` for the
`default` branch. -/
def measure.select (implementation : ℤ) : Option Engine :=
  if implementation = INTRIN_V0 then some Engine.julia
  else if implementation = INTRIN_V1 then some Engine.julia_V1
  else if implementation = NAIVE then some Engine.julia_V2
  else none

/-- The loop `for (int i = 0; i < repetitions; i++)` of `measure`, with `rem` passes left;
`calls` are the calls made so far. -/
def measure.loop (call : EngineCall) : ℕ → List EngineCall → List EngineCall
  | 0, calls => calls
  | rem + 1, calls => measure.loop call rem (calls ++ [call])

/-- The function `measure` of `performanz.c`. The `default` branch of the switch ends the
program before the loop. The counter `i` is an `int`: for `repetitions > INT_MAX` its
increment overflows. The output to `stdout` (`print`) is not part of the embedding. -/
def measure (implementation : ℤ) (repetitions : ℤ) (args : Arguments) (img : Image)
    (_print : Bool) : MeasureResult :=
  match measure.select implementation with
  | none => MeasureResult.exit_failure
  | some julia_impl =>
    if repetitions > 2 ^ 31 - 1 then MeasureResult.undefined
    else
      MeasureResult.returned (measure.loop
        ⟨julia_impl, args.c_re, args.c_im, args.start_re, args.start_im, img.width, img.height,
          args.res, args.n, img.buffer⟩ repetitions.toNat [])

/-! ## The main loop of V0, pass by pass -/

/-- The registers `_reals`, `_imags`, `iterations` and the variable `mask` of the main
iterations loop of V0. -/
structure intrin_v0.LoopState where
  reals : Lanes ℚ
  imags : Lanes ℚ
  iterations : Lanes ℕ
  mask : ℕ

/-- One pass of the body of the main iterations loop of V0, in exact arithmetic: the state
after the pass, and whether the pass ended with the `break`. Over binary32:
`binary32.pass`. -/
def intrin_v0.pass (args : Arguments) (st : intrin_v0.LoopState) : intrin_v0.LoopState × Bool :=
  let _re : Lanes ℚ := fun j => st.reals j * st.reals j
  let _im : Lanes ℚ := fun j => st.imags j * st.imags j
  let abs : Lanes ℚ := fun j => _re j + _im j
  let abs : Lanes Bool := fun j => decide (abs j ≤ args.radius_sqr)
  let mask := st.mask &&& movemask abs
  let ones : Lanes ℕ := fun j => if abs j then 1 else 0
  let iterations : Lanes ℕ := fun j => (st.iterations j + ones j) % 2 ^ 32
  if mask = 0 then (⟨st.reals, st.imags, iterations, mask⟩, true)
  else
    let _imags1 : Lanes ℚ := fun j => st.reals j * st.imags j
    let _imags2 : Lanes ℚ := fun j => _imags1 j * 2
    let _imags3 : Lanes ℚ := fun j => _imags2 j + args.c_im
    let _reals1 : Lanes ℚ := fun j => _re j - _im j
    let _reals2 : Lanes ℚ := fun j => _reals1 j + args.c_re
    (⟨_reals2, _imags3, iterations, mask⟩, false)

/-- The state of the main iterations loop of V0 after `k` passes, or after the pass that
ended with the `break` if that came earlier, and whether the loop was left by the
`break`. -/
def intrin_v0.passes (args : Arguments) : ℕ → intrin_v0.LoopState → intrin_v0.LoopState × Bool
  | 0, st => (st, false)
  | k + 1, st =>
    let r := intrin_v0.passes args k st
    if r.2 then r else intrin_v0.pass args r.1

/-! ## The pool of V1 -/

/-- The number of entries of the pool that are not marked empty. -/
def intrin_v1.occupied (nums : four_complexes) : ℕ :=
  ((List.finRange 4).filter fun i => decide (nums.reals i ≠ FLT_MAX)).length

/-- The body of the loop `for (int j = 0; j < 4; j++)` of V1 `compute_last_points`: the
calls made for entry `j`. -/
def intrin_v1.last_point (args : Arguments) (nums : four_complexes) (j : Fin 4) :
    List ColorCall :=
  if nums.reals j ≠ FLT_MAX then
    let a := nums.reals j
    let b := nums.imags j
    if nums.count j = 0 then
      let iter := iterate_naive a b args
      [⟨nums.y_coords j, nums.x_coords j, iter⟩]
    else
      let r := intrin_v1.last_loop args (args.n - nums.count j) a b (nums.count j)
      (match r.1 with
        | some i => [(⟨nums.y_coords j, nums.x_coords j, i⟩ : ColorCall)]
        | none => []) ++
      (if r.2 = args.n then [⟨nums.y_coords j, nums.x_coords j, BLACK⟩] else [])
  else []

/-- What the loop of V0 maintains: a lane whose bit in `mask` is clear holds a point outside
the radius, and every counter is below `2^32`. -/
def intrin_v0.LoopInv (args : Arguments) (st : intrin_v0.LoopState) : Prop :=
  (∀ j : Fin 4, st.mask.testBit j = false →
      args.radius_sqr < st.reals j * st.reals j + st.imags j * st.imags j) ∧
    ∀ j : Fin 4, st.iterations j < 2 ^ 32

/-! ## The loop `while (full)` of V1, pass by pass -/

/-- The number of passes the loop `while (full)` of V1 `enumerate` makes until it is left,
on the state on which `intrin_v1.full_loop` runs; `none` when `fuel` passes do not
suffice. -/
def intrin_v1.full_loop_passes (args : Arguments) :
    ℕ → four_complexes → Lanes ℚ → Lanes ℚ → Lanes ℕ → List ColorCall → Option ℕ
  | 0, _, _, _, _, _ => none
  | fuel + 1, nums, xreals, ximags, xcount, calls =>
    let r := next_of_four args xreals ximags
    let xcount : Lanes ℕ := fun j => (xcount j + 1) % 2 ^ 32
    let nums := { nums with count := xcount }
    let xdist : Lanes ℕ := fun j => if r.2.2 j > args.radius_sqr then 2 ^ 32 - 1 else 0
    let nums := { nums with bits := xdist }
    let st := (List.finRange 4).foldl (intrin_v1.check_lane args) (nums, true, calls)
    if st.2.1 then
      (intrin_v1.full_loop_passes args fuel st.1 r.1 r.2.1 xcount st.2.2).map fun k => k + 1
    else some 1

/-- The state of V1 `enumerate` on an image of width `width`, started on the pool `nums`,
when the pixel `(x, y)` is about to be processed: the rows before `y` and the columns
before `x` of row `y` have been processed. -/
def intrin_v1.state_before (args : Arguments) (width : ℕ) (nums : four_complexes) (y x : ℕ) :
    four_complexes × List ColorCall :=
  (List.range x).foldl (intrin_v1.enumerate_x args y (args.start_im + (y : ℚ) * args.res))
    ((List.range y).foldl (intrin_v1.enumerate_y args width) (nums, []))

/-- The pool of V1 `enumerate` right after `insert` has been called for the pixel `(x, y)`:
the pool on which the test `population < 4` is made and, if it fails, the loop
`while (full)` is entered. -/
def intrin_v1.pool_at (args : Arguments) (width : ℕ) (nums : four_complexes) (y x : ℕ) :
    four_complexes :=
  intrin_v1.insert (intrin_v1.state_before args width nums y x).1
    (args.start_re + (x : ℚ) * args.res) (args.start_im + (y : ℚ) * args.res) y x

/-! ## Binary32 arithmetic -/

/-- A value of the C type `float` (IEEE 754 binary32): a NaN, an infinity with its sign, or
a finite value, given as the rational it denotes. The finite values are the rationals
`m * 2^e` with `|m| < 2^24` and `-149 ≤ e ≤ 104`. The sign of a zero is not tracked: no
operation of the program that is embedded over `F32` divides by a computed zero. -/
inductive F32 where
  | nan
  | inf (negative : Bool)
  | fin (q : ℚ)
deriving DecidableEq

/-- The power `2^e` for an integer exponent. -/
def F32.pow2 (e : ℤ) : ℚ :=
  if 0 ≤ e then ((2 ^ e.toNat : ℕ) : ℚ) else 1 / ((2 ^ (-e).toNat : ℕ) : ℚ)

/-- The loop of the binary logarithm: `n` is halved until it is below `2`. -/
def F32.log2_loop : ℕ → ℕ → ℕ
  | 0, _ => 0
  | fuel + 1, n => if n < 2 then 0 else F32.log2_loop fuel (n / 2) + 1

/-- The binary logarithm of `n ≥ 1`, rounded down: the `k` with `2^k ≤ n < 2^(k+1)`. -/
def F32.log2 (n : ℕ) : ℕ :=
  F32.log2_loop n n

/-- The exponent of a positive rational `a`: the integer `e` with `2^e ≤ a < 2^(e+1)`. It
is the difference of the logarithms of numerator and denominator, or one less. -/
def F32.ilog2 (a : ℚ) : ℤ :=
  let e0 : ℤ := (F32.log2 a.num.natAbs : ℤ) - (F32.log2 a.den : ℤ)
  if F32.pow2 e0 ≤ a then e0 else e0 - 1

/-- The integer nearest to `m ≥ 0`, a tie going to the even one. -/
def F32.round_even (m : ℚ) : ℤ :=
  let f := ⌊m⌋
  if m - f < 1 / 2 then f
  else if 1 / 2 < m - f then f + 1
  else if f % 2 = 0 then f else f + 1

/-- Rounding of an exact result to binary32, in the default rounding mode (to nearest, ties
to even): the result is a multiple of `2^(e - 23)` with `e` the exponent of the value, at
least `-126` (subnormal range); a value of magnitude `(2^24 - 1/2) * 2^104` or more
overflows to an infinity. -/
def F32.round (q : ℚ) : F32 :=
  if q = 0 then F32.fin 0
  else
    let a := if q < 0 then -q else q
    if (2 ^ 24 - 1 / 2) * 2 ^ 104 ≤ a then F32.inf (decide (q < 0))
    else
      let e := if F32.ilog2 a < -126 then -126 else F32.ilog2 a
      let quantum := F32.pow2 (e - 23)
      let m := F32.round_even (a / quantum)
      F32.fin ((if q < 0 then -1 else 1) * (m : ℚ) * quantum)

/-- The negation of a `float`. -/
def F32.neg : F32 → F32
  | F32.nan => F32.nan
  | F32.inf s => F32.inf (!s)
  | F32.fin q => F32.fin (-q)

/-- The product of two `float`s. -/
def F32.mul : F32 → F32 → F32
  | F32.nan, _ => F32.nan
  | _, F32.nan => F32.nan
  | F32.inf s, F32.inf t => F32.inf (s != t)
  | F32.inf s, F32.fin q => if q = 0 then F32.nan else F32.inf (s != decide (q < 0))
  | F32.fin p, F32.inf t => if p = 0 then F32.nan else F32.inf (decide (p < 0) != t)
  | F32.fin p, F32.fin q => F32.round (p * q)

/-- The sum of two `float`s. -/
def F32.add : F32 → F32 → F32
  | F32.nan, _ => F32.nan
  | _, F32.nan => F32.nan
  | F32.inf s, F32.inf t => if s = t then F32.inf s else F32.nan
  | F32.inf s, F32.fin _ => F32.inf s
  | F32.fin _, F32.inf t => F32.inf t
  | F32.fin p, F32.fin q => F32.round (p + q)

/-- The difference of two `float`s. -/
def F32.sub (x y : F32) : F32 :=
  F32.add x (F32.neg y)

/-- The quotient of two `float`s; a zero divisor is read as `+0`. -/
def F32.div : F32 → F32 → F32
  | F32.nan, _ => F32.nan
  | _, F32.nan => F32.nan
  | F32.inf _, F32.inf _ => F32.nan
  | F32.inf s, F32.fin q => F32.inf (s != decide (q < 0))
  | F32.fin _, F32.inf _ => F32.fin 0
  | F32.fin p, F32.fin q =>
    if q = 0 then (if p = 0 then F32.nan else F32.inf (decide (p < 0)))
    else F32.round (p / q)

/-- The loop of the integer square root: the bits `bit - 1, ..., 0` are tried in turn. -/
def F32.isqrt_loop (n : ℕ) : ℕ → ℕ → ℕ
  | 0, r => r
  | bit + 1, r =>
    if (r + 2 ^ bit) * (r + 2 ^ bit) ≤ n then F32.isqrt_loop n bit (r + 2 ^ bit)
    else F32.isqrt_loop n bit r

/-- The integer square root of `n < 2^64`: the largest `r` with `r * r ≤ n`. -/
def F32.isqrt (n : ℕ) : ℕ :=
  F32.isqrt_loop n 32 0

/-- The function `sqrtf`: the correctly rounded square root. With `2^(2h) ≤ q < 2^(2h+2)`
the root lies in `[2^h, 2^(h+1))` and is rounded to a multiple of `2^(h - 23)`. -/
def F32.sqrt : F32 → F32
  | F32.nan => F32.nan
  | F32.inf s => if s then F32.nan else F32.inf false
  | F32.fin q =>
    if q < 0 then F32.nan
    else if q = 0 then F32.fin 0
    else
      let h := F32.ilog2 q / 2
      let quantum := F32.pow2 (h - 23)
      let t := q / (quantum * quantum)
      let f : ℕ := F32.isqrt ⌊t⌋.toNat
      let half : ℚ := ((f : ℚ) + 1 / 2) * ((f : ℚ) + 1 / 2)
      let m : ℕ := if t < half then f else if half < t then f + 1
        else if f % 2 = 0 then f else f + 1
      F32.fin ((m : ℚ) * quantum)

/-- The comparison `x <= y` of two `float`s; false when an operand is a NaN. -/
def F32.le : F32 → F32 → Bool
  | F32.nan, _ => false
  | _, F32.nan => false
  | F32.inf s, F32.inf t => s || !t
  | F32.inf s, F32.fin _ => s
  | F32.fin _, F32.inf t => !t
  | F32.fin p, F32.fin q => decide (p ≤ q)

/-- The comparison `x > y` of two `float`s; false when an operand is a NaN. -/
def F32.gt : F32 → F32 → Bool
  | F32.nan, _ => false
  | _, F32.nan => false
  | F32.inf s, F32.inf t => !s && t
  | F32.inf s, F32.fin _ => !s
  | F32.fin _, F32.inf t => t
  | F32.fin p, F32.fin q => decide (q < p)

/-- The conversion of an `unsigned` or `size_t` value to `float`. -/
def F32.ofNat (n : ℕ) : F32 :=
  F32.round (n : ℚ)

/-- The conversion `(unsigned char) f` of a `float`: the fractional part is discarded. The
conversion is undefined in C when the result is outside `[0, 255]` or `f` is not finite;
a finite value is then reduced modulo `256` and the others give `0`. -/
def F32.to_uchar : F32 → ℕ
  | F32.fin q => ((if 0 ≤ q then ⌊q⌋ else ⌈q⌉) % 256).toNat
  | _ => 0

/-! ## The scalar iterators and the colour map over binary32 -/

/-- The struct `Arguments` of `util.h` with `float` fields as binary32 values. -/
structure binary32.Arguments where
  c_re : F32
  c_im : F32
  start_re : F32
  start_im : F32
  res : F32
  n : ℕ
  radius_sqr : F32

/-- The function `get_args` of `util.c` over binary32: `c_betrag = sqrtf(re*re + im*im)`,
`radius = (c_betrag > 2) ? c_betrag : 2` and `radius_sqr = radius*radius`. -/
def binary32.get_args (c_re c_im start_re start_im res : F32) (n : ℕ) : binary32.Arguments :=
  let c_betrag := F32.sqrt (F32.add (F32.mul c_re c_re) (F32.mul c_im c_im))
  let radius := if F32.gt c_betrag (F32.fin 2) then c_betrag else F32.fin 2
  { c_re := c_re
    c_im := c_im
    start_re := start_re
    start_im := start_im
    res := res
    n := n
    radius_sqr := F32.mul radius radius }

/-- The `do ... while` loop of `iterate_reference` over binary32, entered with the current
`x`, `y` and `k`; the body runs once per unit of `fuel`. -/
def binary32.reference_loop (args : binary32.Arguments) : ℕ → F32 → F32 → ℕ → ℕ
  | 0, _, _, k => k
  | fuel + 1, x, y, k =>
    let xtemp := x
    let x := F32.add (F32.sub (F32.mul x x) (F32.mul y y)) args.c_re
    let y := F32.add (F32.mul (F32.mul (F32.fin 2) xtemp) y) args.c_im
    let k := k + 1
    if F32.le (F32.add (F32.mul x x) (F32.mul y y)) args.radius_sqr = true ∧ k < args.n then
      binary32.reference_loop args fuel x y k
    else k

/-- The function `iterate_reference` of `correctness.c` over binary32. The loop is left
after at most `n` passes when `1 ≤ n`, so the fuel `n + 1` is not used up. -/
def binary32.iterate_reference (x y : F32) (args : binary32.Arguments) : ℕ :=
  let k := binary32.reference_loop args (args.n + 1) x y 0
  if k = args.n then BLACK else k

/-- The `for (i = 1; i < n; i++)` loop of `iterate_naive` over binary32, with
`rem = n - i` passes left. -/
def binary32.naive_loop (args : binary32.Arguments) : ℕ → F32 → F32 → ℕ → ℕ
  | 0, _, _, _ => BLACK
  | rem + 1, a, b, i =>
    let tmp_a := a
    let a := F32.add (F32.sub (F32.mul a a) (F32.mul b b)) args.c_re
    let b := F32.add (F32.mul (F32.mul (F32.fin 2) tmp_a) b) args.c_im
    if F32.gt (F32.add (F32.mul a a) (F32.mul b b)) args.radius_sqr = true then i
    else binary32.naive_loop args rem a b (i + 1)

/-- The function `iterate_naive` of `naive.c` over binary32. -/
def binary32.iterate_naive (a b : F32) (args : binary32.Arguments) : ℕ :=
  binary32.naive_loop args (args.n - 1) a b 1

/-- The value `color_const = 255.0f / n` that `get_img` of `util.c` stores, over binary32. -/
def binary32.color_const (n : ℕ) : F32 :=
  F32.div (F32.fin 255) (F32.ofNat n)

/-- The function `map_to_color` of `util.c` over binary32. -/
def binary32.map_to_color (iterations : ℕ) (color_const : F32) : ℕ :=
  if iterations = BLACK then 0
  else 255 - F32.to_uchar (F32.mul (F32.ofNat iterations) color_const)

/-- The iterates `z_k` as the `float` operations of the scalar iterators compute them. -/
def binary32.orbit (args : binary32.Arguments) (x y : F32) : ℕ → F32 × F32
  | 0 => (x, y)
  | k + 1 =>
    let z := binary32.orbit args x y k
    (F32.add (F32.sub (F32.mul z.1 z.1) (F32.mul z.2 z.2)) args.c_re,
      F32.add (F32.mul (F32.mul (F32.fin 2) z.1) z.2) args.c_im)

/-- The value `|z_k|^2` as the `float` operations of the scalar iterators compute it. -/
def binary32.norm_sqr (args : binary32.Arguments) (x y : F32) (k : ℕ) : F32 :=
  let z := binary32.orbit args x y k
  F32.add (F32.mul z.1 z.1) (F32.mul z.2 z.2)

/-! ## The main loop of V0 over binary32 -/

/-- The registers `_reals`, `_imags`, `iterations` and the variable `mask` of the main
iterations loop of V0, the `float` lanes as binary32 values. -/
structure binary32.LoopState where
  reals : Lanes F32
  imags : Lanes F32
  iterations : Lanes ℕ
  mask : ℕ

/-- One pass of the body of the main iterations loop of V0 over binary32: the state after
the pass, and whether the pass ended with the `break`. -/
def binary32.pass (args : binary32.Arguments) (st : binary32.LoopState) :
    binary32.LoopState × Bool :=
  let _re : Lanes F32 := fun j => F32.mul (st.reals j) (st.reals j)
  let _im : Lanes F32 := fun j => F32.mul (st.imags j) (st.imags j)
  let abs : Lanes F32 := fun j => F32.add (_re j) (_im j)
  let abs : Lanes Bool := fun j => F32.le (abs j) args.radius_sqr
  let mask := st.mask &&& movemask abs
  let ones : Lanes ℕ := fun j => if abs j then 1 else 0
  let iterations : Lanes ℕ := fun j => (st.iterations j + ones j) % 2 ^ 32
  if mask = 0 then (⟨st.reals, st.imags, iterations, mask⟩, true)
  else
    let _imags1 : Lanes F32 := fun j => F32.mul (st.reals j) (st.imags j)
    let _imags2 : Lanes F32 := fun j => F32.mul (_imags1 j) (F32.fin 2)
    let _imags3 : Lanes F32 := fun j => F32.add (_imags2 j) args.c_im
    let _reals1 : Lanes F32 := fun j => F32.sub (_re j) (_im j)
    let _reals2 : Lanes F32 := fun j => F32.add (_reals1 j) args.c_re
    (⟨_reals2, _imags3, iterations, mask⟩, false)

/-- The state of the main iterations loop of V0 over binary32 after `k` passes, or after
the pass that ended with the `break` if that came earlier, and whether the loop was left by
the `break`. -/
def binary32.passes (args : binary32.Arguments) :
    ℕ → binary32.LoopState → binary32.LoopState × Bool
  | 0, st => (st, false)
  | k + 1, st =>
    let r := binary32.passes args k st
    if r.2 then r else binary32.pass args r.1

/-- The state in which V0 `enumerate` enters the main iterations loop for the batch of the
pixels `x - 3, ..., x` of row `y`: `re = start_x + x * res` per lane, `im = start_y + y * res`
in every lane, counters `0` and `mask = 15`. -/
def binary32.batch_state (args : binary32.Arguments) (y x : ℕ) : binary32.LoopState :=
  { reals := fun j => F32.add args.start_re (F32.mul (F32.ofNat (x - 3 + j)) args.res)
    imags := fun _ => F32.add args.start_im (F32.mul (F32.ofNat y) args.res)
    iterations := fun _ => 0
    mask := 15 }

/-- The loop `for (int i = 0; i < 4; i++)` of V0 that colours the four pixels of a batch
ending at column `x`, for the binary32 arguments. -/
def binary32.color_batch (args : binary32.Arguments) (y x : ℕ) (results : Lanes ℕ) :
    List ColorCall :=
  (List.finRange 4).map fun i =>
    if results i = args.n then ⟨y, x - 3 + i, BLACK⟩
    else if results i = 0 then ⟨y, x - 3 + i, 1⟩
    else ⟨y, x - 3 + i, results i⟩

/-- The calls V0 makes over binary32 for the batch of the pixels `x - 3, ..., x` of row `y`:
the main iterations loop runs for at most `n` passes on the state `binary32.batch_state`,
and the counters it leaves are coloured. -/
def binary32.batch_calls (args : binary32.Arguments) (y x : ℕ) : List ColorCall :=
  binary32.color_batch args y x
    (binary32.passes args args.n (binary32.batch_state args y x)).1.iterations

/-! ## The loops of the scalar iterators over binary32 -/

theorem orbit_shift_binary32 (args : binary32.Arguments) (x y : F32) (k : ℕ) :
    binary32.orbit args x y (k + 1)
      = binary32.orbit args (F32.add (F32.sub (F32.mul x x) (F32.mul y y)) args.c_re)
          (F32.add (F32.mul (F32.mul (F32.fin 2) x) y) args.c_im) k := by
  induction k with
  | zero => rfl
  | succ k ih =>
    rw [binary32.orbit, ih]
    rfl

theorem norm_sqr_shift_binary32 (args : binary32.Arguments) (x y : F32) (k : ℕ) :
    binary32.norm_sqr args x y (k + 1)
      = binary32.norm_sqr args (F32.add (F32.sub (F32.mul x x) (F32.mul y y)) args.c_re)
          (F32.add (F32.mul (F32.mul (F32.fin 2) x) y) args.c_im) k := by
  unfold binary32.norm_sqr
  rw [orbit_shift_binary32]

/-- The value the loops of the scalar iterators test in their first pass is `|z_1|^2`. -/
theorem norm_sqr_one_binary32 (args : binary32.Arguments) (x y : F32) :
    binary32.norm_sqr args x y 1
      = F32.add
          (F32.mul (F32.add (F32.sub (F32.mul x x) (F32.mul y y)) args.c_re)
            (F32.add (F32.sub (F32.mul x x) (F32.mul y y)) args.c_re))
          (F32.mul (F32.add (F32.mul (F32.mul (F32.fin 2) x) y) args.c_im)
            (F32.add (F32.mul (F32.mul (F32.fin 2) x) y) args.c_im)) :=
  rfl

/-- The reference loop over binary32 stops at the first pass whose test `<=` fails, or when
`k` reaches `n`. -/
theorem reference_loop_binary32_stops (args : binary32.Arguments) :
    ∀ (fuel : ℕ) (x y : F32) (k0 m : ℕ), 1 ≤ m → m ≤ fuel → k0 + m ≤ args.n →
      (∀ j, 1 ≤ j → j < m →
        F32.le (binary32.norm_sqr args x y j) args.radius_sqr = true) →
      (F32.le (binary32.norm_sqr args x y m) args.radius_sqr = false ∨ k0 + m = args.n) →
      binary32.reference_loop args fuel x y k0 = k0 + m := by
  intro fuel
  induction fuel with
  | zero => intro x y k0 m h1 h2; omega
  | succ fuel ih =>
    intro x y k0 m h1 hm hkn hin hstop
    simp only [binary32.reference_loop]
    rw [← norm_sqr_one_binary32]
    by_cases hm1 : m = 1
    · subst hm1
      rw [if_neg]
      intro hc
      rcases hstop with h | h
      · rw [h] at hc
        exact Bool.false_ne_true hc.1
      · omega
    · have hfirst := hin 1 le_rfl (by omega)
      rw [if_pos ⟨hfirst, by omega⟩]
      obtain ⟨m', rfl⟩ : ∃ m', m = m' + 1 := ⟨m - 1, by omega⟩
      rw [ih _ _ (k0 + 1) m' (by omega) (by omega) (by omega)]
      · omega
      · intro j hj hjm
        rw [← norm_sqr_shift_binary32]
        exact hin (j + 1) (by omega) (by omega)
      · rcases hstop with h | h
        · left
          rw [← norm_sqr_shift_binary32]
          exact h
        · right
          omega

/-- Fuel: the reference loop over binary32, entered with `k`, makes at most `n - k` passes
(one if `n ≤ k`), so any larger fuel gives the same result. -/
theorem reference_loop_binary32_fuel (args : binary32.Arguments) :
    ∀ (fuel fuel2 : ℕ) (x y : F32) (k : ℕ), args.n - k ≤ fuel → 1 ≤ fuel → fuel ≤ fuel2 →
      binary32.reference_loop args fuel2 x y k = binary32.reference_loop args fuel x y k := by
  intro fuel
  induction fuel with
  | zero => intro fuel2 x y k _ h; omega
  | succ fuel ih =>
    intro fuel2 x y k hk _ hle
    obtain ⟨f2, rfl⟩ : ∃ f2, fuel2 = f2 + 1 := ⟨fuel2 - 1, by omega⟩
    simp only [binary32.reference_loop]
    split_ifs with h
    · rcases Nat.eq_zero_or_pos fuel with h0 | hpos
      · omega
      · exact ih f2 _ _ _ (by omega) hpos (by omega)
    · rfl

theorem iterate_reference_binary32_stop_aux (args : binary32.Arguments) (x y : F32) (k : ℕ)
    (h1 : 1 ≤ k) (hk : k < args.n)
    (hstop : F32.le (binary32.norm_sqr args x y k) args.radius_sqr = false)
    (hleast : ∀ j, 1 ≤ j → j < k →
      F32.le (binary32.norm_sqr args x y j) args.radius_sqr = true) :
    binary32.iterate_reference x y args = k := by
  unfold binary32.iterate_reference
  have h := reference_loop_binary32_stops args (args.n + 1) x y 0 k h1 (by omega) (by omega)
    hleast (Or.inl hstop)
  simp only [h, Nat.zero_add]
  rw [if_neg (by omega)]

theorem iterate_reference_binary32_black_aux (args : binary32.Arguments) (x y : F32)
    (hn : 1 ≤ args.n)
    (hin : ∀ k, 1 ≤ k → k < args.n →
      F32.le (binary32.norm_sqr args x y k) args.radius_sqr = true) :
    binary32.iterate_reference x y args = BLACK := by
  unfold binary32.iterate_reference
  have h := reference_loop_binary32_stops args (args.n + 1) x y 0 args.n hn (by omega)
    (by omega) hin (Or.inr (by omega))
  simp only [h, Nat.zero_add, if_true]

theorem naive_loop_binary32_black (args : binary32.Arguments) :
    ∀ (rem : ℕ) (a b : F32) (i : ℕ),
      (∀ m, 1 ≤ m → m ≤ rem →
        F32.gt (binary32.norm_sqr args a b m) args.radius_sqr = false) →
      binary32.naive_loop args rem a b i = BLACK := by
  intro rem
  induction rem with
  | zero => intro a b i _; rfl
  | succ rem ih =>
    intro a b i h
    have h1 := h 1 le_rfl (by omega)
    simp only [binary32.naive_loop]
    rw [← norm_sqr_one_binary32, h1, if_neg Bool.false_ne_true]
    apply ih
    intro m hm hmr
    rw [← norm_sqr_shift_binary32]
    exact h (m + 1) (by omega) (by omega)

theorem naive_loop_binary32_escape (args : binary32.Arguments) :
    ∀ (rem : ℕ) (a b : F32) (i m : ℕ), 1 ≤ m → m ≤ rem →
      F32.gt (binary32.norm_sqr args a b m) args.radius_sqr = true →
      (∀ j, 1 ≤ j → j < m →
        F32.gt (binary32.norm_sqr args a b j) args.radius_sqr = false) →
      binary32.naive_loop args rem a b i = i + m - 1 := by
  intro rem
  induction rem with
  | zero => intro a b i m hm hmr; omega
  | succ rem ih =>
    intro a b i m hm hmr hesc hleast
    simp only [binary32.naive_loop]
    rw [← norm_sqr_one_binary32]
    by_cases hm1 : m = 1
    · subst hm1
      rw [if_pos hesc]
      omega
    · have h1 := hleast 1 le_rfl (by omega)
      rw [h1, if_neg Bool.false_ne_true]
      obtain ⟨m', rfl⟩ : ∃ m', m = m' + 1 := ⟨m - 1, by omega⟩
      rw [ih _ _ (i + 1) m' (by omega) (by omega)
        (by rw [← norm_sqr_shift_binary32]; exact hesc)]
      · omega
      · intro j hj hjm
        rw [← norm_sqr_shift_binary32]
        exact hleast (j + 1) (by omega) (by omega)

theorem iterate_naive_binary32_escape_aux (args : binary32.Arguments) (a b : F32) (k : ℕ)
    (h1 : 1 ≤ k) (hk : k < args.n)
    (hesc : F32.gt (binary32.norm_sqr args a b k) args.radius_sqr = true)
    (hleast : ∀ j, 1 ≤ j → j < k →
      F32.gt (binary32.norm_sqr args a b j) args.radius_sqr = false) :
    binary32.iterate_naive a b args = k := by
  unfold binary32.iterate_naive
  rw [naive_loop_binary32_escape args (args.n - 1) a b 1 k h1 (by omega) hesc hleast]
  omega

theorem iterate_naive_binary32_black_aux (args : binary32.Arguments) (a b : F32)
    (h : ∀ k, 1 ≤ k → k < args.n →
      F32.gt (binary32.norm_sqr args a b k) args.radius_sqr = false) :
    binary32.iterate_naive a b args = BLACK := by
  unfold binary32.iterate_naive
  apply naive_loop_binary32_black
  intro m hm hmr
  exact h m hm (by omega)

theorem iterate_naive_binary32_black_iff_aux (args : binary32.Arguments) (a b : F32) :
    binary32.iterate_naive a b args = BLACK ↔
      ∀ k, 1 ≤ k → k < args.n →
        F32.gt (binary32.norm_sqr args a b k) args.radius_sqr = false := by
  constructor
  · intro h0 k hk1 hkn
    by_contra hne
    have hesc : F32.gt (binary32.norm_sqr args a b k) args.radius_sqr = true := by
      simpa using hne
    have hex : ∃ m, 1 ≤ m ∧ F32.gt (binary32.norm_sqr args a b m) args.radius_sqr = true :=
      ⟨k, hk1, hesc⟩
    classical
    have hspec := Nat.find_spec hex
    have hmin : ∀ j, 1 ≤ j → j < Nat.find hex →
        F32.gt (binary32.norm_sqr args a b j) args.radius_sqr = false := by
      intro j hj hlt
      by_contra hj'
      exact Nat.find_min hex hlt ⟨hj, by simpa using hj'⟩
    have hle : Nat.find hex ≤ k := Nat.find_min' hex ⟨hk1, hesc⟩
    have := iterate_naive_binary32_escape_aux args a b (Nat.find hex) hspec.1 (by omega)
      hspec.2 hmin
    rw [h0] at this
    unfold BLACK at this
    omega
  · exact iterate_naive_binary32_black_aux args a b

/-- The tests `>` and `<=` are complementary on two `float`s neither of which is a NaN. -/
theorem F32.gt_eq_not_le (u v : F32) (hu : u ≠ F32.nan) (hv : v ≠ F32.nan) :
    F32.gt u v = !F32.le u v := by
  cases u with
  | nan => exact absurd rfl hu
  | inf s =>
    cases v with
    | nan => exact absurd rfl hv
    | inf t => cases s <;> cases t <;> rfl
    | fin q => cases s <;> rfl
  | fin p =>
    cases v with
    | nan => exact absurd rfl hv
    | inf t => cases t <;> rfl
    | fin q =>
      simp only [F32.gt, F32.le]
      by_cases h : p ≤ q
      · simp [h, not_lt.mpr h]
      · simp [h, not_le.mp h]

/-- Over binary32 the naive iterator and the reference agree on every input on which
neither `radius_sqr` nor one of the computed `|z_k|^2`, `1 ≤ k < n`, is a NaN. -/
theorem iterate_naive_eq_iterate_reference_binary32 (args : binary32.Arguments) (a b : F32)
    (hn : 1 ≤ args.n) (hr : args.radius_sqr ≠ F32.nan)
    (hord : ∀ k, 1 ≤ k → k < args.n → binary32.norm_sqr args a b k ≠ F32.nan) :
    binary32.iterate_naive a b args = binary32.iterate_reference a b args := by
  have hc : ∀ k, 1 ≤ k → k < args.n →
      F32.gt (binary32.norm_sqr args a b k) args.radius_sqr
        = !F32.le (binary32.norm_sqr args a b k) args.radius_sqr :=
    fun k h1 hk => F32.gt_eq_not_le _ _ (hord k h1 hk) hr
  by_cases hex : ∃ m, (1 ≤ m ∧ m < args.n) ∧
      F32.le (binary32.norm_sqr args a b m) args.radius_sqr = false
  · classical
    have hspec := Nat.find_spec hex
    have hmin : ∀ j, 1 ≤ j → j < Nat.find hex →
        F32.le (binary32.norm_sqr args a b j) args.radius_sqr = true := by
      intro j hj hlt
      by_contra hj'
      exact Nat.find_min hex hlt ⟨⟨hj, by omega⟩, by simpa using hj'⟩
    rw [iterate_reference_binary32_stop_aux args a b (Nat.find hex) hspec.1.1 hspec.1.2
      hspec.2 hmin]
    apply iterate_naive_binary32_escape_aux args a b (Nat.find hex) hspec.1.1 hspec.1.2
    · rw [hc _ hspec.1.1 hspec.1.2, hspec.2]
      rfl
    · intro j hj hlt
      rw [hc j hj (by omega), hmin j hj hlt]
      rfl
  · have hin : ∀ k, 1 ≤ k → k < args.n →
        F32.le (binary32.norm_sqr args a b k) args.radius_sqr = true := by
      intro k h1 hk
      by_contra h
      exact hex ⟨k, ⟨h1, hk⟩, by simpa using h⟩
    rw [iterate_reference_binary32_black_aux args a b hn hin]
    apply iterate_naive_binary32_black_aux
    intro k h1 hk
    rw [hc k h1 hk, hin k h1 hk]
    rfl

/-! ## Rounding to binary32: the error of one operation -/

theorem F32.log2_loop_spec : ∀ (fuel n : ℕ), 1 ≤ n → n ≤ fuel →
    2 ^ F32.log2_loop fuel n ≤ n ∧ n < 2 ^ (F32.log2_loop fuel n + 1) := by
  intro fuel
  induction fuel with
  | zero => intro n h1 h2; omega
  | succ fuel ih =>
    intro n h1 h2
    unfold F32.log2_loop
    by_cases h : n < 2
    · rw [if_pos h]
      have : n = 1 := by omega
      subst this
      simp
    · rw [if_neg h]
      obtain ⟨ha, hb⟩ := ih (n / 2) (by omega) (by omega)
      rw [pow_succ, pow_succ, pow_succ]
      constructor <;> omega

/-- The binary logarithm: `2^(log2 n) ≤ n < 2^(log2 n + 1)` for `n ≥ 1`. -/
theorem F32.log2_spec (n : ℕ) (h : 1 ≤ n) :
    2 ^ F32.log2 n ≤ n ∧ n < 2 ^ (F32.log2 n + 1) :=
  F32.log2_loop_spec n n h le_rfl

theorem F32.pow2_eq (e : ℤ) : F32.pow2 e = (2 : ℚ) ^ e := by
  unfold F32.pow2
  split_ifs with h
  · lift e to ℕ using h
    simp
  · obtain ⟨n, rfl⟩ : ∃ n : ℕ, e = -(n : ℤ) := ⟨(-e).toNat, by omega⟩
    simp [zpow_neg]

theorem F32.pow2_pos (e : ℤ) : 0 < F32.pow2 e := by
  rw [F32.pow2_eq]
  positivity

/-- The exponent of a positive rational: `2^(ilog2 a) ≤ a < 2^(ilog2 a + 1)`. -/
theorem F32.ilog2_spec (a : ℚ) (ha : 0 < a) :
    (2 : ℚ) ^ F32.ilog2 a ≤ a ∧ a < (2 : ℚ) ^ (F32.ilog2 a + 1) := by
  have hnum : 0 < a.num := Rat.num_pos.mpr ha
  have hnat : ((a.num.natAbs : ℕ) : ℤ) = a.num := Int.natAbs_of_nonneg hnum.le
  have hn1 : 1 ≤ a.num.natAbs := by omega
  have hd1 : 1 ≤ a.den := a.den_pos
  obtain ⟨hn_lo, hn_hi⟩ := F32.log2_spec a.num.natAbs hn1
  obtain ⟨hd_lo, hd_hi⟩ := F32.log2_spec a.den hd1
  have hnumq : ((a.num.natAbs : ℕ) : ℚ) = (a.num : ℚ) := by
    rw [Nat.cast_natAbs, abs_of_pos hnum]
  have hdq : (0 : ℚ) < (a.den : ℚ) := by exact_mod_cast hd1
  have hnq : (0 : ℚ) < ((a.num.natAbs : ℕ) : ℚ) := by exact_mod_cast hn1
  have ha_eq : ((a.num.natAbs : ℕ) : ℚ) / (a.den : ℚ) = a := by
    rw [hnumq]
    exact Rat.num_div_den a
  have hn_lo' : (2 : ℚ) ^ (F32.log2 a.num.natAbs) ≤ ((a.num.natAbs : ℕ) : ℚ) := by
    exact_mod_cast hn_lo
  have hn_hi' : ((a.num.natAbs : ℕ) : ℚ) < (2 : ℚ) ^ (F32.log2 a.num.natAbs + 1) := by
    exact_mod_cast hn_hi
  have hd_lo' : (2 : ℚ) ^ (F32.log2 a.den) ≤ (a.den : ℚ) := by
    exact_mod_cast hd_lo
  have hd_hi' : (a.den : ℚ) < (2 : ℚ) ^ (F32.log2 a.den + 1) := by
    exact_mod_cast hd_hi
  have h2 : (2 : ℚ) ≠ 0 := by norm_num
  have hlow : (2 : ℚ) ^ ((F32.log2 a.num.natAbs : ℤ) - (F32.log2 a.den : ℤ) - 1) ≤ a := by
    have e1 : (2 : ℚ) ^ ((F32.log2 a.num.natAbs : ℤ) - (F32.log2 a.den : ℤ) - 1)
        = (2 : ℚ) ^ (F32.log2 a.num.natAbs) / (2 : ℚ) ^ (F32.log2 a.den + 1) := by
      rw [show (F32.log2 a.num.natAbs : ℤ) - (F32.log2 a.den : ℤ) - 1
          = (F32.log2 a.num.natAbs : ℤ) - ((F32.log2 a.den + 1 : ℕ) : ℤ) by push_cast; ring]
      rw [zpow_sub₀ h2, zpow_natCast, zpow_natCast]
    have e2 : (2 : ℚ) ^ (F32.log2 a.num.natAbs) / (2 : ℚ) ^ (F32.log2 a.den + 1)
        ≤ ((a.num.natAbs : ℕ) : ℚ) / (a.den : ℚ) := by
      rw [div_le_div_iff₀ (by positivity) hdq]
      calc (2 : ℚ) ^ (F32.log2 a.num.natAbs) * (a.den : ℚ)
          ≤ ((a.num.natAbs : ℕ) : ℚ) * (a.den : ℚ) := by gcongr
        _ ≤ ((a.num.natAbs : ℕ) : ℚ) * (2 : ℚ) ^ (F32.log2 a.den + 1) := by gcongr
    calc (2 : ℚ) ^ ((F32.log2 a.num.natAbs : ℤ) - (F32.log2 a.den : ℤ) - 1)
        = (2 : ℚ) ^ (F32.log2 a.num.natAbs) / (2 : ℚ) ^ (F32.log2 a.den + 1) := e1
      _ ≤ ((a.num.natAbs : ℕ) : ℚ) / (a.den : ℚ) := e2
      _ = a := ha_eq
  have hupp : a < (2 : ℚ) ^ ((F32.log2 a.num.natAbs : ℤ) - (F32.log2 a.den : ℤ) + 1) := by
    have e1 : (2 : ℚ) ^ ((F32.log2 a.num.natAbs : ℤ) - (F32.log2 a.den : ℤ) + 1)
        = (2 : ℚ) ^ (F32.log2 a.num.natAbs + 1) / (2 : ℚ) ^ (F32.log2 a.den) := by
      rw [show (F32.log2 a.num.natAbs : ℤ) - (F32.log2 a.den : ℤ) + 1
          = ((F32.log2 a.num.natAbs + 1 : ℕ) : ℤ) - ((F32.log2 a.den : ℕ) : ℤ) by
            push_cast; ring]
      rw [zpow_sub₀ h2, zpow_natCast, zpow_natCast]
    have e2 : ((a.num.natAbs : ℕ) : ℚ) / (a.den : ℚ)
        < (2 : ℚ) ^ (F32.log2 a.num.natAbs + 1) / (2 : ℚ) ^ (F32.log2 a.den) := by
      rw [div_lt_div_iff₀ hdq (by positivity)]
      calc ((a.num.natAbs : ℕ) : ℚ) * (2 : ℚ) ^ (F32.log2 a.den)
          ≤ ((a.num.natAbs : ℕ) : ℚ) * (a.den : ℚ) := by gcongr
        _ < (2 : ℚ) ^ (F32.log2 a.num.natAbs + 1) * (a.den : ℚ) := by gcongr
    calc a = ((a.num.natAbs : ℕ) : ℚ) / (a.den : ℚ) := ha_eq.symm
      _ < (2 : ℚ) ^ (F32.log2 a.num.natAbs + 1) / (2 : ℚ) ^ (F32.log2 a.den) := e2
      _ = (2 : ℚ) ^ ((F32.log2 a.num.natAbs : ℤ) - (F32.log2 a.den : ℤ) + 1) := e1.symm
  unfold F32.ilog2
  simp only
  split_ifs with h
  · rw [F32.pow2_eq] at h
    exact ⟨h, hupp⟩
  · rw [F32.pow2_eq] at h
    refine ⟨hlow, ?_⟩
    rw [sub_add_cancel]
    exact not_le.mp h

/-- Rounding to the nearest integer: the error is at most `1/2`. -/
theorem F32.round_even_spec (m : ℚ) : |((F32.round_even m : ℤ) : ℚ) - m| ≤ 1 / 2 := by
  have h1 := Int.floor_le m
  have h2 := Int.lt_floor_add_one m
  unfold F32.round_even
  simp only
  split_ifs with ha hb hc
  · rw [abs_le]
    constructor <;> linarith
  · rw [abs_le]
    push_cast
    constructor <;> linarith
  · rw [abs_le]
    constructor <;> linarith
  · rw [abs_le]
    push_cast
    constructor <;> linarith

/-- Rounding to binary32 in the normal range: the result is finite and its relative error
is at most `2^-24`. -/
theorem F32.round_spec (q : ℚ) (h0 : (2 : ℚ) ^ (-126 : ℤ) ≤ q)
    (h1 : q < (2 ^ 24 - 1 / 2) * 2 ^ 104) :
    ∃ r : ℚ, F32.round q = F32.fin r ∧ |r - q| ≤ q / 2 ^ 24 := by
  have hq : 0 < q := lt_of_lt_of_le (by positivity) h0
  obtain ⟨hlo, hhi⟩ := F32.ilog2_spec q hq
  have hexp : ¬ F32.ilog2 q < -126 := by
    intro hlt
    have : (2 : ℚ) ^ (F32.ilog2 q + 1) ≤ (2 : ℚ) ^ (-126 : ℤ) :=
      zpow_le_zpow_right₀ (by norm_num) (by omega)
    linarith
  have hQ : 0 < F32.pow2 (F32.ilog2 q - 23) := F32.pow2_pos _
  refine ⟨(F32.round_even (q / F32.pow2 (F32.ilog2 q - 23)) : ℚ)
    * F32.pow2 (F32.ilog2 q - 23), ?_, ?_⟩
  · unfold F32.round
    simp only [if_neg hq.ne', if_neg (not_lt.mpr hq.le), if_neg (not_le.mpr h1), if_neg hexp,
      one_mul]
  · have herr := F32.round_even_spec (q / F32.pow2 (F32.ilog2 q - 23))
    have hQe : F32.pow2 (F32.ilog2 q - 23) = (2 : ℚ) ^ F32.ilog2 q / 2 ^ 23 := by
      rw [F32.pow2_eq, zpow_sub₀ (by norm_num : (2 : ℚ) ≠ 0)]
      norm_num
    have hfac : (F32.round_even (q / F32.pow2 (F32.ilog2 q - 23)) : ℚ)
        * F32.pow2 (F32.ilog2 q - 23) - q
        = ((F32.round_even (q / F32.pow2 (F32.ilog2 q - 23)) : ℚ)
          - q / F32.pow2 (F32.ilog2 q - 23)) * F32.pow2 (F32.ilog2 q - 23) := by
      field_simp
    rw [hfac, abs_mul, abs_of_pos hQ]
    calc |(F32.round_even (q / F32.pow2 (F32.ilog2 q - 23)) : ℚ)
          - q / F32.pow2 (F32.ilog2 q - 23)| * F32.pow2 (F32.ilog2 q - 23)
        ≤ 1 / 2 * F32.pow2 (F32.ilog2 q - 23) := by gcongr
      _ = (2 : ℚ) ^ F32.ilog2 q / 2 ^ 24 := by rw [hQe]; ring
      _ ≤ q / 2 ^ 24 := by gcongr

/-! ## The colour map over binary32 against the exact formula -/

/-- Rounding to binary32 in the normal range, as two bounds: the result lies between
`(1 - 2^-24) q` and `(1 + 2^-24) q`. -/
theorem F32.round_bounds (q : ℚ) (h0 : (2 : ℚ) ^ (-126 : ℤ) ≤ q)
    (h1 : q < (2 ^ 24 - 1 / 2) * 2 ^ 104) :
    ∃ r : ℚ, F32.round q = F32.fin r ∧ (1 - 1 / 2 ^ 24) * q ≤ r ∧ r ≤ (1 + 1 / 2 ^ 24) * q := by
  obtain ⟨r, hr, he⟩ := F32.round_spec q h0 h1
  rw [abs_le] at he
  exact ⟨r, hr, by linarith only [he.1], by linarith only [he.2]⟩

/-- The four roundings of the colour map together: a product computed from `count` and `n`
with a relative error of at most `2^-24` per operation is below `256` and within `1` of the
exact product `count * 255 / n`. -/
theorem color_product_bounds (n c N K C P : ℚ) (hc : 1 ≤ c) (hcn : c ≤ n)
    (hN_lo : (1 - 1 / 2 ^ 24) * n ≤ N) (hN_hi : N ≤ (1 + 1 / 2 ^ 24) * n)
    (hK_lo : (1 - 1 / 2 ^ 24) * c ≤ K) (hK_hi : K ≤ (1 + 1 / 2 ^ 24) * c)
    (hC_lo : (1 - 1 / 2 ^ 24) * (255 / N) ≤ C) (hC_hi : C ≤ (1 + 1 / 2 ^ 24) * (255 / N))
    (hP_lo : (1 - 1 / 2 ^ 24) * (K * C) ≤ P) (hP_hi : P ≤ (1 + 1 / 2 ^ 24) * (K * C)) :
    0 ≤ P ∧ P < 256 ∧ c * (255 / n) - 1 < P ∧ P < c * (255 / n) + 1 := by
  have hnpos : 0 < n := by linarith only [hc, hcn]
  have hcpos : 0 < c := by linarith only [hc]
  have hu0 : (0 : ℚ) < 1 - 1 / 2 ^ 24 := by norm_num
  have hu1 : (0 : ℚ) < 1 + 1 / 2 ^ 24 := by norm_num
  have hNpos : 0 < N := lt_of_lt_of_le (mul_pos hu0 hnpos) hN_lo
  have hKpos : 0 < K := lt_of_lt_of_le (mul_pos hu0 hcpos) hK_lo
  have htpos : 0 < 255 / N := by positivity
  have hCpos : 0 < C := lt_of_lt_of_le (mul_pos hu0 htpos) hC_lo
  have hKCpos : 0 < K * C := mul_pos hKpos hCpos
  have hPpos : 0 < P := lt_of_lt_of_le (mul_pos hu0 hKCpos) hP_lo
  have hp0 : 0 ≤ c * (255 / n) := by positivity
  have hp255 : c * (255 / n) ≤ 255 := by
    rw [mul_div_assoc', div_le_iff₀ hnpos]
    linarith only [hcn]
  have hup : P ≤ (1 + 1 / 2 ^ 21) * (c * (255 / n)) := by
    have hq : 255 / N ≤ 255 / ((1 - 1 / 2 ^ 24) * n) :=
      div_le_div_of_nonneg_left (by norm_num) (mul_pos hu0 hnpos) hN_lo
    have hC2 : C ≤ (1 + 1 / 2 ^ 24) * (255 / ((1 - 1 / 2 ^ 24) * n)) :=
      hC_hi.trans (mul_le_mul_of_nonneg_left hq hu1.le)
    have hKC : K * C ≤ ((1 + 1 / 2 ^ 24) * c)
        * ((1 + 1 / 2 ^ 24) * (255 / ((1 - 1 / 2 ^ 24) * n))) :=
      mul_le_mul hK_hi hC2 hCpos.le (mul_pos hu1 hcpos).le
    calc P ≤ (1 + 1 / 2 ^ 24) * (K * C) := hP_hi
      _ ≤ (1 + 1 / 2 ^ 24) * (((1 + 1 / 2 ^ 24) * c)
            * ((1 + 1 / 2 ^ 24) * (255 / ((1 - 1 / 2 ^ 24) * n)))) :=
          mul_le_mul_of_nonneg_left hKC hu1.le
      _ = ((1 + 1 / 2 ^ 24) ^ 3 / (1 - 1 / 2 ^ 24)) * (c * (255 / n)) := by
          field_simp
          ring
      _ ≤ (1 + 1 / 2 ^ 21) * (c * (255 / n)) :=
          mul_le_mul_of_nonneg_right (by norm_num) hp0
  have hdown : (1 - 1 / 2 ^ 21) * (c * (255 / n)) ≤ P := by
    have hq : 255 / ((1 + 1 / 2 ^ 24) * n) ≤ 255 / N :=
      div_le_div_of_nonneg_left (by norm_num) hNpos hN_hi
    have hC2 : (1 - 1 / 2 ^ 24) * (255 / ((1 + 1 / 2 ^ 24) * n)) ≤ C :=
      (mul_le_mul_of_nonneg_left hq hu0.le).trans hC_lo
    have hKC : ((1 - 1 / 2 ^ 24) * c)
        * ((1 - 1 / 2 ^ 24) * (255 / ((1 + 1 / 2 ^ 24) * n))) ≤ K * C :=
      mul_le_mul hK_lo hC2 (by positivity) hKpos.le
    calc (1 - 1 / 2 ^ 21) * (c * (255 / n))
        ≤ ((1 - 1 / 2 ^ 24) ^ 3 / (1 + 1 / 2 ^ 24)) * (c * (255 / n)) :=
          mul_le_mul_of_nonneg_right (by norm_num) hp0
      _ = (1 - 1 / 2 ^ 24) * (((1 - 1 / 2 ^ 24) * c)
            * ((1 - 1 / 2 ^ 24) * (255 / ((1 + 1 / 2 ^ 24) * n)))) := by
          field_simp
          ring
      _ ≤ (1 - 1 / 2 ^ 24) * (K * C) := mul_le_mul_of_nonneg_left hKC hu0.le
      _ ≤ P := hP_lo
  have hsl : (1 : ℚ) / 2 ^ 21 * (c * (255 / n)) ≤ 1 / 2 := by
    have h3 : (1 : ℚ) / 2 ^ 21 * (c * (255 / n)) ≤ 1 / 2 ^ 21 * 255 :=
      mul_le_mul_of_nonneg_left hp255 (by norm_num)
    exact h3.trans (by norm_num)
  refine ⟨hPpos.le, ?_, ?_, ?_⟩
  · linarith only [hup, hsl, hp255]
  · linarith only [hdown, hsl]
  · linarith only [hup, hsl]

/-- The colour map over binary32 against the exact formula: for `1 ≤ count ≤ n < 2^32` the
value of `map_to_color (count, 255.0f / n)` differs from `255 - ⌊count * 255 / n⌋` by at
most `1`. Each of the four roundings (of `n`, of the quotient, of `count`, of the product)
has a relative error of at most `2^-24`, so the computed product is within `255 * 2^-21`
of the exact one and below `256`. -/
theorem map_to_color_binary32_near_aux (n count : ℕ) (h1 : 1 ≤ count) (hn : count ≤ n)
    (h32 : n < 2 ^ 32) :
    |(binary32.map_to_color count (binary32.color_const n) : ℤ)
        - (255 - ⌊(count : ℚ) * (255 / (n : ℚ))⌋)| ≤ 1 := by
  have hn1 : 1 ≤ n := le_trans h1 hn
  have hnq : (1 : ℚ) ≤ (n : ℚ) := by exact_mod_cast hn1
  have hcq : (1 : ℚ) ≤ (count : ℚ) := by exact_mod_cast h1
  have hcn : (count : ℚ) ≤ (n : ℚ) := by exact_mod_cast hn
  have hn32 : (n : ℚ) < 2 ^ 32 := by exact_mod_cast h32
  have hu0 : (0 : ℚ) ≤ 1 - 1 / 2 ^ 24 := by norm_num
  have hu1 : (0 : ℚ) ≤ 1 + 1 / 2 ^ 24 := by norm_num
  have hsmall : (2 : ℚ) ^ (-126 : ℤ) ≤ 1 / 2 ^ 40 := by
    rw [zpow_neg]
    norm_num
  have hsmall1 : (2 : ℚ) ^ (-126 : ℤ) ≤ 1 := hsmall.trans (by norm_num)
  -- the two conversions
  obtain ⟨N, hN, hN_lo, hN_hi⟩ := F32.round_bounds (n : ℚ) (hsmall1.trans hnq)
    (lt_trans hn32 (by norm_num))
  obtain ⟨K, hK, hK_lo, hK_hi⟩ := F32.round_bounds (count : ℚ) (hsmall1.trans hcq)
    (lt_of_le_of_lt hcn (lt_trans hn32 (by norm_num)))
  have hN_half : 1 / 2 ≤ N :=
    ((by norm_num : (1 : ℚ) / 2 ≤ (1 - 1 / 2 ^ 24) * 1).trans
      (mul_le_mul_of_nonneg_left hnq hu0)).trans hN_lo
  have hNpos : 0 < N := lt_of_lt_of_le (by norm_num) hN_half
  have hN_big : N ≤ 2 ^ 33 :=
    (hN_hi.trans (mul_le_mul_of_nonneg_left hn32.le hu1)).trans (by norm_num)
  have hK_half : 1 / 2 ≤ K :=
    ((by norm_num : (1 : ℚ) / 2 ≤ (1 - 1 / 2 ^ 24) * 1).trans
      (mul_le_mul_of_nonneg_left hcq hu0)).trans hK_lo
  have hK_big : K ≤ 2 ^ 33 :=
    (hK_hi.trans (mul_le_mul_of_nonneg_left (hcn.trans hn32.le) hu1)).trans (by norm_num)
  -- the quotient
  have ht_lo : 255 / 2 ^ 33 ≤ 255 / N :=
    div_le_div_of_nonneg_left (by norm_num) hNpos hN_big
  have ht_hi : 255 / N ≤ 510 := by
    rw [div_le_iff₀ hNpos]
    linarith only [hN_half]
  obtain ⟨C, hC, hC_lo, hC_hi⟩ := F32.round_bounds (255 / N)
    ((hsmall.trans (by norm_num : (1 : ℚ) / 2 ^ 40 ≤ 255 / 2 ^ 33)).trans ht_lo)
    (lt_of_le_of_lt ht_hi (by norm_num))
  have hC_small : 255 / 2 ^ 34 ≤ C :=
    ((by norm_num : (255 : ℚ) / 2 ^ 34 ≤ (1 - 1 / 2 ^ 24) * (255 / 2 ^ 33)).trans
      (mul_le_mul_of_nonneg_left ht_lo hu0)).trans hC_lo
  have hC_big : C ≤ 1020 :=
    (hC_hi.trans (mul_le_mul_of_nonneg_left ht_hi hu1)).trans (by norm_num)
  -- the product
  have hKC_lo : 255 / 2 ^ 35 ≤ K * C :=
    (by norm_num : (255 : ℚ) / 2 ^ 35 = 1 / 2 * (255 / 2 ^ 34)).le.trans
      (mul_le_mul hK_half hC_small (by norm_num) (le_trans (by norm_num) hK_half))
  have hKC_hi : K * C ≤ 2 ^ 33 * 1020 :=
    mul_le_mul hK_big hC_big (le_trans (by norm_num) hC_small) (by norm_num)
  obtain ⟨P, hP, hP_lo, hP_hi⟩ := F32.round_bounds (K * C)
    ((hsmall.trans (by norm_num : (1 : ℚ) / 2 ^ 40 ≤ 255 / 2 ^ 35)).trans hKC_lo)
    (lt_of_le_of_lt hKC_hi (by norm_num))
  obtain ⟨hPpos, hP256, hpP, hPp⟩ := color_product_bounds (n : ℚ) (count : ℚ) N K C P hcq hcn
    hN_lo hN_hi hK_lo hK_hi hC_lo hC_hi hP_lo hP_hi
  -- the floors
  have hf0 : 0 ≤ ⌊P⌋ := Int.floor_nonneg.mpr hPpos
  have hf256 : ⌊P⌋ < 256 := Int.floor_lt.mpr (by exact_mod_cast hP256)
  have hf_hi : ⌊P⌋ ≤ ⌊(count : ℚ) * (255 / (n : ℚ))⌋ + 1 := by
    rw [← Int.floor_add_one]
    exact Int.floor_mono hPp.le
  have hf_lo : ⌊(count : ℚ) * (255 / (n : ℚ))⌋ - 1 ≤ ⌊P⌋ := by
    rw [← Int.floor_sub_one]
    exact Int.floor_mono hpP.le
  -- the value of the function
  have hval : binary32.map_to_color count (binary32.color_const n) = 255 - ⌊P⌋.toNat := by
    unfold binary32.map_to_color binary32.color_const F32.ofNat
    rw [if_neg (by unfold BLACK; omega), hN, hK]
    have hdiv : F32.div (F32.fin 255) (F32.fin N) = F32.fin C := by
      unfold F32.div
      simp only [if_neg hNpos.ne']
      exact hC
    rw [hdiv]
    have hmul : F32.mul (F32.fin K) (F32.fin C) = F32.fin P := hP
    rw [hmul]
    unfold F32.to_uchar
    simp only [if_pos hPpos]
    rw [Int.emod_eq_of_lt hf0 hf256]
  rw [hval]
  have hle : ⌊P⌋.toNat ≤ 255 := by omega
  rw [Nat.cast_sub hle, Int.toNat_of_nonneg hf0]
  rw [abs_le]
  push_cast
  constructor <;> omega

/-! ## Scalar iterators: naive against reference -/

theorem orbit_shift (args : Arguments) (x y : ℚ) (k : ℕ) :
    orbit args x y (k + 1)
      = orbit args (x * x - y * y + args.c_re) (2 * x * y + args.c_im) k := by
  induction k with
  | zero => rfl
  | succ k ih =>
    rw [orbit, ih]
    rfl

theorem escaped_shift (args : Arguments) (x y : ℚ) (k : ℕ) :
    escaped args x y (k + 1)
      ↔ escaped args (x * x - y * y + args.c_re) (2 * x * y + args.c_im) k := by
  unfold escaped
  rw [orbit_shift]

theorem escaped_one (args : Arguments) (x y : ℚ) :
    escaped args x y 1 ↔
      (x * x - y * y + args.c_re) * (x * x - y * y + args.c_re)
        + (2 * x * y + args.c_im) * (2 * x * y + args.c_im) > args.radius_sqr := by
  rw [escaped_shift]
  rfl

/-- naive loop against reference loop, for any sufficient fuel. -/
theorem naive_loop_eq_reference_loop (args : Arguments) :
    ∀ (rem fuel : ℕ) (x y : ℚ) (i : ℕ), 1 ≤ i → i + rem = args.n → rem + 1 ≤ fuel →
      naive_loop args rem x y i
        = (if reference_loop args fuel x y (i - 1) = args.n then BLACK
            else reference_loop args fuel x y (i - 1)) := by
  intro rem
  induction rem with
  | zero =>
    intro fuel x y i hi hin hf
    obtain ⟨f, rfl⟩ : ∃ f, fuel = f + 1 := ⟨fuel - 1, by omega⟩
    have hk : i - 1 + 1 = args.n := by omega
    simp only [naive_loop, reference_loop, hk, lt_irrefl, and_false, if_false, if_true]
  | succ rem ih =>
    intro fuel x y i hi hin hf
    obtain ⟨f, rfl⟩ : ∃ f, fuel = f + 1 := ⟨fuel - 1, by omega⟩
    have hk : i - 1 + 1 = i := by omega
    have hlt : i < args.n := by omega
    simp only [naive_loop, reference_loop, hk, hlt, and_true]
    by_cases hin' : (x * x - y * y + args.c_re) * (x * x - y * y + args.c_re)
        + (2 * x * y + args.c_im) * (2 * x * y + args.c_im) ≤ args.radius_sqr
    · rw [if_neg (not_lt.mpr hin'), if_pos hin']
      have := ih f (x * x - y * y + args.c_re) (2 * x * y + args.c_im) (i + 1)
        (by omega) (by omega) (by omega)
      simpa using this
    · rw [if_pos (not_le.mp hin'), if_neg hin']
      rw [if_neg (by omega)]

theorem iterate_naive_eq_reference_aux (args : Arguments) (a b : ℚ) (hn : 1 ≤ args.n) :
    iterate_naive a b args = iterate_reference a b args := by
  unfold iterate_naive iterate_reference
  have := naive_loop_eq_reference_loop args (args.n - 1) (args.n + 1) a b 1 le_rfl
    (by omega) (by omega)
  simpa using this

theorem naive_loop_black (args : Arguments) :
    ∀ (rem : ℕ) (x y : ℚ) (i : ℕ),
      (∀ m, 1 ≤ m → m ≤ rem → ¬ escaped args x y m) → naive_loop args rem x y i = BLACK := by
  intro rem
  induction rem with
  | zero => intro x y i _; rfl
  | succ rem ih =>
    intro x y i h
    have h1 := h 1 le_rfl (by omega)
    rw [escaped_one] at h1
    simp only [naive_loop]
    rw [if_neg h1]
    apply ih
    intro m hm hmr
    rw [← escaped_shift]
    exact h (m + 1) (by omega) (by omega)

theorem naive_loop_escape (args : Arguments) :
    ∀ (rem : ℕ) (x y : ℚ) (i m : ℕ), 1 ≤ m → m ≤ rem → escaped args x y m →
      (∀ j, 1 ≤ j → j < m → ¬ escaped args x y j) →
      naive_loop args rem x y i = i + m - 1 := by
  intro rem
  induction rem with
  | zero => intro x y i m hm hmr; omega
  | succ rem ih =>
    intro x y i m hm hmr hesc hleast
    simp only [naive_loop]
    by_cases h1 : escaped args x y 1
    · have hm1 : m = 1 := by
        by_contra hne
        exact hleast 1 le_rfl (by omega) h1
      rw [escaped_one] at h1
      rw [if_pos h1, hm1]
      omega
    · have hm2 : 2 ≤ m := by
        by_contra hne
        have : m = 1 := by omega
        rw [this] at hesc
        exact h1 hesc
      rw [escaped_one] at h1
      rw [if_neg h1]
      obtain ⟨m', rfl⟩ : ∃ m', m = m' + 1 := ⟨m - 1, by omega⟩
      rw [ih (x * x - y * y + args.c_re) (2 * x * y + args.c_im) (i + 1) m' (by omega) (by omega)
        ((escaped_shift args x y m').mp hesc)]
      · omega
      · intro j hj hjm
        rw [← escaped_shift]
        exact hleast (j + 1) (by omega) (by omega)

/-- Larger fuel does not change the result of the reference loop. -/
theorem reference_loop_fuel (args : Arguments) :
    ∀ (fuel fuel2 : ℕ) (x y : ℚ) (k : ℕ), args.n - k ≤ fuel → 1 ≤ fuel → fuel ≤ fuel2 →
      reference_loop args fuel2 x y k = reference_loop args fuel x y k := by
  intro fuel
  induction fuel with
  | zero => intro fuel2 x y k _ h; omega
  | succ fuel ih =>
    intro fuel2 x y k hk _ hle
    obtain ⟨f2, rfl⟩ : ∃ f2, fuel2 = f2 + 1 := ⟨fuel2 - 1, by omega⟩
    simp only [reference_loop]
    split_ifs with h
    · rcases Nat.eq_zero_or_pos fuel with h0 | hpos
      · omega
      · exact ih f2 _ _ _ (by omega) hpos (by omega)
    · rfl

/-- One application of the map strictly increases `|z|^2` once `|z|^2 > max (|c|^2) 4`. -/
theorem step_grows (p q a b : ℚ) (h4 : 4 < a * a + b * b)
    (hc : p * p + q * q < a * a + b * b) :
    a * a + b * b
      < (a * a - b * b + p) * (a * a - b * b + p) + (2 * a * b + q) * (2 * a * b + q) := by
  set s := a * a + b * b with hs
  set t := p * p + q * q with ht
  set d := (a * a - b * b) * p + 2 * a * b * q with hd
  have ht0 : 0 ≤ t := add_nonneg (mul_self_nonneg p) (mul_self_nonneg q)
  have hexp : (a * a - b * b + p) * (a * a - b * b + p) + (2 * a * b + q) * (2 * a * b + q)
      = s * s + 2 * d + t := by
    rw [hs, ht, hd]; ring
  have hcs : d * d ≤ s * s * t := by
    have : s * s * t - d * d = ((a * a - b * b) * q - 2 * a * b * p) ^ 2 := by
      rw [hs, ht, hd]; ring
    linarith [sq_nonneg ((a * a - b * b) * q - 2 * a * b * p)]
  have hkey : 4 * (s * s * t) < (s * s - s + t) * (s * s - s + t) := by
    have e : (s * s - s + t) * (s * s - s + t) - 4 * (s * s * t)
        = s * s * s * (s - 4) + (s - t) * (2 * (s * s) + s - t) := by ring
    have h1 : 0 < s * s * s * (s - 4) := by
      have : 0 < s := by linarith
      have : 0 < s - 4 := by linarith
      positivity
    have h2 : 0 < (s - t) * (2 * (s * s) + s - t) := by
      have hst : 0 < s - t := by linarith
      have : 0 < 2 * (s * s) + s - t := by nlinarith
      positivity
    linarith
  rw [hexp]
  by_contra hcon
  push_neg at hcon
  have hpos : 0 < s * s - s + t := by nlinarith
  have hle : s * s - s + t ≤ -(2 * d) := by linarith
  have hsq : (s * s - s + t) * (s * s - s + t) ≤ (-(2 * d)) * (-(2 * d)) :=
    mul_le_mul hle hle hpos.le (by linarith)
  have e2 : (-(2 * d)) * (-(2 * d)) = 4 * (d * d) := by ring
  linarith

theorem radius_sqr_get_args (c_re c_im start_re start_im res : ℚ) (n : ℕ) :
    4 ≤ (get_args c_re c_im start_re start_im res n).radius_sqr ∧
      c_re * c_re + c_im * c_im ≤ (get_args c_re c_im start_re start_im res n).radius_sqr := by
  simp only [get_args]
  split_ifs with h
  · exact ⟨h.le, le_rfl⟩
  · exact ⟨le_rfl, not_lt.mp h⟩

theorem absorbing_get_args (c_re c_im start_re start_im res : ℚ) (n : ℕ) :
    Absorbing (get_args c_re c_im start_re start_im res n) := by
  intro a b h
  have hr := radius_sqr_get_args c_re c_im start_re start_im res n
  exact step_grows c_re c_im a b (by linarith [hr.1]) (by linarith [hr.2])

theorem escaped_of_absorbing (args : Arguments) (habs : Absorbing args) (x y : ℚ)
    (h : args.radius_sqr < x * x + y * y) : ∀ k, escaped args x y k := by
  intro k
  induction k generalizing x y with
  | zero => exact h
  | succ k ih =>
    rw [escaped_shift]
    apply ih
    have := habs x y h
    linarith

/-! ## The main loop of V0, lane by lane -/

theorem testBit_movemask (v : Lanes Bool) (j : Fin 4) : (movemask v).testBit j = v j := by
  unfold movemask
  fin_cases j <;> cases h0 : v 0 <;> cases h1 : v 1 <;> cases h2 : v 2 <;> cases h3 : v 3 <;>
    simp_all <;> decide

theorem inside_count_outside (args : Arguments) (rem : ℕ) (a b : ℚ)
    (h : args.radius_sqr < a * a + b * b) : inside_count args rem a b = 0 := by
  cases rem with
  | zero => rfl
  | succ rem => simp only [inside_count, if_neg (not_le.mpr h)]

theorem inside_count_le (args : Arguments) : ∀ (rem : ℕ) (a b : ℚ),
    inside_count args rem a b ≤ rem := by
  intro rem
  induction rem with
  | zero => intro a b; simp [inside_count]
  | succ rem ih =>
    intro a b
    simp only [inside_count]
    split_ifs
    · have := ih (a * a - b * b + args.c_re) (a * b * 2 + args.c_im)
      omega
    · omega

theorem absorbing_step (args : Arguments) (habs : Absorbing args) (a b : ℚ)
    (h : args.radius_sqr < a * a + b * b) :
    args.radius_sqr < (a * a - b * b + args.c_re) * (a * a - b * b + args.c_re)
      + (a * b * 2 + args.c_im) * (a * b * 2 + args.c_im) := by
  have h1 := habs a b h
  have e : a * b * 2 = 2 * a * b := by ring
  rw [e]
  linarith

theorem main_loop_lane (args : Arguments) (habs : Absorbing args) :
    ∀ (rem : ℕ) (_reals _imags : Lanes ℚ) (iterations : Lanes ℕ) (mask : ℕ),
      (∀ j : Fin 4, mask.testBit j = false →
        args.radius_sqr < _reals j * _reals j + _imags j * _imags j) →
      (∀ j : Fin 4, iterations j + rem < 2 ^ 32) →
      ∀ j : Fin 4, (intrin_v0.main_loop args rem _reals _imags iterations mask).2 j
        = iterations j + inside_count args rem (_reals j) (_imags j) := by
  intro rem
  induction rem with
  | zero =>
    intro _reals _imags iterations mask _ _ j
    simp [intrin_v0.main_loop, inside_count]
  | succ rem ih =>
    intro _reals _imags iterations mask hdead hlt j
    simp only [intrin_v0.main_loop]
    have hbit : ∀ i : Fin 4, (mask &&& movemask fun j =>
          decide (_reals j * _reals j + _imags j * _imags j ≤ args.radius_sqr)).testBit i = false →
        args.radius_sqr < _reals i * _reals i + _imags i * _imags i := by
      intro i hi
      rw [Nat.testBit_land, testBit_movemask] at hi
      rcases Bool.and_eq_false_iff.mp hi with h | h
      · exact hdead i h
      · exact not_le.mp (of_decide_eq_false h)
    split_ifs with hm
    · have hj : args.radius_sqr < _reals j * _reals j + _imags j * _imags j := by
        apply hbit
        rw [hm]
        simp
      have hlt' := hlt j
      simp only [inside_count, if_neg (not_le.mpr hj), decide_eq_false (not_le.mpr hj)]
      simp only [Bool.false_eq_true, if_false, add_zero]
      exact Nat.mod_eq_of_lt (by omega)
    · rw [ih]
      · by_cases hj : _reals j * _reals j + _imags j * _imags j ≤ args.radius_sqr
        · have hlt' := hlt j
          simp only [inside_count, if_pos hj, decide_eq_true hj, if_true]
          rw [Nat.mod_eq_of_lt (by omega)]
          omega
        · have hlt' := hlt j
          simp only [inside_count, if_neg hj, decide_eq_false hj]
          simp only [Bool.false_eq_true, if_false, add_zero]
          rw [Nat.mod_eq_of_lt (by omega),
            inside_count_outside args rem _ _ (absorbing_step args habs _ _ (not_le.mp hj))]
          rfl
      · intro i hi
        exact absorbing_step args habs _ _ (hbit i hi)
      · intro i
        have := hlt i
        have hmod : (iterations i + if decide (_reals i * _reals i + _imags i * _imags i
            ≤ args.radius_sqr) = true then 1 else 0) % 2 ^ 32
              ≤ iterations i + 1 := by
          apply le_trans (Nat.mod_le _ _)
          split_ifs <;> omega
        omega

theorem naive_loop_inside_count (args : Arguments) :
    ∀ (rem : ℕ) (a b : ℚ) (i : ℕ), 1 ≤ i → a * a + b * b ≤ args.radius_sqr →
      naive_loop args rem a b i
        = if inside_count args (rem + 1) a b = rem + 1 then BLACK
          else i - 1 + inside_count args (rem + 1) a b := by
  intro rem
  induction rem with
  | zero =>
    intro a b i _ hin
    simp [naive_loop, inside_count, hin]
  | succ rem ih =>
    intro a b i hi hin
    have e : 2 * a * b = a * b * 2 := by ring
    rw [inside_count, if_pos hin]
    simp only [naive_loop]
    rw [e]
    by_cases h1 : (a * a - b * b + args.c_re) * (a * a - b * b + args.c_re)
        + (a * b * 2 + args.c_im) * (a * b * 2 + args.c_im) ≤ args.radius_sqr
    · rw [if_neg (not_lt.mpr h1), ih _ _ (i + 1) (by omega) h1]
      have hle := inside_count_le args (rem + 1) (a * a - b * b + args.c_re)
        (a * b * 2 + args.c_im)
      split_ifs <;> omega
    · rw [if_pos (not_le.mp h1), inside_count_outside args _ _ _ (not_le.mp h1)]
      rw [if_neg (by omega)]
      omega

/-- The colour V0 derives from a lane counter is the value of the naive iterator. -/
theorem v0_color_eq_naive (args : Arguments) (habs : Absorbing args) (hn : 2 ≤ args.n)
    (re im : ℚ) : intrin_v0.lane_color args re im = iterate_naive re im args := by
  unfold iterate_naive intrin_v0.lane_color
  obtain ⟨m, hm⟩ : ∃ m, args.n = m + 2 := ⟨args.n - 2, by omega⟩
  by_cases hin : re * re + im * im ≤ args.radius_sqr
  · rw [naive_loop_inside_count args _ _ _ 1 le_rfl hin]
    have e : args.n - 1 + 1 = args.n := by omega
    rw [e]
    have hpos : inside_count args args.n re im ≠ 0 := by
      rw [hm, inside_count, if_pos hin]
      omega
    split_ifs <;> omega
  · have hout := not_le.mp hin
    rw [inside_count_outside args _ _ _ hout]
    have e : args.n - 1 = (m + 1) := by omega
    have e2 : 2 * re * im = re * im * 2 := by ring
    rw [if_neg (by omega), if_pos rfl, e]
    simp only [naive_loop]
    rw [e2, if_pos (absorbing_step args habs _ _ hout)]

theorem inside_count_all_inside (args : Arguments) :
    ∀ (rem : ℕ) (a b : ℚ), (∀ k, k < rem → ¬ escaped args a b k) →
      inside_count args rem a b = rem := by
  intro rem
  induction rem with
  | zero => intro a b _; rfl
  | succ rem ih =>
    intro a b h
    have h0 : a * a + b * b ≤ args.radius_sqr := not_lt.mp (h 0 (by omega))
    have e : a * b * 2 = 2 * a * b := by ring
    rw [inside_count, if_pos h0, e, ih]
    · omega
    · intro k hk
      rw [← escaped_shift]
      exact h (k + 1) (by omega)

/-! ## The pixel loops of V0 -/

theorem enumerate_x_fold (args : Arguments) (y : ℕ) :
    ∀ (k : ℕ) (st : Lanes ℚ × List ColorCall),
      ((List.range k).foldl
          (intrin_v0.enumerate_x args y (args.start_im + (y : ℚ) * args.res)) st).2
        = st.2 ++ (List.range (k / 4)).flatMap (fun b => intrin_v0.batch_calls args y (4 * b + 3))
      ∧ ∀ x : ℕ, x < k → 4 * (k / 4) ≤ x →
        ((List.range k).foldl
          (intrin_v0.enumerate_x args y (args.start_im + (y : ℚ) * args.res)) st).1
            ⟨x % 4, Nat.mod_lt x (by decide)⟩ = args.start_re + (x : ℚ) * args.res := by
  intro k
  induction k with
  | zero =>
    intro st
    simp
  | succ k ih =>
    intro st
    obtain ⟨ih1, ih2⟩ := ih st
    rw [List.range_succ, List.foldl_append, List.foldl_cons, List.foldl_nil]
    generalize hr : (List.range k).foldl
      (intrin_v0.enumerate_x args y (args.start_im + (y : ℚ) * args.res)) st = r at ih1 ih2
    by_cases hk : k % 4 = 3
    · have hdiv : (k + 1) / 4 = k / 4 + 1 := by omega
      have hk4 : 4 * (k / 4) + 3 = k := by omega
      have hreals : Function.update r.1 ⟨k % 4, Nat.mod_lt k (by decide)⟩
          (args.start_re + (k : ℚ) * args.res) = intrin_v0.batch_reals args k := by
        funext j
        unfold intrin_v0.batch_reals
        by_cases hj : j = ⟨k % 4, Nat.mod_lt k (by decide)⟩
        · rw [hj, Function.update_same]
          have : k - 3 + k % 4 = k := by omega
          simp only [this]
        · rw [Function.update_noteq hj]
          have hjv : j.val ≠ k % 4 := fun h => hj (Fin.ext h)
          have hjlt := j.isLt
          have hx := ih2 (k - 3 + j.val) (by omega) (by omega)
          have hfin : (⟨(k - 3 + j.val) % 4, Nat.mod_lt _ (by decide)⟩ : Fin 4) = j :=
            Fin.ext (by simp only; omega)
          rw [hfin] at hx
          exact hx
      constructor
      · simp only [intrin_v0.enumerate_x, if_pos hk, hreals]
        rw [ih1, hdiv, List.range_succ, List.flatMap_append, List.append_assoc]
        simp only [List.flatMap_singleton, hk4]
        rfl
      · intro x hx hx4
        omega
    · have hdiv : (k + 1) / 4 = k / 4 := by omega
      constructor
      · simp only [intrin_v0.enumerate_x, if_neg hk]
        rw [ih1, hdiv]
      · intro x hx hx4
        simp only [intrin_v0.enumerate_x, if_neg hk]
        by_cases hxk : x = k
        · subst hxk
          rw [Function.update_same]
        · rw [Function.update_noteq]
          · exact ih2 x (by omega) (by omega)
          · intro h
            have := congrArg Fin.val h
            simp only at this
            omega

theorem enumerate_y_fold (args : Arguments) (width : ℕ) :
    ∀ (h : ℕ) (st : Lanes ℚ × List ColorCall),
      ((List.range h).foldl (intrin_v0.enumerate_y args width) st).2
        = st.2 ++ (List.range h).flatMap (fun y =>
            (List.range (width / 4)).flatMap (fun b => intrin_v0.batch_calls args y (4 * b + 3))) := by
  intro h
  induction h with
  | zero => intro st; simp
  | succ h ih =>
    intro st
    rw [List.range_succ, List.foldl_append, List.foldl_cons, List.foldl_nil,
      List.flatMap_append, List.flatMap_singleton, ← List.append_assoc, ← ih st]
    exact (enumerate_x_fold args h width _).1

theorem intrin_v0_enumerate_eq (args : Arguments) (width height : ℕ) (_reals : Lanes ℚ) :
    intrin_v0.enumerate args width height _reals
      = (List.range height).flatMap (fun y =>
          (List.range (width / 4)).flatMap (fun b => intrin_v0.batch_calls args y (4 * b + 3))) := by
  unfold intrin_v0.enumerate
  rw [enumerate_y_fold]
  rfl

theorem batch_calls_eq (args : Arguments) (habs : Absorbing args) (hn32 : args.n < 2 ^ 32)
    (y x : ℕ) :
    intrin_v0.batch_calls args y x
      = (List.finRange 4).map (fun i : Fin 4 =>
          (⟨y, x - 3 + i, intrin_v0.lane_color args
            (args.start_re + ((x - 3 + i.val : ℕ) : ℚ) * args.res)
            (args.start_im + (y : ℚ) * args.res)⟩ : ColorCall)) := by
  unfold intrin_v0.batch_calls intrin_v0.color_batch intrin_v0.lane_color
  apply List.map_congr_left
  intro i _
  rw [main_loop_lane args habs args.n _ _ _ 15 (by
        intro j hj
        exfalso
        revert hj
        fin_cases j <;> decide)
      (by intro j; simpa using hn32)]
  simp only [zero_add]
  unfold intrin_v0.batch_reals
  split_ifs <;> rfl

/-! ## The calls of V0 against the reference -/

theorem recorded_eq_some (calls : List ColorCall) (y x v : ℕ)
    (hex : ∃ c ∈ calls, c.y = y ∧ c.x = x)
    (hall : ∀ c ∈ calls, c.y = y → c.x = x → c.iterations = v) :
    recorded calls y x = some v := by
  unfold recorded
  cases hfind : calls.reverse.find? (fun c => decide (c.y = y ∧ c.x = x)) with
  | none =>
    obtain ⟨c, hc, hy, hx⟩ := hex
    have := List.find?_eq_none.mp hfind c (List.mem_reverse.mpr hc)
    simp [hy, hx] at this
  | some c =>
    have hp := List.find?_some hfind
    have hmem := List.mem_reverse.mp (List.mem_of_find?_eq_some hfind)
    simp only [decide_eq_true_eq] at hp
    simp only [Option.map_some', Option.some.injEq]
    exact hall c hmem hp.1 hp.2

/-- The value V0 passes to `color_pixel` for pixel `(x, y)`: the colour of the lane for the
columns that are handled in batches of four, the naive iterator for the last columns. -/
theorem julia_calls_value (_reals : Lanes ℚ) (c_re c_im start_re start_im res : ℚ)
    (width height n : ℕ) (hn32 : n < 2 ^ 32) (c : ColorCall)
    (hc : c ∈ julia _reals c_re c_im start_re start_im width height res n) :
    c.y < height ∧ c.x < width ∧
      c.iterations = if c.x < width - width % 4 then
          intrin_v0.lane_color (get_args c_re c_im start_re start_im res n)
            (start_re + (c.x : ℚ) * res) (start_im + (c.y : ℚ) * res)
        else iterate_naive (start_re + (c.x : ℚ) * res) (start_im + (c.y : ℚ) * res)
          (get_args c_re c_im start_re start_im res n) := by
  have habs := absorbing_get_args c_re c_im start_re start_im res n
  unfold julia at hc
  simp only [intrin_v0_enumerate_eq, List.mem_append, List.mem_flatMap, List.mem_range] at hc
  rcases hc with ⟨y, hy, b, hb, hmem⟩ | hlast
  · rw [batch_calls_eq _ habs hn32] at hmem
    simp only [List.mem_map, List.mem_finRange, true_and] at hmem
    obtain ⟨i, rfl⟩ := hmem
    have hi := i.isLt
    refine ⟨hy, by simp only; omega, ?_⟩
    simp only
    rw [if_pos (by omega)]
    rfl
  · split_ifs at hlast with hw
    · simp only [intrin_v0.compute_last_points, List.mem_flatMap, List.mem_range, List.mem_map,
        List.mem_range'_1] at hlast
      obtain ⟨y, hy, x, hx, rfl⟩ := hlast
      refine ⟨hy, by simp only; omega, ?_⟩
      simp only
      rw [if_neg (by omega)]
      rfl
    · simp at hlast

theorem julia_calls_cover (_reals : Lanes ℚ) (c_re c_im start_re start_im res : ℚ)
    (width height n : ℕ) (hn32 : n < 2 ^ 32) (x y : ℕ) (hx : x < width)
    (hy : y < height) :
    ∃ c ∈ julia _reals c_re c_im start_re start_im width height res n, c.y = y ∧ c.x = x := by
  have habs := absorbing_get_args c_re c_im start_re start_im res n
  unfold julia
  simp only [intrin_v0_enumerate_eq, List.mem_append, List.mem_flatMap, List.mem_range]
  by_cases hcol : x < width - width % 4
  · have hxe : 4 * (x / 4) + 3 - 3 + x % 4 = x := by omega
    refine ⟨⟨y, 4 * (x / 4) + 3 - 3 + x % 4,
      intrin_v0.lane_color (get_args c_re c_im start_re start_im res n)
        (start_re + ((4 * (x / 4) + 3 - 3 + x % 4 : ℕ) : ℚ) * res)
        (start_im + (y : ℚ) * res)⟩,
      Or.inl ⟨y, hy, x / 4, by omega, ?_⟩, rfl, hxe⟩
    rw [batch_calls_eq _ habs hn32]
    simp only [List.mem_map, List.mem_finRange, true_and]
    exact ⟨⟨x % 4, Nat.mod_lt x (by decide)⟩, rfl⟩
  · have hw : width % 4 ≠ 0 := by omega
    refine ⟨⟨y, x, iterate_naive (start_re + (x : ℚ) * res) (start_im + (y : ℚ) * res)
      (get_args c_re c_im start_re start_im res n)⟩, Or.inr ?_, rfl, rfl⟩
    rw [if_pos hw]
    simp only [intrin_v0.compute_last_points, List.mem_flatMap, List.mem_range, List.mem_map,
      List.mem_range'_1]
    exact ⟨y, hy, x, by omega, rfl⟩

/-- The value V0 leaves for a pixel of the image, for every `n < 2^32`. -/
theorem julia_records_value (_reals : Lanes ℚ) (c_re c_im start_re start_im res : ℚ)
    (width height n : ℕ) (hn32 : n < 2 ^ 32) (x y : ℕ) (hx : x < width) (hy : y < height) :
    recorded (julia _reals c_re c_im start_re start_im width height res n) y x
      = some (if x < width - width % 4 then
          intrin_v0.lane_color (get_args c_re c_im start_re start_im res n)
            (start_re + (x : ℚ) * res) (start_im + (y : ℚ) * res)
        else iterate_naive (start_re + (x : ℚ) * res) (start_im + (y : ℚ) * res)
          (get_args c_re c_im start_re start_im res n)) := by
  apply recorded_eq_some
  · exact julia_calls_cover _reals c_re c_im start_re start_im res width height n hn32 x y hx hy
  · intro c hc hcy hcx
    rw [(julia_calls_value _reals c_re c_im start_re start_im res width height n hn32 c hc).2.2,
      hcy, hcx]

theorem julia_calls_sound (_reals : Lanes ℚ) (c_re c_im start_re start_im res : ℚ)
    (width height n : ℕ) (hn : 2 ≤ n) (hn32 : n < 2 ^ 32) (c : ColorCall)
    (hc : c ∈ julia _reals c_re c_im start_re start_im width height res n) :
    c.y < height ∧ c.x < width ∧
      c.iterations = iterate_naive (start_re + (c.x : ℚ) * res) (start_im + (c.y : ℚ) * res)
        (get_args c_re c_im start_re start_im res n) := by
  have habs := absorbing_get_args c_re c_im start_re start_im res n
  obtain ⟨h1, h2, h3⟩ :=
    julia_calls_value _reals c_re c_im start_re start_im res width height n hn32 c hc
  refine ⟨h1, h2, ?_⟩
  rw [h3]
  split_ifs
  · exact v0_color_eq_naive _ habs (by simp only [get_args]; omega) _ _
  · rfl

/-! ## Specification of the scalar iterators -/

theorem iterate_naive_escape_aux (args : Arguments) (a b : ℚ) (k : ℕ) (h1 : 1 ≤ k)
    (hk : k < args.n) (hesc : escaped args a b k)
    (hleast : ∀ j, 1 ≤ j → j < k → ¬ escaped args a b j) : iterate_naive a b args = k := by
  unfold iterate_naive
  rw [naive_loop_escape args (args.n - 1) a b 1 k h1 (by omega) hesc hleast]
  omega

theorem iterate_naive_black_aux (args : Arguments) (a b : ℚ)
    (h : ∀ k, 1 ≤ k → k < args.n → ¬ escaped args a b k) : iterate_naive a b args = BLACK := by
  unfold iterate_naive
  apply naive_loop_black
  intro m hm hmr
  exact h m hm (by omega)

theorem iterate_naive_black_iff_aux (args : Arguments) (a b : ℚ) :
    iterate_naive a b args = BLACK ↔ ∀ k, 1 ≤ k → k < args.n → ¬ escaped args a b k := by
  constructor
  · intro h0 k hk1 hkn hesc
    have hex : ∃ m, 1 ≤ m ∧ escaped args a b m := ⟨k, hk1, hesc⟩
    classical
    have hspec := Nat.find_spec hex
    have hmin : ∀ j, 1 ≤ j → j < Nat.find hex → ¬ escaped args a b j := by
      intro j hj hlt hj'
      exact Nat.find_min hex hlt ⟨hj, hj'⟩
    have hle : Nat.find hex ≤ k := Nat.find_min' hex ⟨hk1, hesc⟩
    have := iterate_naive_escape_aux args a b (Nat.find hex) hspec.1 (by omega) hspec.2 hmin
    rw [h0] at this
    unfold BLACK at this
    omega
  · exact iterate_naive_black_aux args a b

/-! ## The loop `while (full)` of V1 ends -/

theorem check_lane_full (args : Arguments) (st : four_complexes × Bool × List ColorCall)
    (i : Fin 4) (h : (intrin_v1.check_lane args st i).2.1 = true) :
    st.2.1 = true ∧ st.1.bits i = 0 ∧ st.1.count i < args.n := by
  unfold intrin_v1.check_lane at h
  by_cases hb : st.1.bits i ≠ 0
  · simp [hb] at h
  · by_cases hc : st.1.count i ≥ args.n
    · simp [hb, hc] at h
    · simp only [hb, hc, if_false] at h
      exact ⟨h, not_not.mp hb, not_le.mp hc⟩

theorem check_lanes_full (args : Arguments) (l : List (Fin 4)) :
    ∀ st : four_complexes × Bool × List ColorCall,
      (l.foldl (intrin_v1.check_lane args) st).2.1 = true → st.2.1 = true := by
  induction l with
  | nil => intro st h; exact h
  | cons i l ih =>
    intro st h
    rw [List.foldl_cons] at h
    exact (check_lane_full args st i (ih _ h)).1

theorem check_lanes_full_zero (args : Arguments) (st : four_complexes × Bool × List ColorCall)
    (h : ((List.finRange 4).foldl (intrin_v1.check_lane args) st).2.1 = true) :
    st.1.count 0 < args.n := by
  have e : List.finRange 4 = (0 : Fin 4) :: [1, 2, 3] := by decide
  rw [e, List.foldl_cons] at h
  exact (check_lane_full args st 0 (check_lanes_full args _ _ h)).2.2

/-- The loop `while (full)` needs at most `n + 1` passes: more fuel does not change its
result. -/
theorem full_loop_fuel (args : Arguments) (hn32 : args.n < 2 ^ 32) :
    ∀ (fuel fuel2 : ℕ) (nums : four_complexes) (xreals ximags : Lanes ℚ) (xcount : Lanes ℕ)
      (calls : List ColorCall),
      1 + (args.n - (xcount 0 + 1) % 2 ^ 32) ≤ fuel → fuel ≤ fuel2 →
      intrin_v1.full_loop args fuel2 nums xreals ximags xcount calls
        = intrin_v1.full_loop args fuel nums xreals ximags xcount calls := by
  intro fuel
  induction fuel with
  | zero => intro fuel2 nums xreals ximags xcount calls h; omega
  | succ fuel ih =>
    intro fuel2 nums xreals ximags xcount calls hneed hle
    obtain ⟨f2, rfl⟩ : ∃ f2, fuel2 = f2 + 1 := ⟨fuel2 - 1, by omega⟩
    simp only [intrin_v1.full_loop]
    split_ifs with h
    · have h0 := check_lanes_full_zero args _ h
      simp only at h0
      apply ih
      · have : ((xcount 0 + 1) % 2 ^ 32 + 1) % 2 ^ 32 = (xcount 0 + 1) % 2 ^ 32 + 1 :=
          Nat.mod_eq_of_lt (by omega)
        rw [this]
        omega
      · omega
    · rfl

theorem full_loop_fuel_enough (args : Arguments) (hn32 : args.n < 2 ^ 32) (fuel : ℕ)
    (hf : args.n + 1 ≤ fuel) (nums : four_complexes) (xreals ximags : Lanes ℚ)
    (xcount : Lanes ℕ) (calls : List ColorCall) :
    intrin_v1.full_loop args fuel nums xreals ximags xcount calls
      = intrin_v1.full_loop args (args.n + 1) nums xreals ximags xcount calls :=
  full_loop_fuel args hn32 (args.n + 1) fuel nums xreals ximags xcount calls (by omega) hf

/-! ## What holds for V0 and for the naive engine on every input -/

theorem naive_loop_range (args : Arguments) :
    ∀ (rem : ℕ) (a b : ℚ) (i : ℕ), 1 ≤ i →
      naive_loop args rem a b i = BLACK ∨
        (i ≤ naive_loop args rem a b i ∧ naive_loop args rem a b i < i + rem) := by
  intro rem
  induction rem with
  | zero => intro a b i _; exact Or.inl rfl
  | succ rem ih =>
    intro a b i hi
    simp only [naive_loop]
    split_ifs with h
    · exact Or.inr ⟨le_rfl, by omega⟩
    · rcases ih (a * a - b * b + args.c_re) (2 * a * b + args.c_im) (i + 1) (by omega) with h0 | h1
      · exact Or.inl h0
      · exact Or.inr ⟨by omega, by omega⟩

/-- The naive iterator returns `BLACK` or a value in `[1, n - 1]`. -/
theorem iterate_naive_range (args : Arguments) (a b : ℚ) :
    iterate_naive a b args = BLACK ∨
      (1 ≤ iterate_naive a b args ∧ iterate_naive a b args < args.n) := by
  unfold iterate_naive
  rcases naive_loop_range args (args.n - 1) a b 1 le_rfl with h | h
  · exact Or.inl h
  · exact Or.inr ⟨h.1, by omega⟩

/-- The naive engine colours every pixel of the image with `iterate_naive` of its point. -/
theorem julia_V2_records_naive (c_re c_im start_re start_im res : ℚ) (width height n : ℕ)
    (x y : ℕ) (hx : x < width) (hy : y < height) :
    recorded (julia_V2 c_re c_im start_re start_im width height res n) y x
      = some (iterate_naive (start_re + (x : ℚ) * res) (start_im + (y : ℚ) * res)
          (get_args c_re c_im start_re start_im res n)) := by
  apply recorded_eq_some
  · refine ⟨⟨y, x, iterate_naive (start_re + (x : ℚ) * res) (start_im + (y : ℚ) * res)
      (get_args c_re c_im start_re start_im res n)⟩, ?_, rfl, rfl⟩
    simp only [julia_V2, naive.enumerate, List.mem_flatMap, List.mem_range, List.mem_map]
    exact ⟨y, hy, x, hx, rfl⟩
  · intro c hc hcy hcx
    simp only [julia_V2, naive.enumerate, List.mem_flatMap, List.mem_range, List.mem_map] at hc
    obtain ⟨y', _, x', _, rfl⟩ := hc
    simp only at hcy hcx
    subst hcy hcx
    rfl

/-- For `2 ≤ n < 2^32` every count that V0 passes to `color_pixel` is `BLACK` or lies in
`[1, n - 1]`. -/
theorem julia_calls_range (_reals : Lanes ℚ) (c_re c_im start_re start_im res : ℚ)
    (width height n : ℕ) (hn : 2 ≤ n) (hn32 : n < 2 ^ 32) (c : ColorCall)
    (hc : c ∈ julia _reals c_re c_im start_re start_im width height res n) :
    c.iterations = BLACK ∨ (1 ≤ c.iterations ∧ c.iterations < n) := by
  rw [(julia_calls_sound _reals c_re c_im start_re start_im res width height n hn hn32 c hc).2.2]
  exact iterate_naive_range (get_args c_re c_im start_re start_im res n) _ _

/-- For `2 ≤ n < 2^32` V0 records `1` for every pixel whose point is outside the radius after
the first application of the map. -/
theorem julia_records_one (_reals : Lanes ℚ) (c_re c_im start_re start_im res : ℚ)
    (width height n : ℕ) (hn : 2 ≤ n) (hn32 : n < 2 ^ 32) (x y : ℕ) (hx : x < width)
    (hy : y < height)
    (hesc : escaped (get_args c_re c_im start_re start_im res n) (start_re + (x : ℚ) * res)
      (start_im + (y : ℚ) * res) 1) :
    recorded (julia _reals c_re c_im start_re start_im width height res n) y x = some 1 := by
  apply recorded_eq_some
  · exact julia_calls_cover _reals c_re c_im start_re start_im res width height n hn32 x y
      hx hy
  · intro c hc hcy hcx
    rw [(julia_calls_sound _reals c_re c_im start_re start_im res width height n hn hn32
      c hc).2.2, hcy, hcx]
    exact iterate_naive_escape_aux _ _ _ 1 le_rfl (by simp only [get_args]; omega) hesc
      (fun j h1 h2 => by omega)

/-- For `2 ≤ n` the naive engine records `1` for every pixel whose point is outside the
radius after the first application of the map. -/
theorem julia_V2_records_one (c_re c_im start_re start_im res : ℚ)
    (width height n : ℕ) (hn : 2 ≤ n) (x y : ℕ) (hx : x < width) (hy : y < height)
    (hesc : escaped (get_args c_re c_im start_re start_im res n) (start_re + (x : ℚ) * res)
      (start_im + (y : ℚ) * res) 1) :
    recorded (julia_V2 c_re c_im start_re start_im width height res n) y x = some 1 := by
  rw [julia_V2_records_naive c_re c_im start_re start_im res width height n x y hx hy]
  congr 1
  exact iterate_naive_escape_aux _ _ _ 1 le_rfl (by simp only [get_args]; omega) hesc
    (fun j h1 h2 => by omega)

/-- The naive engine records `BLACK` for every pixel none of whose iterates `z_1 .. z_(n-1)`
is outside the radius. -/
theorem julia_V2_records_black (c_re c_im start_re start_im res : ℚ)
    (width height n : ℕ) (x y : ℕ) (hx : x < width) (hy : y < height)
    (hin : ∀ k, 1 ≤ k → k < n → ¬ escaped (get_args c_re c_im start_re start_im res n)
      (start_re + (x : ℚ) * res) (start_im + (y : ℚ) * res) k) :
    recorded (julia_V2 c_re c_im start_re start_im width height res n) y x = some BLACK := by
  rw [julia_V2_records_naive c_re c_im start_re start_im res width height n x y hx hy]
  congr 1
  exact iterate_naive_black_aux _ _ _ hin

/-- For every `n < 2^32` V0 records `BLACK` for every pixel none of whose iterates
`z_0 .. z_n` is outside the radius. -/
theorem julia_records_black (_reals : Lanes ℚ) (c_re c_im start_re start_im res : ℚ)
    (width height n : ℕ) (hn32 : n < 2 ^ 32) (x y : ℕ) (hx : x < width) (hy : y < height)
    (hin : ∀ k, k ≤ n → ¬ escaped (get_args c_re c_im start_re start_im res n)
      (start_re + (x : ℚ) * res) (start_im + (y : ℚ) * res) k) :
    recorded (julia _reals c_re c_im start_re start_im width height res n) y x = some BLACK := by
  rw [julia_records_value _reals c_re c_im start_re start_im res width height n hn32 x y hx hy]
  congr 1
  split_ifs
  · unfold intrin_v0.lane_color
    rw [if_pos]
    have := inside_count_all_inside (get_args c_re c_im start_re start_im res n) n
      (start_re + (x : ℚ) * res) (start_im + (y : ℚ) * res) (fun k hk => hin k (by omega))
    exact this
  · exact iterate_naive_black_aux _ _ _ (fun k _ hk => hin k (by
      have : k < n := hk
      omega))

/-! ## The claims -/

/-- C1. V0 against the reference: for every `c`, `start`, `res`, `width`, `height` and every
`n` with `2 ≤ n` (an `unsigned`, so `n < 2^32`), the value that the calls of `julia` leave
for a pixel `(x, y)` of the image is `iterate_reference` of the point of that pixel, whatever
the register `_reals` holds on entry. -/
theorem julia_records_reference (_reals : Lanes ℚ) (c_re c_im start_re start_im res : ℚ)
    (width height n : ℕ) (hn : 2 ≤ n) (hn32 : n < 2 ^ 32) (x y : ℕ) (hx : x < width)
    (hy : y < height) :
    recorded (julia _reals c_re c_im start_re start_im width height res n) y x
      = some (iterate_reference (start_re + (x : ℚ) * res) (start_im + (y : ℚ) * res)
          (get_args c_re c_im start_re start_im res n)) := by
  apply recorded_eq_some
  · exact julia_calls_cover _reals c_re c_im start_re start_im res width height n hn32 x y
      hx hy
  · intro c hc hcy hcx
    have h := (julia_calls_sound _reals c_re c_im start_re start_im res width height n hn hn32
      c hc).2.2
    rw [h, hcy, hcx]
    exact iterate_naive_eq_reference_aux _ _ _ (by simp only [get_args]; omega)

/-- Witness for C1: a five pixel row with `c = 1/4`, `n = 5`; the pixel `x = 1` is the point
`-1`, in the batch of the first four columns, and V0 records the reference value `3` for it. -/
theorem julia_records_reference_witness :
    (2 ≤ 5 ∧ 5 < 2 ^ 32 ∧ 1 < 5 ∧ 0 < 1) ∧
      recorded (julia (fun _ => 0) (1 / 4) 0 (-3 / 2) 0 5 1 (1 / 2) 5) 0 1 = some 3 :=
  ⟨by decide, (julia_records_reference (fun _ => 0) (1 / 4) 0 (-3 / 2) 0 (1 / 2) 5 1 5
    (by decide) (by decide) 1 0 (by decide) (by decide)).trans (by decide!)⟩

/-- C2 (code at the failing input). In the run `c = 0`, `start = 0`, `res = FLT_MAX / 4`,
`width = 5`, `height = 3`, `n = 2` the pixels of column 4 have real part `FLT_MAX`, the marker
of an empty entry. V1 colours pixel `(3, 0)` three times, last with `2`, and never colours
`(4, 0)` and `(4, 1)`; the reference value of pixel `(3, 0)` is `1`. -/
theorem julia_V1_calls_at_sentinel :
    julia_V1 zero_memory 0 0 0 0 5 3 (FLT_MAX / 4) 2
        = [⟨0, 1, 1⟩, ⟨0, 2, 1⟩, ⟨0, 3, 1⟩, ⟨0, 0, 0⟩, ⟨1, 0, 1⟩, ⟨1, 1, 1⟩, ⟨0, 3, 1⟩, ⟨1, 2, 1⟩,
            ⟨1, 3, 1⟩, ⟨2, 0, 1⟩, ⟨0, 3, 2⟩, ⟨2, 1, 1⟩, ⟨2, 2, 1⟩, ⟨2, 3, 1⟩, ⟨2, 4, 1⟩] ∧
      recorded (julia_V1 zero_memory 0 0 0 0 5 3 (FLT_MAX / 4) 2) 0 3 = some 2 ∧
      iterate_reference (0 + ((3 : ℕ) : ℚ) * (FLT_MAX / 4)) (0 + ((0 : ℕ) : ℚ) * (FLT_MAX / 4))
        (get_args 0 0 0 0 (FLT_MAX / 4) 2) = 1 ∧
      recorded (julia_V1 zero_memory 0 0 0 0 5 3 (FLT_MAX / 4) 2) 0 4 = none := by
  decide!

/-- The naive iterator against the reference in exact arithmetic (C3 with every `float`
operation read as the exact operation): for every start point, every `c` and `radius_sqr`
and every `n` with `1 ≤ n`, `iterate_naive` and `iterate_reference` return the same value.
Over binary32 the two agree as long as no NaN arises
(`iterate_naive_eq_iterate_reference_binary32`). -/
theorem iterate_naive_eq_iterate_reference (args : Arguments) (a b : ℚ) (hn : 1 ≤ args.n) :
    iterate_naive a b args = iterate_reference a b args :=
  iterate_naive_eq_reference_aux args a b hn

/-- Witness for the exact reading of C3: `c = 0`, `n = 3`, the point `5/4`, where both
iterators return `2`. -/
theorem iterate_naive_eq_iterate_reference_witness :
    1 ≤ (get_args 0 0 0 0 1 3).n ∧
      iterate_naive (5 / 4) 0 (get_args 0 0 0 0 1 3) = 2 ∧
      iterate_reference (5 / 4) 0 (get_args 0 0 0 0 1 3) = 2 :=
  ⟨by decide, by decide!,
    (iterate_naive_eq_iterate_reference (get_args 0 0 0 0 1 3) (5 / 4) 0 (by decide)).symm.trans
      (by decide!)⟩

/-- C4 (code at the failing input). With `n = 1`, `c = 0`, `start = 3`, `res = 1` on a 4 x 1
image every start point is outside the radius: V0 and V1 record `1` for pixel `(0, 0)`, the
naive engine records `0`, and `iterate_reference` returns `0`. -/
theorem engines_at_one_iteration :
    recorded (julia (fun _ => 0) 0 0 3 0 4 1 1 1) 0 0 = some 1 ∧
      recorded (julia_V1 zero_memory 0 0 3 0 4 1 1 1) 0 0 = some 1 ∧
      recorded (julia_V2 0 0 3 0 4 1 1 1) 0 0 = some 0 ∧
      iterate_reference (3 + ((0 : ℕ) : ℚ) * 1) (0 + ((0 : ℕ) : ℚ) * 1) (get_args 0 0 3 0 1 1)
        = 0 := by
  decide!

/-- C5. The escape bound is absorbing: with `radius_sqr` as `get_args` sets it, a point with
`|z|^2 > radius_sqr` is mapped by `re' = re^2 - im^2 + c_re`, `im' = 2 re im + c_im` to a point
with `|z'|^2 > |z|^2`, and every iterate `z_k` of the point has `|z_k|^2 > radius_sqr`. -/
theorem escape_bound_absorbing (c_re c_im start_re start_im res : ℚ) (n : ℕ) (re im : ℚ)
    (h : (get_args c_re c_im start_re start_im res n).radius_sqr < re * re + im * im) :
    re * re + im * im
        < (re * re - im * im + c_re) * (re * re - im * im + c_re)
          + (2 * re * im + c_im) * (2 * re * im + c_im) ∧
      ∀ k, escaped (get_args c_re c_im start_re start_im res n) re im k :=
  ⟨absorbing_get_args c_re c_im start_re start_im res n re im h,
    escaped_of_absorbing _ (absorbing_get_args c_re c_im start_re start_im res n) re im h⟩

/-- Witness for C5: `c = 1 + i`, the point `2 + i` with `|z|^2 = 5 > 4`. -/
theorem escape_bound_absorbing_witness :
    (get_args 1 1 0 0 1 2).radius_sqr < 2 * 2 + 1 * 1 ∧
      (2 * 2 + 1 * 1 : ℚ) < (2 * 2 - 1 * 1 + 1) * (2 * 2 - 1 * 1 + 1)
          + (2 * 2 * 1 + 1) * (2 * 2 * 1 + 1) ∧
      escaped (get_args 1 1 0 0 1 2) 2 1 3 :=
  ⟨by decide!, (escape_bound_absorbing 1 1 0 0 1 2 2 1 (by decide!)).1,
    (escape_bound_absorbing 1 1 0 0 1 2 2 1 (by decide!)).2 3⟩

/-- C6 (code at the failing input). Same run as for C2 (`c = 0`, `start = 0`,
`res = FLT_MAX / 4`, 5 x 3 pixels, `n = 2`): the point of pixel `(3, 0)` is outside the radius
after the first application of the map, V0 and the naive engine record `1` for it, V1 leaves
`2`. -/
theorem first_step_escape_at_sentinel :
    escaped (get_args 0 0 0 0 (FLT_MAX / 4) 2) (0 + ((3 : ℕ) : ℚ) * (FLT_MAX / 4))
        (0 + ((0 : ℕ) : ℚ) * (FLT_MAX / 4)) 1 ∧
      recorded (julia (fun _ => 0) 0 0 0 0 5 3 (FLT_MAX / 4) 2) 0 3 = some 1 ∧
      recorded (julia_V2 0 0 0 0 5 3 (FLT_MAX / 4) 2) 0 3 = some 1 ∧
      recorded (julia_V1 zero_memory 0 0 0 0 5 3 (FLT_MAX / 4) 2) 0 3 = some 2 := by
  decide!

theorem orbit_zero_aux (args : Arguments) (h1 : args.c_re = 0) (h2 : args.c_im = 0) :
    ∀ k, orbit args 0 0 k = (0, 0) := by
  intro k
  induction k with
  | zero => rfl
  | succ k ih => simp [orbit, ih, h1, h2]

/-- C7 (code at the failing input). In the run `c = 0`, `start = -(FLT_MAX / 4) i`,
`res = FLT_MAX / 4`, `width = 11`, `height = 2`, `n = 2` the pixel `(0, 1)` is the point `0`,
all of whose iterates are inside the radius. V0 and the naive engine record `0` for it; V1
colours it with `0` and later with `2`. -/
theorem bound_pixel_at_sentinel :
    (∀ k, ¬ escaped (get_args 0 0 0 (-(FLT_MAX / 4)) (FLT_MAX / 4) 2)
        (0 + ((0 : ℕ) : ℚ) * (FLT_MAX / 4)) (-(FLT_MAX / 4) + ((1 : ℕ) : ℚ) * (FLT_MAX / 4)) k) ∧
      recorded (julia (fun _ => 0) 0 0 0 (-(FLT_MAX / 4)) 11 2 (FLT_MAX / 4) 2) 1 0 = some 0 ∧
      recorded (julia_V2 0 0 0 (-(FLT_MAX / 4)) 11 2 (FLT_MAX / 4) 2) 1 0 = some 0 ∧
      (julia_V1 zero_memory 0 0 0 (-(FLT_MAX / 4)) 11 2 (FLT_MAX / 4) 2).filter
          (fun c => c.y = 1 ∧ c.x = 0) = [⟨1, 0, 0⟩, ⟨1, 0, 2⟩] ∧
      recorded (julia_V1 zero_memory 0 0 0 (-(FLT_MAX / 4)) 11 2 (FLT_MAX / 4) 2) 1 0
        = some 2 := by
  refine ⟨?_, by decide!, by decide!, by decide!, by decide!⟩
  intro k
  have e1 : (0 : ℚ) + ((0 : ℕ) : ℚ) * (FLT_MAX / 4) = 0 := by norm_num
  have e2 : -(FLT_MAX / 4) + ((1 : ℕ) : ℚ) * (FLT_MAX / 4) = 0 := by norm_num
  rw [e1, e2]
  unfold escaped
  rw [orbit_zero_aux _ rfl rfl]
  norm_num [get_args]

/-- C8 (code at the failing inputs). With `n = 1` (`c = 0`, `start = 3`, `res = 1`, 4 x 1
pixels) V0 and V1 pass the count `1 = n` to `color_pixel`; with `n = 2` in the run of C2
(`c = 0`, `start = 0`, `res = FLT_MAX / 4`, 5 x 3 pixels) V1 passes the count `2 = n`. -/
theorem count_out_of_range :
    (⟨0, 0, 1⟩ : ColorCall) ∈ julia (fun _ => 0) 0 0 3 0 4 1 1 1 ∧
      (⟨0, 0, 1⟩ : ColorCall) ∈ julia_V1 zero_memory 0 0 3 0 4 1 1 1 ∧
      (⟨0, 3, 2⟩ : ColorCall) ∈ julia_V1 zero_memory 0 0 0 0 5 3 (FLT_MAX / 4) 2 := by
  decide!

/-- C9 (amended). The reference iterator, for `1 ≤ n`. In exact arithmetic (every `float`
operation read as the exact operation), `iterate_reference` returns the least `k ≥ 1` with
`|z_k|^2 > radius_sqr` when that `k` is below `n`; it returns `BLACK` when no `z_k` with
`1 ≤ k < n` is outside the radius, in particular when the first one outside is `z_n`. Over
binary32, `iterate_reference` returns the least `k ≥ 1` at which the computed `|z_k|^2`
fails the test `<= radius_sqr` (it is greater, or a NaN) when that `k` is below `n`, and
`BLACK` when the test holds for every `k` with `1 ≤ k < n`. -/
theorem iterate_reference_least_escape (args : Arguments) (x y : ℚ) (hn : 1 ≤ args.n)
    (args32 : binary32.Arguments) (x32 y32 : F32) (hn32 : 1 ≤ args32.n) :
    ((∀ k, 1 ≤ k → k < args.n → escaped args x y k →
        (∀ j, 1 ≤ j → j < k → ¬ escaped args x y j) → iterate_reference x y args = k) ∧
      ((∀ k, 1 ≤ k → k < args.n → ¬ escaped args x y k) → iterate_reference x y args = BLACK) ∧
      (escaped args x y args.n → (∀ j, 1 ≤ j → j < args.n → ¬ escaped args x y j) →
        iterate_reference x y args = BLACK)) ∧
      ((∀ k, 1 ≤ k → k < args32.n →
          F32.le (binary32.norm_sqr args32 x32 y32 k) args32.radius_sqr = false →
          (∀ j, 1 ≤ j → j < k →
            F32.le (binary32.norm_sqr args32 x32 y32 j) args32.radius_sqr = true) →
          binary32.iterate_reference x32 y32 args32 = k) ∧
        ((∀ k, 1 ≤ k → k < args32.n →
            F32.le (binary32.norm_sqr args32 x32 y32 k) args32.radius_sqr = true) →
          binary32.iterate_reference x32 y32 args32 = BLACK)) := by
  refine ⟨?_, fun k h1 hk hstop hleast =>
    iterate_reference_binary32_stop_aux args32 x32 y32 k h1 hk hstop hleast,
    iterate_reference_binary32_black_aux args32 x32 y32 hn32⟩
  rw [← iterate_naive_eq_reference_aux args x y hn]
  exact ⟨fun k h1 hk hesc hleast => iterate_naive_escape_aux args x y k h1 hk hesc hleast,
    iterate_naive_black_aux args x y, fun _ h => iterate_naive_black_aux args x y h⟩

/-- Witness for the amended C9. Exact arithmetic: `c = 0`, the point `5/4`, whose first
iterate outside the radius is `z_2`: the reference returns `2` for `n = 3` and `BLACK` for
`n = 2`. Binary32: `c = 1 - 2^-22`, `n = 3`, the point `1 + 2^-23`, where the computed
`|z_1|^2` is `4` and the test first fails for `k = 2`: the reference returns `2`. -/
theorem iterate_reference_least_escape_witness :
    (1 ≤ (get_args 0 0 0 0 1 3).n ∧ 1 ≤ (get_args 0 0 0 0 1 2).n ∧
        1 ≤ (binary32.get_args (F32.fin (4194303 / 4194304)) (F32.fin 0)
          (F32.fin (8388609 / 8388608)) (F32.fin 0) (F32.fin 1) 3).n) ∧
      iterate_reference (5 / 4) 0 (get_args 0 0 0 0 1 3) = 2 ∧
      iterate_reference (5 / 4) 0 (get_args 0 0 0 0 1 2) = BLACK ∧
      binary32.iterate_reference (F32.fin (8388609 / 8388608)) (F32.fin 0)
        (binary32.get_args (F32.fin (4194303 / 4194304)) (F32.fin 0)
          (F32.fin (8388609 / 8388608)) (F32.fin 0) (F32.fin 1) 3) = 2 :=
  ⟨⟨by decide, by decide, by decide⟩,
    (iterate_reference_least_escape (get_args 0 0 0 0 1 3) (5 / 4) 0 (by decide)
      (binary32.get_args (F32.fin 0) (F32.fin 0) (F32.fin 0) (F32.fin 0) (F32.fin 1) 3)
      (F32.fin 0) (F32.fin 0) (by decide)).1.1 2
      (by decide) (by decide) (by decide!)
      (fun j h1 h2 => by
        have : j = 1 := by omega
        subst this
        decide!),
    (iterate_reference_least_escape (get_args 0 0 0 0 1 2) (5 / 4) 0 (by decide)
      (binary32.get_args (F32.fin 0) (F32.fin 0) (F32.fin 0) (F32.fin 0) (F32.fin 1) 3)
      (F32.fin 0) (F32.fin 0) (by decide)).1.2.2
      (by decide!)
      (fun j h1 h2 => by
        have h3 : j < 2 := h2
        have : j = 1 := by omega
        subst this
        decide!),
    (iterate_reference_least_escape (get_args 0 0 0 0 1 3) (5 / 4) 0 (by decide)
      (binary32.get_args (F32.fin (4194303 / 4194304)) (F32.fin 0)
        (F32.fin (8388609 / 8388608)) (F32.fin 0) (F32.fin 1) 3)
      (F32.fin (8388609 / 8388608)) (F32.fin 0) (by decide)).2.1 2
      (by decide) (by decide) (by decide!)
      (fun j h1 h2 => by
        have : j = 1 := by omega
        subst this
        decide!)⟩

/-- C10 (the claim fails). `c = 0`, `n = 2`, the point `5/4`: the second application of the
map takes the point out of the radius (`2 ≤ n`), and `iterate_naive` returns `BLACK`. The
values `5/4`, `25/16` and `625/256` are `float`s and no operation rounds, so the same holds
over binary32: the computed `|z_2|^2` is greater than `radius_sqr` and the function returns
`BLACK`. -/
theorem iterate_naive_black_although_escaped :
    ¬ (iterate_naive (5 / 4) 0 (get_args 0 0 0 0 1 2) = BLACK ↔
        ∀ k, 1 ≤ k → k ≤ (get_args 0 0 0 0 1 2).n →
          ¬ escaped (get_args 0 0 0 0 1 2) (5 / 4) 0 k) ∧
      binary32.iterate_naive (F32.fin (5 / 4)) (F32.fin 0)
        (binary32.get_args (F32.fin 0) (F32.fin 0) (F32.fin 0) (F32.fin 0) (F32.fin 1) 2)
          = BLACK ∧
      binary32.orbit
        (binary32.get_args (F32.fin 0) (F32.fin 0) (F32.fin 0) (F32.fin 0) (F32.fin 1) 2)
        (F32.fin (5 / 4)) (F32.fin 0) 2 = (F32.fin (625 / 256), F32.fin 0) ∧
      F32.gt
        (binary32.norm_sqr
          (binary32.get_args (F32.fin 0) (F32.fin 0) (F32.fin 0) (F32.fin 0) (F32.fin 1) 2)
          (F32.fin (5 / 4)) (F32.fin 0) 2)
        (binary32.get_args (F32.fin 0) (F32.fin 0) (F32.fin 0) (F32.fin 0) (F32.fin 1)
          2).radius_sqr = true := by
  refine ⟨?_, ?_, ?_, ?_⟩
  · intro h
    exact h.mp (by decide!) 2 (by decide) (by decide) (by decide!)
  all_goals decide!

/-- C10 (amended). In exact arithmetic (every `float` operation read as the exact
operation), `iterate_naive` returns `BLACK` exactly when none of the first `n - 1`
applications of the map takes the point out of the radius (no `z_k` with `1 ≤ k < n` is
outside), and otherwise it returns the number of the first application that does. Over
binary32, `iterate_naive` returns `BLACK` exactly when none of the computed `|z_k|^2` with
`1 ≤ k < n` passes the test `> radius_sqr` (a NaN does not pass it), and otherwise it
returns the least `k` whose computed `|z_k|^2` does. -/
theorem iterate_naive_contract (args : Arguments) (a b : ℚ)
    (args32 : binary32.Arguments) (a32 b32 : F32) :
    ((iterate_naive a b args = BLACK ↔ ∀ k, 1 ≤ k → k < args.n → ¬ escaped args a b k) ∧
      (∀ k, 1 ≤ k → k < args.n → escaped args a b k →
        (∀ j, 1 ≤ j → j < k → ¬ escaped args a b j) → iterate_naive a b args = k)) ∧
      ((binary32.iterate_naive a32 b32 args32 = BLACK ↔
          ∀ k, 1 ≤ k → k < args32.n →
            F32.gt (binary32.norm_sqr args32 a32 b32 k) args32.radius_sqr = false) ∧
        (∀ k, 1 ≤ k → k < args32.n →
          F32.gt (binary32.norm_sqr args32 a32 b32 k) args32.radius_sqr = true →
          (∀ j, 1 ≤ j → j < k →
            F32.gt (binary32.norm_sqr args32 a32 b32 j) args32.radius_sqr = false) →
          binary32.iterate_naive a32 b32 args32 = k)) :=
  ⟨⟨iterate_naive_black_iff_aux args a b,
      fun k h1 hk hesc hleast => iterate_naive_escape_aux args a b k h1 hk hesc hleast⟩,
    iterate_naive_binary32_black_iff_aux args32 a32 b32,
    fun k h1 hk hesc hleast =>
      iterate_naive_binary32_escape_aux args32 a32 b32 k h1 hk hesc hleast⟩

/-- Witness for the amended C10: `c = 0`, the point `5/4`: `2` for `n = 3`, `BLACK` for
`n = 2`, in exact arithmetic and over binary32. -/
theorem iterate_naive_contract_witness :
    iterate_naive (5 / 4) 0 (get_args 0 0 0 0 1 3) = 2 ∧
      iterate_naive (5 / 4) 0 (get_args 0 0 0 0 1 2) = BLACK ∧
      binary32.iterate_naive (F32.fin (5 / 4)) (F32.fin 0)
        (binary32.get_args (F32.fin 0) (F32.fin 0) (F32.fin 0) (F32.fin 0) (F32.fin 1) 3)
          = 2 ∧
      binary32.iterate_naive (F32.fin (5 / 4)) (F32.fin 0)
        (binary32.get_args (F32.fin 0) (F32.fin 0) (F32.fin 0) (F32.fin 0) (F32.fin 1) 2)
          = BLACK :=
  ⟨(iterate_naive_contract (get_args 0 0 0 0 1 3) (5 / 4) 0
      (binary32.get_args (F32.fin 0) (F32.fin 0) (F32.fin 0) (F32.fin 0) (F32.fin 1) 3)
      (F32.fin (5 / 4)) (F32.fin 0)).1.2 2 (by decide) (by decide)
      (by decide!)
      (fun j h1 h2 => by
        have : j = 1 := by omega
        subst this
        decide!),
    (iterate_naive_contract (get_args 0 0 0 0 1 2) (5 / 4) 0
      (binary32.get_args (F32.fin 0) (F32.fin 0) (F32.fin 0) (F32.fin 0) (F32.fin 1) 2)
      (F32.fin (5 / 4)) (F32.fin 0)).1.1.mpr
      (fun k h1 h2 => by
        have h3 : k < 2 := h2
        have : k = 1 := by omega
        subst this
        decide!),
    (iterate_naive_contract (get_args 0 0 0 0 1 3) (5 / 4) 0
      (binary32.get_args (F32.fin 0) (F32.fin 0) (F32.fin 0) (F32.fin 0) (F32.fin 1) 3)
      (F32.fin (5 / 4)) (F32.fin 0)).2.2 2 (by decide) (by decide)
      (by decide!)
      (fun j h1 h2 => by
        have : j = 1 := by omega
        subst this
        decide!),
    (iterate_naive_contract (get_args 0 0 0 0 1 2) (5 / 4) 0
      (binary32.get_args (F32.fin 0) (F32.fin 0) (F32.fin 0) (F32.fin 0) (F32.fin 1) 2)
      (F32.fin (5 / 4)) (F32.fin 0)).2.1.mpr
      (fun k h1 h2 => by
        have h3 : k < 2 := h2
        have : k = 1 := by omega
        subst this
        decide!)⟩

/-! ## Colouring -/

theorem float_to_uchar_of_nonneg (f : ℚ) (h0 : 0 ≤ f) (h1 : f ≤ 255) :
    (float_to_uchar f : ℤ) = ⌊f⌋ := by
  unfold float_to_uchar
  rw [if_pos h0]
  have hf0 : 0 ≤ ⌊f⌋ := Int.floor_nonneg.mpr h0
  have hf1 : ⌊f⌋ ≤ 255 := by
    have : ⌊f⌋ ≤ ⌊(255 : ℚ)⌋ := Int.floor_le_floor h1
    simpa using this
  rw [Int.toNat_of_nonneg (Int.emod_nonneg _ (by norm_num))]
  exact Int.emod_eq_of_lt hf0 (by omega)

theorem float_to_uchar_le (f : ℚ) : float_to_uchar f ≤ 255 := by
  unfold float_to_uchar
  have h := Int.emod_lt_of_pos (if 0 ≤ f then ⌊f⌋ else ⌈f⌉) (by norm_num : (0 : ℤ) < 256)
  have h0 := Int.emod_nonneg (if 0 ≤ f then ⌊f⌋ else ⌈f⌉) (by norm_num : (256 : ℤ) ≠ 0)
  omega

theorem map_to_color_floor_aux (n count : ℕ) (h1 : 1 ≤ count) (hn : count ≤ n) :
    (map_to_color count (255 / (n : ℚ)) : ℤ) = 255 - ⌊(count : ℚ) * (255 / (n : ℚ))⌋ := by
  have hnpos : (0 : ℚ) < n := by exact_mod_cast (by omega : 0 < n)
  have hc : ((count : ℚ)) ≤ n := by exact_mod_cast hn
  have h0 : (0 : ℚ) ≤ (count : ℚ) * (255 / (n : ℚ)) := by positivity
  have h255 : (count : ℚ) * (255 / (n : ℚ)) ≤ 255 := by
    rw [mul_div_assoc', div_le_iff₀ hnpos]
    nlinarith
  unfold map_to_color BLACK
  rw [if_neg (by omega)]
  have hle := float_to_uchar_le ((count : ℚ) * (255 / (n : ℚ)))
  rw [Nat.cast_sub hle, float_to_uchar_of_nonneg _ h0 h255]
  rfl

theorem offset_eq_aux (img : Image) (y x : ℕ) (hx : x < img.width) (hy : y < img.height)
    (hsize : 3 * img.width * img.height ≤ 2 ^ 32) :
    offset img y x = 3 * (y * img.width + x) ∧ 3 * (y * img.width + x) + 2 < 2 ^ 32 := by
  have h1 : (y + 1) * img.width ≤ img.height * img.width := Nat.mul_le_mul_right _ hy
  have h2 : 3 * img.width * img.height = 3 * (img.height * img.width) := by ring
  have h3 : (y + 1) * img.width = y * img.width + img.width := by ring
  have hlt : 3 * (y * img.width + x) + 2 < 2 ^ 32 := by omega
  refine ⟨?_, hlt⟩
  unfold offset
  have e : y * img.width * 3 + x * 3 = 3 * (y * img.width + x) := by ring
  rw [e, Nat.mod_eq_of_lt (show 3 * (y * img.width + x) < 2 ^ 64 by omega),
    Nat.mod_eq_of_lt (show 3 * (y * img.width + x) < 2 ^ 32 by omega)]

theorem color_pixel_image_aux (g : Globals) (img : Image) (y x count : ℕ) (b : ℕ → ℕ)
    (hg : g.CORRECTNESS_TEST = false) (hb : img.buffer = some b) :
    color_pixel g img y x count
      = some (g, { img with buffer := some (Function.update
          (Function.update
            (Function.update b ((offset img y x + 2) % 2 ^ 32)
              (map_to_color count img.color_const >>> 1))
            ((offset img y x + 1) % 2 ^ 32) (map_to_color count img.color_const >>> 2))
          (offset img y x) (map_to_color count img.color_const)) }) := by
  unfold color_pixel
  simp [hg, hb]

theorem color_pixel_test_aux (g : Globals) (img : Image) (y x count : ℕ)
    (hg : g.CORRECTNESS_TEST = true) :
    color_pixel g img y x count
      = some ({ g with CORRECTNESS_BUFFER :=
          Function.update g.CORRECTNESS_BUFFER (((y * img.width + x) % 2 ^ 64) % 2 ^ 32) count },
        img) := by
  unfold color_pixel
  simp [hg]

/-! ## The last columns of V0 -/

theorem enumerate_calls_columns (args : Arguments) (width height : ℕ) (_reals : Lanes ℚ)
    (c : ColorCall) (hc : c ∈ intrin_v0.enumerate args width height _reals) :
    c.y < height ∧ c.x < width - width % 4 := by
  rw [intrin_v0_enumerate_eq] at hc
  simp only [List.mem_flatMap, List.mem_range, intrin_v0.batch_calls, intrin_v0.color_batch,
    List.mem_map, List.mem_finRange, true_and] at hc
  obtain ⟨y, hy, b, hb, i, rfl⟩ := hc
  have hi := i.isLt
  split_ifs <;> exact ⟨hy, by simp only; omega⟩

theorem julia_records_last_columns_aux (_reals : Lanes ℚ) (c_re c_im start_re start_im res : ℚ)
    (width height n : ℕ) (x y : ℕ) (hcol : width - width % 4 ≤ x) (hx : x < width)
    (hy : y < height) :
    recorded (julia _reals c_re c_im start_re start_im width height res n) y x
      = some (iterate_naive (start_re + (x : ℚ) * res) (start_im + (y : ℚ) * res)
          (get_args c_re c_im start_re start_im res n)) := by
  have hw : width % 4 ≠ 0 := by omega
  have hj : julia _reals c_re c_im start_re start_im width height res n
      = intrin_v0.enumerate (get_args c_re c_im start_re start_im res n) width height _reals
        ++ intrin_v0.compute_last_points (get_args c_re c_im start_re start_im res n)
          width height := by
    simp only [julia]
    rw [if_pos hw]
  rw [hj]
  apply recorded_eq_some
  · refine ⟨⟨y, x, iterate_naive (start_re + (x : ℚ) * res) (start_im + (y : ℚ) * res)
      (get_args c_re c_im start_re start_im res n)⟩, ?_, rfl, rfl⟩
    apply List.mem_append_right
    simp only [intrin_v0.compute_last_points, List.mem_flatMap, List.mem_range, List.mem_map,
      List.mem_range'_1]
    exact ⟨y, hy, x, by omega, rfl⟩
  · intro c hc hcy hcx
    rcases List.mem_append.mp hc with h | h
    · have := (enumerate_calls_columns _ _ _ _ c h).2
      omega
    · simp only [intrin_v0.compute_last_points, List.mem_flatMap, List.mem_range, List.mem_map,
        List.mem_range'_1] at h
      obtain ⟨y', _, x', _, rfl⟩ := h
      simp only at hcy hcx
      subst hcy hcx
      rfl

/-! ## The harness -/

theorem color_calls_test (calls : List ColorCall) :
    ∀ (g : Globals) (img : Image), g.CORRECTNESS_TEST = true →
      color_calls calls (g, img)
        = some ({ CORRECTNESS_TEST := true
                  CORRECTNESS_BUFFER := recorded_counts calls img.width g.CORRECTNESS_BUFFER },
                img) := by
  induction calls with
  | nil =>
    intro g img hg
    obtain ⟨ct, cb⟩ := g
    simp only at hg
    subst hg
    rfl
  | cons c calls ih =>
    intro g img hg
    simp only [color_calls]
    rw [color_pixel_test_aux g img c.y c.x c.iterations hg, Option.some_bind]
    exact ih ⟨g.CORRECTNESS_TEST, Function.update g.CORRECTNESS_BUFFER
      (((c.y * img.width + c.x) % 2 ^ 64) % 2 ^ 32) c.iterations⟩ img hg

theorem run_julia_test (_reals : Lanes ℚ) (g : Globals) (c_re c_im start_re start_im : ℚ)
    (width height : ℕ) (res : ℚ) (n : ℕ) (img : Option (ℕ → ℕ))
    (hg : g.CORRECTNESS_TEST = true) :
    run_julia _reals g c_re c_im start_re start_im width height res n img
      = some ({ CORRECTNESS_TEST := true
                CORRECTNESS_BUFFER := recorded_counts
                  (julia _reals c_re c_im start_re start_im width height res n) width
                  g.CORRECTNESS_BUFFER }, img) := by
  unfold run_julia
  simp only [color_calls_test _ g _ hg]
  rfl

theorem run_julia_V1_test (memory : four_complexes) (g : Globals)
    (c_re c_im start_re start_im : ℚ) (width height : ℕ) (res : ℚ) (n : ℕ)
    (img : Option (ℕ → ℕ)) (hg : g.CORRECTNESS_TEST = true) :
    run_julia_V1 memory g c_re c_im start_re start_im width height res n img
      = some ({ CORRECTNESS_TEST := true
                CORRECTNESS_BUFFER := recorded_counts
                  (julia_V1 memory c_re c_im start_re start_im width height res n) width
                  g.CORRECTNESS_BUFFER }, img) := by
  unfold run_julia_V1
  simp only [color_calls_test _ g _ hg]
  rfl

theorem run_julia_V2_test (g : Globals) (c_re c_im start_re start_im : ℚ)
    (width height : ℕ) (res : ℚ) (n : ℕ) (img : Option (ℕ → ℕ))
    (hg : g.CORRECTNESS_TEST = true) :
    run_julia_V2 g c_re c_im start_re start_im width height res n img
      = some ({ CORRECTNESS_TEST := true
                CORRECTNESS_BUFFER := recorded_counts
                  (julia_V2 c_re c_im start_re start_im width height res n) width
                  g.CORRECTNESS_BUFFER }, img) := by
  unfold run_julia_V2
  simp only [color_calls_test _ g _ hg]
  rfl

theorem findSome_range_none {α : Type} (f : ℕ → Option α) (n : ℕ) :
    (List.range n).findSome? f = none ↔ ∀ i, i < n → f i = none := by
  rw [List.findSome?_eq_none_iff]
  simp only [List.mem_range]

theorem findSome_range_some {α : Type} (f : ℕ → Option α) (v : α) :
    ∀ n : ℕ, (List.range n).findSome? f = some v →
      ∃ i, i < n ∧ f i = some v ∧ ∀ j, j < i → f j = none := by
  intro n
  induction n with
  | zero => intro h; simp at h
  | succ n ih =>
    intro h
    rw [List.range_succ, List.findSome?_append] at h
    cases hn : (List.range n).findSome? f with
    | some w =>
      rw [hn] at h
      simp only [Option.or_some, Option.some.injEq] at h
      subst h
      obtain ⟨i, hi, hfi, hmin⟩ := ih hn
      exact ⟨i, by omega, hfi, hmin⟩
    | none =>
      rw [hn] at h
      simp only [Option.none_or, List.findSome?_cons, List.findSome?_nil] at h
      have hall := (findSome_range_none f n).mp hn
      refine ⟨n, by omega, ?_, hall⟩
      cases hfn : f n with
      | none => rw [hfn] at h; simp at h
      | some w => rw [hfn] at h; simpa using h

/-- The pixel loops of `test`: no message exactly when no pixel gives one, and a message is
the one of the first pixel in row-major order that gives one. -/
theorem findSome_pixels {α : Type} (f : ℕ → ℕ → Option α) (width height : ℕ) :
    ((List.range height).findSome? (fun y => (List.range width).findSome? (fun x => f y x))
        = none ↔ ∀ y x, y < height → x < width → f y x = none) ∧
      ∀ v, (List.range height).findSome? (fun y => (List.range width).findSome? (fun x => f y x))
          = some v →
        ∃ y x, y < height ∧ x < width ∧ f y x = some v ∧
          ∀ y' x', y' < height → x' < width → (y' < y ∨ (y' = y ∧ x' < x)) → f y' x' = none := by
  constructor
  · rw [findSome_range_none]
    constructor
    · intro h y x hy hx
      exact (findSome_range_none _ width).mp (h y hy) x hx
    · intro h y hy
      exact (findSome_range_none _ width).mpr (fun x hx => h y x hy hx)
  · intro v hv
    obtain ⟨y, hy, hrow, hprev⟩ := findSome_range_some _ v height hv
    obtain ⟨x, hx, hfx, hmin⟩ := findSome_range_some _ v width hrow
    refine ⟨y, x, hy, hx, hfx, ?_⟩
    intro y' x' hy' hx' hlt
    rcases hlt with h | ⟨rfl, h⟩
    · exact (findSome_range_none _ width).mp (hprev y' h) x' hx'
    · exact hmin x' h

theorem test_eq_aux (_reals : Lanes ℚ) (memory : four_complexes)
    (iterations0 iterations1 iterations2 : ℕ → ℕ) (g : Globals) (args : Arguments)
    (width height : ℕ) :
    test _reals memory iterations0 iterations1 iterations2 g args width height
      = match (List.range height).findSome? (fun y =>
            (List.range width).findSome? (fun x =>
              test.compare args width (test.counts0 _reals iterations0 args width height)
                (test.counts1 memory iterations1 args width height)
                (test.counts2 iterations2 args width height) y x)) with
        | some failed => some (failed, { CORRECTNESS_TEST := true
                                         CORRECTNESS_BUFFER :=
                                           test.counts2 iterations2 args width height })
        | none => some (TestOutcome.passed, { CORRECTNESS_TEST := false
                                              CORRECTNESS_BUFFER :=
                                                test.counts2 iterations2 args width height }) := by
  unfold test
  simp only
  rw [run_julia_test _reals { CORRECTNESS_TEST := true, CORRECTNESS_BUFFER := iterations0 }
    _ _ _ _ _ _ _ _ _ rfl, Option.some_bind]
  simp only
  rw [run_julia_V1_test memory { CORRECTNESS_TEST := true, CORRECTNESS_BUFFER := iterations1 }
    _ _ _ _ _ _ _ _ _ rfl, Option.some_bind]
  simp only
  rw [run_julia_V2_test { CORRECTNESS_TEST := true, CORRECTNESS_BUFFER := iterations2 }
    _ _ _ _ _ _ _ _ _ rfl, Option.some_bind]
  rfl

theorem test_compare_none (args : Arguments) (width : ℕ) (b0 b1 b2 : ℕ → ℕ) (y x : ℕ) :
    test.compare args width b0 b1 b2 y x = none ↔
      b0 (test.index width y x) = test.reference args y x ∧
      b1 (test.index width y x) = test.reference args y x ∧
      b2 (test.index width y x) = test.reference args y x := by
  unfold test.compare test.index test.reference
  simp only
  split_ifs with h0 h1 h2 <;> simp_all

theorem test_compare_some (args : Arguments) (width : ℕ) (b0 b1 b2 : ℕ → ℕ) (y x : ℕ)
    (v : TestOutcome) (h : test.compare args width b0 b1 b2 y x = some v) :
    v = (if b0 (test.index width y x) ≠ test.reference args y x
          then TestOutcome.failed_optimized
        else if b1 (test.index width y x) ≠ test.reference args y x
          then TestOutcome.failed_less_optimized
        else TestOutcome.failed_naive) := by
  unfold test.compare test.index test.reference at *
  simp only at h
  split_ifs at h ⊢ with h0 h1 h2 <;> simp_all

theorem test_compare_ne_passed (args : Arguments) (width : ℕ) (b0 b1 b2 : ℕ → ℕ) (y x : ℕ)
    (v : TestOutcome) (h : test.compare args width b0 b1 b2 y x = some v) :
    v ≠ TestOutcome.passed := by
  rw [test_compare_some args width b0 b1 b2 y x v h]
  split_ifs <;> simp

theorem test_verdict_aux (_reals : Lanes ℚ) (memory : four_complexes)
    (iterations0 iterations1 iterations2 : ℕ → ℕ) (g : Globals) (args : Arguments)
    (width height : ℕ) :
    ∃ outcome g',
      test _reals memory iterations0 iterations1 iterations2 g args width height
        = some (outcome, g') ∧
      (outcome = TestOutcome.passed ↔
        ∀ y x, y < height → x < width →
          test.counts0 _reals iterations0 args width height (test.index width y x)
            = test.reference args y x ∧
          test.counts1 memory iterations1 args width height (test.index width y x)
            = test.reference args y x ∧
          test.counts2 iterations2 args width height (test.index width y x)
            = test.reference args y x) ∧
      (outcome = TestOutcome.passed → g'.CORRECTNESS_TEST = false) ∧
      (outcome ≠ TestOutcome.passed →
        ∃ y x, y < height ∧ x < width ∧
          (∀ y' x', y' < height → x' < width → (y' < y ∨ (y' = y ∧ x' < x)) →
            test.counts0 _reals iterations0 args width height (test.index width y' x')
              = test.reference args y' x' ∧
            test.counts1 memory iterations1 args width height (test.index width y' x')
              = test.reference args y' x' ∧
            test.counts2 iterations2 args width height (test.index width y' x')
              = test.reference args y' x') ∧
          ¬ (test.counts0 _reals iterations0 args width height (test.index width y x)
              = test.reference args y x ∧
            test.counts1 memory iterations1 args width height (test.index width y x)
              = test.reference args y x ∧
            test.counts2 iterations2 args width height (test.index width y x)
              = test.reference args y x) ∧
          outcome =
            (if test.counts0 _reals iterations0 args width height (test.index width y x)
                ≠ test.reference args y x then TestOutcome.failed_optimized
            else if test.counts1 memory iterations1 args width height (test.index width y x)
                ≠ test.reference args y x then TestOutcome.failed_less_optimized
            else TestOutcome.failed_naive)) := by
  rw [test_eq_aux]
  obtain ⟨hnone, hsome⟩ := findSome_pixels
    (fun y x => test.compare args width (test.counts0 _reals iterations0 args width height)
      (test.counts1 memory iterations1 args width height)
      (test.counts2 iterations2 args width height) y x) width height
  cases hf : (List.range height).findSome? (fun y =>
      (List.range width).findSome? (fun x =>
        test.compare args width (test.counts0 _reals iterations0 args width height)
          (test.counts1 memory iterations1 args width height)
          (test.counts2 iterations2 args width height) y x)) with
  | none =>
    refine ⟨TestOutcome.passed, _, rfl, ?_, fun _ => rfl, fun h => absurd rfl h⟩
    constructor
    · intro _ y x hy hx
      exact (test_compare_none _ _ _ _ _ y x).mp (hnone.mp hf y x hy hx)
    · intro _
      rfl
  | some v =>
    obtain ⟨y, x, hy, hx, hv, hprev⟩ := hsome v hf
    have hne := test_compare_ne_passed _ _ _ _ _ y x v hv
    refine ⟨v, _, rfl, ?_, fun h => absurd h hne, fun _ => ?_⟩
    · constructor
      · intro h
        exact absurd h hne
      · intro h
        have hn := (test_compare_none args width _ _ _ y x).mpr (h y x hy hx)
        rw [hn] at hv
        exact absurd hv (by simp)
    · refine ⟨y, x, hy, hx, ?_, ?_, test_compare_some _ _ _ _ _ y x v hv⟩
      · intro y' x' hy' hx' hlt
        exact (test_compare_none _ _ _ _ _ y' x').mp (hprev y' x' hy' hx' hlt)
      · intro h
        have hn := (test_compare_none args width _ _ _ y x).mpr h
        rw [hn] at hv
        exact absurd hv (by simp)

/-! ## Image mode: the picture an engine leaves -/

theorem color_calls_image (calls : List ColorCall) :
    ∀ (g : Globals) (img : Image) (b : ℕ → ℕ), g.CORRECTNESS_TEST = false →
      img.buffer = some b →
      color_calls calls (g, img)
        = some (g, { img with buffer := some (paint img.width img.color_const calls b) }) := by
  induction calls with
  | nil =>
    intro g img b _ hb
    obtain ⟨w, h, buf, cc⟩ := img
    simp only at hb
    subst hb
    rfl
  | cons c calls ih =>
    intro g img b hg hb
    simp only [color_calls]
    rw [color_pixel_image_aux g img c.y c.x c.iterations b hg hb, Option.some_bind]
    exact ih g _ _ hg rfl

theorem run_julia_image (_reals : Lanes ℚ) (g : Globals) (c_re c_im start_re start_im : ℚ)
    (width height : ℕ) (res : ℚ) (n : ℕ) (b : ℕ → ℕ) (hg : g.CORRECTNESS_TEST = false) :
    run_julia _reals g c_re c_im start_re start_im width height res n (some b)
      = some (g, some (paint width (255 / (n : ℚ))
          (julia _reals c_re c_im start_re start_im width height res n) b)) := by
  unfold run_julia
  simp only [color_calls_image _ g (get_img width height (some b) n) b hg rfl]
  rfl

theorem run_julia_V1_image (memory : four_complexes) (g : Globals)
    (c_re c_im start_re start_im : ℚ) (width height : ℕ) (res : ℚ) (n : ℕ) (b : ℕ → ℕ)
    (hg : g.CORRECTNESS_TEST = false) :
    run_julia_V1 memory g c_re c_im start_re start_im width height res n (some b)
      = some (g, some (paint width (255 / (n : ℚ))
          (julia_V1 memory c_re c_im start_re start_im width height res n) b)) := by
  unfold run_julia_V1
  simp only [color_calls_image _ g (get_img width height (some b) n) b hg rfl]
  rfl

theorem run_julia_V2_image (g : Globals) (c_re c_im start_re start_im : ℚ)
    (width height : ℕ) (res : ℚ) (n : ℕ) (b : ℕ → ℕ) (hg : g.CORRECTNESS_TEST = false) :
    run_julia_V2 g c_re c_im start_re start_im width height res n (some b)
      = some (g, some (paint width (255 / (n : ℚ))
          (julia_V2 c_re c_im start_re start_im width height res n) b)) := by
  unfold run_julia_V2
  simp only [color_calls_image _ g (get_img width height (some b) n) b hg rfl]
  rfl

/-- A call overwrites the bytes it stores to and reads nothing: on contents that agree
outside a set of indices, the contents after the calls agree outside that set. -/
theorem paint_agree (width : ℕ) (color_const : ℚ) (S : ℕ → Prop) (calls : List ColorCall) :
    ∀ b b' : ℕ → ℕ, (∀ i, ¬ S i → b i = b' i) →
      ∀ i, ¬ S i → paint width color_const calls b i = paint width color_const calls b' i := by
  induction calls with
  | nil => intro b b' h i hi; exact h i hi
  | cons c calls ih =>
    intro b b' h i hi
    simp only [paint, List.foldl_cons]
    apply ih _ _ _ i hi
    intro j hj
    simp only [paint_pixel, Function.update_apply, h j hj]

theorem paint_append (width : ℕ) (color_const : ℚ) (calls : List ColorCall) (c : ColorCall)
    (b : ℕ → ℕ) :
    paint width color_const (calls ++ [c]) b
      = paint_pixel width color_const (paint width color_const calls b) c := by
  simp only [paint, List.foldl_append, List.foldl_cons, List.foldl_nil]

/-- Making the same calls again on the buffer they left changes nothing. -/
theorem paint_idem (width : ℕ) (color_const : ℚ) (calls : List ColorCall) :
    ∀ b : ℕ → ℕ,
      paint width color_const calls (paint width color_const calls b)
        = paint width color_const calls b := by
  induction calls using List.reverseRecOn with
  | nil => intro b; rfl
  | append_singleton calls c ih =>
    intro b
    rw [paint_append, paint_append]
    funext i
    have hag := paint_agree width color_const
      (fun j => j = ((c.y * width * 3 + c.x * 3) % 2 ^ 64) % 2 ^ 32 ∨
        j = ((((c.y * width * 3 + c.x * 3) % 2 ^ 64) % 2 ^ 32) + 1) % 2 ^ 32 ∨
        j = ((((c.y * width * 3 + c.x * 3) % 2 ^ 64) % 2 ^ 32) + 2) % 2 ^ 32) calls
      (paint_pixel width color_const (paint width color_const calls b) c)
      (paint width color_const calls b)
      (by
        intro j hj
        simp only [not_or] at hj
        simp only [paint_pixel, Function.update_apply, if_neg hj.1, if_neg hj.2.1,
          if_neg hj.2.2])
      i
    by_cases h0 : i = ((c.y * width * 3 + c.x * 3) % 2 ^ 64) % 2 ^ 32
    · simp only [paint_pixel, Function.update_apply, if_pos h0]
    · by_cases h1 : i = ((((c.y * width * 3 + c.x * 3) % 2 ^ 64) % 2 ^ 32) + 1) % 2 ^ 32
      · simp only [paint_pixel, Function.update_apply, if_neg h0, if_pos h1]
      · by_cases h2 : i = ((((c.y * width * 3 + c.x * 3) % 2 ^ 64) % 2 ^ 32) + 2) % 2 ^ 32
        · simp only [paint_pixel, Function.update_apply, if_neg h0, if_neg h1, if_pos h2]
        · have := hag (by simp only [not_or]; exact ⟨h0, h1, h2⟩)
          rw [ih] at this
          simp only [paint_pixel, Function.update_apply, if_neg h0, if_neg h1, if_neg h2] at this ⊢
          exact this

theorem pixel_index_lt (width height y x : ℕ) (hx : x < width) (hy : y < height) :
    y * width + x < width * height := by
  have h1 : (y + 1) * width ≤ height * width := Nat.mul_le_mul_right width hy
  have h2 : (y + 1) * width = y * width + width := by ring
  have h3 : height * width = width * height := Nat.mul_comm _ _
  omega

/-- The stores of one call for a pixel of the image whose count is the one of `f`: the
three bytes of the pixel get the bytes of the picture of `f`. -/
theorem paint_pixel_rendered (width height : ℕ) (color_const : ℚ) (f : ℕ → ℕ → ℕ)
    (hsize : 3 * width * height ≤ 2 ^ 32) (b : ℕ → ℕ) (c : ColorCall) (hy : c.y < height)
    (hx : c.x < width) (hf : c.iterations = f c.y c.x) (i : ℕ) :
    paint_pixel width color_const b c i
      = if i / 3 = c.y * width + c.x then rendered_byte width color_const f i else b i := by
  have hlt := pixel_index_lt width height c.y c.x hx hy
  have hsz : 3 * (width * height) ≤ 2 ^ 32 := by rw [← Nat.mul_assoc]; exact hsize
  have ho : ((c.y * width * 3 + c.x * 3) % 2 ^ 64) % 2 ^ 32 = 3 * (c.y * width + c.x) := by
    have e : c.y * width * 3 + c.x * 3 = 3 * (c.y * width + c.x) := by ring
    rw [e, Nat.mod_eq_of_lt (show 3 * (c.y * width + c.x) < 2 ^ 64 by omega),
      Nat.mod_eq_of_lt (show 3 * (c.y * width + c.x) < 2 ^ 32 by omega)]
  have hdiv : (c.y * width + c.x) / width = c.y := by
    rw [Nat.add_comm, Nat.add_mul_div_right _ _ (by omega : 0 < width),
      Nat.div_eq_of_lt hx, Nat.zero_add]
  have hmod : (c.y * width + c.x) % width = c.x := by
    rw [Nat.add_comm, Nat.add_mul_mod_self_right, Nat.mod_eq_of_lt hx]
  simp only [paint_pixel, Function.update_apply, ho,
    Nat.mod_eq_of_lt (show 3 * (c.y * width + c.x) + 2 < 2 ^ 32 by omega),
    Nat.mod_eq_of_lt (show 3 * (c.y * width + c.x) + 1 < 2 ^ 32 by omega)]
  by_cases hi : i / 3 = c.y * width + c.x
  · rw [if_pos hi]
    unfold rendered_byte
    simp only [hi, hdiv, hmod, ← hf]
    by_cases h0 : i = 3 * (c.y * width + c.x)
    · rw [if_pos h0, if_pos (by omega)]
    · rw [if_neg h0]
      by_cases h1 : i = 3 * (c.y * width + c.x) + 1
      · rw [if_pos h1, if_neg (by omega), if_pos (by omega)]
      · rw [if_neg h1, if_pos (by omega), if_neg (by omega), if_neg (by omega)]
  · rw [if_neg hi, if_neg (by omega), if_neg (by omega), if_neg (by omega)]

theorem paint_rendered_aux (width height : ℕ) (color_const : ℚ) (f : ℕ → ℕ → ℕ)
    (hsize : 3 * width * height ≤ 2 ^ 32) (calls : List ColorCall) :
    ∀ b : ℕ → ℕ, (∀ c ∈ calls, c.y < height ∧ c.x < width ∧ c.iterations = f c.y c.x) →
      ∀ i, paint width color_const calls b i
        = if ∃ c ∈ calls, i / 3 = c.y * width + c.x then rendered_byte width color_const f i
          else b i := by
  induction calls with
  | nil => intro b _ i; simp [paint]
  | cons c calls ih =>
    intro b hs i
    have hc := hs c (List.mem_cons_self _ _)
    simp only [paint, List.foldl_cons]
    have := ih (paint_pixel width color_const b c)
      (fun c' hc' => hs c' (List.mem_cons_of_mem _ hc')) i
    simp only [paint] at this
    rw [this, paint_pixel_rendered width height color_const f hsize b c hc.1 hc.2.1 hc.2.2 i]
    by_cases h1 : ∃ c' ∈ calls, i / 3 = c'.y * width + c'.x
    · rw [if_pos h1, if_pos]
      obtain ⟨c', hc', he⟩ := h1
      exact ⟨c', List.mem_cons_of_mem _ hc', he⟩
    · rw [if_neg h1]
      by_cases h2 : i / 3 = c.y * width + c.x
      · rw [if_pos h2, if_pos ⟨c, List.mem_cons_self _ _, h2⟩]
      · rw [if_neg h2, if_neg]
        rintro ⟨c', hc', he⟩
        rcases List.mem_cons.mp hc' with rfl | hmem
        · exact h2 he
        · exact h1 ⟨c', hmem, he⟩

/-- Calls that stay in the image, reach every pixel and carry the count `f y x` for the
pixel `(x, y)` leave the picture of `f`, whatever their order and number. -/
theorem paint_eq_rendered (width height : ℕ) (color_const : ℚ) (f : ℕ → ℕ → ℕ)
    (hsize : 3 * width * height ≤ 2 ^ 32) (calls : List ColorCall) (b : ℕ → ℕ)
    (hsound : ∀ c ∈ calls, c.y < height ∧ c.x < width ∧ c.iterations = f c.y c.x)
    (hcover : ∀ y x, y < height → x < width → ∃ c ∈ calls, c.y = y ∧ c.x = x) :
    paint width color_const calls b = rendered width height color_const f b := by
  funext i
  rw [paint_rendered_aux width height color_const f hsize calls b hsound i]
  unfold rendered
  by_cases hi : i < 3 * (width * height)
  · rw [if_pos hi, if_pos]
    have hw : 0 < width := by
      rcases Nat.eq_zero_or_pos width with h | h
      · rw [h] at hi; simp at hi
      · exact h
    have hq : i / 3 < width * height := by omega
    have hyy : i / 3 / width < height := by
      rw [Nat.div_lt_iff_lt_mul hw, Nat.mul_comm]
      exact hq
    obtain ⟨c, hc, hcy, hcx⟩ := hcover (i / 3 / width) (i / 3 % width) hyy (Nat.mod_lt _ hw)
    refine ⟨c, hc, ?_⟩
    rw [hcy, hcx, Nat.mul_comm]
    exact (Nat.div_add_mod _ _).symm
  · rw [if_neg hi, if_neg]
    rintro ⟨c, hc, he⟩
    obtain ⟨hy, hx, _⟩ := hsound c hc
    have := pixel_index_lt width height c.y c.x hx hy
    omega

theorem julia_V2_calls_sound (c_re c_im start_re start_im res : ℚ) (width height n : ℕ)
    (c : ColorCall) (hc : c ∈ julia_V2 c_re c_im start_re start_im width height res n) :
    c.y < height ∧ c.x < width ∧
      c.iterations = iterate_naive (start_re + (c.x : ℚ) * res) (start_im + (c.y : ℚ) * res)
        (get_args c_re c_im start_re start_im res n) := by
  simp only [julia_V2, naive.enumerate, List.mem_flatMap, List.mem_range, List.mem_map] at hc
  obtain ⟨y, hy, x, hx, rfl⟩ := hc
  exact ⟨hy, hx, rfl⟩

theorem julia_V2_calls_cover (c_re c_im start_re start_im res : ℚ) (width height n : ℕ)
    (x y : ℕ) (hx : x < width) (hy : y < height) :
    ∃ c ∈ julia_V2 c_re c_im start_re start_im width height res n, c.y = y ∧ c.x = x := by
  refine ⟨⟨y, x, iterate_naive (start_re + (x : ℚ) * res) (start_im + (y : ℚ) * res)
    (get_args c_re c_im start_re start_im res n)⟩, ?_, rfl, rfl⟩
  simp only [julia_V2, naive.enumerate, List.mem_flatMap, List.mem_range, List.mem_map]
  exact ⟨y, hy, x, hx, rfl⟩

/-- For `2 ≤ n < 2^32` and an image of at most `2^32` bytes, `julia` (V0) and `julia_V2`
leave the same image buffer: the picture of the counts of `iterate_naive`. -/
theorem julia_image_eq_julia_V2 (_reals : Lanes ℚ) (g : Globals)
    (c_re c_im start_re start_im res : ℚ) (width height n : ℕ) (b : ℕ → ℕ)
    (hg : g.CORRECTNESS_TEST = false) (hn : 2 ≤ n) (hn32 : n < 2 ^ 32)
    (hsize : 3 * width * height ≤ 2 ^ 32) :
    run_julia _reals g c_re c_im start_re start_im width height res n (some b)
        = run_julia_V2 g c_re c_im start_re start_im width height res n (some b) ∧
      run_julia_V2 g c_re c_im start_re start_im width height res n (some b)
        = some (g, some (rendered width height (255 / (n : ℚ))
            (fun y x => iterate_naive (start_re + (x : ℚ) * res) (start_im + (y : ℚ) * res)
              (get_args c_re c_im start_re start_im res n)) b)) := by
  rw [run_julia_image _ _ _ _ _ _ _ _ _ _ _ hg, run_julia_V2_image _ _ _ _ _ _ _ _ _ _ hg,
    paint_eq_rendered width height (255 / (n : ℚ))
      (fun y x => iterate_naive (start_re + (x : ℚ) * res) (start_im + (y : ℚ) * res)
        (get_args c_re c_im start_re start_im res n)) hsize
      (julia _reals c_re c_im start_re start_im width height res n) b
      (fun c hc => julia_calls_sound _reals c_re c_im start_re start_im res width height n hn
        hn32 c hc)
      (fun y x hy hx => julia_calls_cover _reals c_re c_im start_re start_im res width height n
        hn32 x y hx hy),
    paint_eq_rendered width height (255 / (n : ℚ))
      (fun y x => iterate_naive (start_re + (x : ℚ) * res) (start_im + (y : ℚ) * res)
        (get_args c_re c_im start_re start_im res n)) hsize
      (julia_V2 c_re c_im start_re start_im width height res n) b
      (fun c hc => julia_V2_calls_sound c_re c_im start_re start_im res width height n c hc)
      (fun y x hy hx => julia_V2_calls_cover c_re c_im start_re start_im res width height n
        x y hx hy)]
  exact ⟨rfl, rfl⟩

/-- In image mode a second run of an engine that makes the same calls leaves the buffer of
the first run: `julia_V2`, `julia` for every content of the register it does not
initialise, and `julia_V1` when `malloc` hands out the same content both times. -/
theorem engines_rerun_same_calls (_reals _reals2 : Lanes ℚ) (memory : four_complexes)
    (g : Globals) (c_re c_im start_re start_im res : ℚ) (width height n : ℕ) (b : ℕ → ℕ)
    (hg : g.CORRECTNESS_TEST = false) :
    ((run_julia_V2 g c_re c_im start_re start_im width height res n (some b)).bind fun r =>
        run_julia_V2 r.1 c_re c_im start_re start_im width height res n r.2)
      = run_julia_V2 g c_re c_im start_re start_im width height res n (some b) ∧
    ((run_julia _reals g c_re c_im start_re start_im width height res n (some b)).bind fun r =>
        run_julia _reals2 r.1 c_re c_im start_re start_im width height res n r.2)
      = run_julia _reals g c_re c_im start_re start_im width height res n (some b) ∧
    ((run_julia_V1 memory g c_re c_im start_re start_im width height res n (some b)).bind
        fun r => run_julia_V1 memory r.1 c_re c_im start_re start_im width height res n r.2)
      = run_julia_V1 memory g c_re c_im start_re start_im width height res n (some b) := by
  have h0 : julia _reals2 c_re c_im start_re start_im width height res n
      = julia _reals c_re c_im start_re start_im width height res n := by
    simp only [julia, intrin_v0_enumerate_eq]
  refine ⟨?_, ?_, ?_⟩
  · rw [run_julia_V2_image _ _ _ _ _ _ _ _ _ _ hg, Option.some_bind,
      run_julia_V2_image _ _ _ _ _ _ _ _ _ _ hg, paint_idem]
  · rw [run_julia_image _ _ _ _ _ _ _ _ _ _ _ hg, Option.some_bind,
      run_julia_image _ _ _ _ _ _ _ _ _ _ _ hg, h0, paint_idem]
  · rw [run_julia_V1_image _ _ _ _ _ _ _ _ _ _ _ hg, Option.some_bind,
      run_julia_V1_image _ _ _ _ _ _ _ _ _ _ _ hg, paint_idem]

/-! ## Claims C11 to C20 -/

/-- C11 (failing input): in image mode on a zeroed buffer of `5 * 3 * 3` bytes, with `c = 0`,
start `0`, resolution `FLT_MAX / 4` and `n = 2`, `julia` and `julia_V2` leave the same bytes,
while `julia_V1` leaves other bytes at the pixels `(3, 0)`, `(4, 0)` and `(4, 1)`. -/
theorem engines_images_at_sentinel :
    buffer_bytes (run_julia zero_memory.reals image_mode 0 0 0 0 5 3 (FLT_MAX / 4) 2
        (some fun _ => 0)) 45
      = some [0, 0, 0, 128, 32, 64, 128, 32, 64, 128, 32, 64, 128, 32, 64,
              128, 32, 64, 128, 32, 64, 128, 32, 64, 128, 32, 64, 128, 32, 64,
              128, 32, 64, 128, 32, 64, 128, 32, 64, 128, 32, 64, 128, 32, 64] ∧
      buffer_bytes (run_julia_V2 image_mode 0 0 0 0 5 3 (FLT_MAX / 4) 2 (some fun _ => 0)) 45
        = some [0, 0, 0, 128, 32, 64, 128, 32, 64, 128, 32, 64, 128, 32, 64,
                128, 32, 64, 128, 32, 64, 128, 32, 64, 128, 32, 64, 128, 32, 64,
                128, 32, 64, 128, 32, 64, 128, 32, 64, 128, 32, 64, 128, 32, 64] ∧
      buffer_bytes (run_julia_V1 zero_memory image_mode 0 0 0 0 5 3 (FLT_MAX / 4) 2
          (some fun _ => 0)) 45
        = some [0, 0, 0, 128, 32, 64, 128, 32, 64, 0, 0, 0, 0, 0, 0,
                128, 32, 64, 128, 32, 64, 128, 32, 64, 128, 32, 64, 0, 0, 0,
                128, 32, 64, 128, 32, 64, 128, 32, 64, 128, 32, 64, 128, 32, 64] := by
  refine ⟨?_, ?_, ?_⟩ <;> decide!

/-- C12 (failing input): `julia_V1` in image mode on a zeroed buffer of `1 * 4 * 3` bytes,
with `c = 0`, start `FLT_MAX`, resolution `1` and `n = 2`, on a block `ones_memory`, and then
again with the same parameters on the resulting buffer, on the block the first call left
behind: the second run changes the bytes of pixel `(0, 0)`. -/
theorem julia_V1_rerun_at_sentinel :
    buffer_bytes (run_julia_V1 ones_memory image_mode 0 0 FLT_MAX 0 1 4 1 2
        (some fun _ => 0)) 12
      = some [128, 32, 64, 0, 0, 0, 0, 0, 0, 128, 32, 64] ∧
      buffer_bytes ((run_julia_V1 ones_memory image_mode 0 0 FLT_MAX 0 1 4 1 2
          (some fun _ => 0)).bind fun r =>
            run_julia_V1 (intrin_v1.final_pool ones_memory 0 0 FLT_MAX 0 1 4 1 2) r.1
              0 0 FLT_MAX 0 1 4 1 2 r.2) 12
        = some [0, 0, 0, 0, 0, 0, 0, 0, 0, 128, 32, 64] ∧
      (intrin_v1.final_pool ones_memory 0 0 FLT_MAX 0 1 4 1 2).count 3 = 2 ∧
      julia_V1 ones_memory 0 0 FLT_MAX 0 1 4 1 2
        = [⟨3, 0, 1⟩, ⟨0, 0, 1⟩, ⟨0, 0, 1⟩, ⟨0, 0, 1⟩] ∧
      julia_V1 (intrin_v1.final_pool ones_memory 0 0 FLT_MAX 0 1 4 1 2) 0 0 FLT_MAX 0 1 4 1 2
        = [⟨3, 0, 1⟩, ⟨0, 0, 2⟩, ⟨0, 0, 2⟩, ⟨0, 0, 2⟩] := by
  refine ⟨?_, ?_, ?_, ?_, ?_⟩ <;> decide!

/-- C13. The last columns of V0: for a width with `width % 4 ≠ 0`, every height and every
parameter set, the value V0 records for a pixel `(x, y)` with `x ≥ width - width % 4` is the
value the naive engine `julia_V2` records for that pixel. -/
theorem julia_last_columns_eq_julia_V2 (_reals : Lanes ℚ) (c_re c_im start_re start_im res : ℚ)
    (width height n : ℕ) (x y : ℕ) (_hw : width % 4 ≠ 0) (hcol : width - width % 4 ≤ x)
    (hx : x < width) (hy : y < height) :
    recorded (julia _reals c_re c_im start_re start_im width height res n) y x
      = recorded (julia_V2 c_re c_im start_re start_im width height res n) y x := by
  rw [julia_records_last_columns_aux _reals c_re c_im start_re start_im res width height n x y
      hcol hx hy,
    julia_V2_records_naive c_re c_im start_re start_im res width height n x y hx hy]

/-- Witness for C13: a 6 x 1 image, `c = 1/4`, `n = 5`; the pixel `x = 5` is the point `1`,
for which both engines record `3`. -/
theorem julia_last_columns_eq_julia_V2_witness :
    (6 % 4 ≠ 0 ∧ 6 - 6 % 4 ≤ 5 ∧ 5 < 6 ∧ 0 < 1) ∧
      recorded (julia (fun _ => 0) (1 / 4) 0 (-3 / 2) 0 6 1 (1 / 2) 5) 0 5 = some 3 ∧
      recorded (julia_V2 (1 / 4) 0 (-3 / 2) 0 6 1 (1 / 2) 5) 0 5 = some 3 :=
  ⟨by decide,
    (julia_last_columns_eq_julia_V2 (fun _ => 0) (1 / 4) 0 (-3 / 2) 0 (1 / 2) 6 1 5 5 0
      (by decide) (by decide) (by decide) (by decide)).trans (by decide!),
    by decide!⟩

/-- C14. Sentinel colour: `map_to_color 0 scale = 0` for every colour scale, and `color_pixel`
in image mode with count `0` writes `0` to the three bytes of the pixel (at `o`, `o + 1`,
`o + 2` for `o = offset img y x`) and does nothing else. -/
theorem sentinel_colour_black (scale : ℚ) (g : Globals) (img : Image) (y x : ℕ) (b : ℕ → ℕ)
    (hg : g.CORRECTNESS_TEST = false) (hb : img.buffer = some b) :
    map_to_color 0 scale = 0 ∧
      ∃ b' : ℕ → ℕ, color_pixel g img y x 0 = some (g, { img with buffer := some b' }) ∧
        b' (offset img y x) = 0 ∧ b' ((offset img y x + 1) % 2 ^ 32) = 0 ∧
        b' ((offset img y x + 2) % 2 ^ 32) = 0 ∧
        ∀ i, i ≠ offset img y x → i ≠ (offset img y x + 1) % 2 ^ 32 →
          i ≠ (offset img y x + 2) % 2 ^ 32 → b' i = b i := by
  refine ⟨rfl, _, color_pixel_image_aux g img y x 0 b hg hb, ?_, ?_, ?_, ?_⟩
  · simp [map_to_color, BLACK]
  · simp [map_to_color, BLACK, Function.update_apply]
  · simp [map_to_color, BLACK, Function.update_apply]
  · intro i h0 h1 h2
    simp only [Function.update_apply, if_neg h0, if_neg h1, if_neg h2]

/-- Witness for C14: the pixel `(1, 0)` of a 2 x 1 image whose six bytes are all `9`. -/
theorem sentinel_colour_black_witness :
    map_to_color 0 (255 / 2) = 0 ∧
      (color_pixel ⟨false, fun _ => 0⟩ (get_img 2 1 (some fun _ => 9) 2) 0 1 0).map
        (fun s => s.2.buffer.map fun b => (List.range 6).map b) = some (some [9, 9, 9, 0, 0, 0]) := by
  obtain ⟨h1, b', h2, -⟩ := sentinel_colour_black (255 / 2) ⟨false, fun _ => 0⟩
    (get_img 2 1 (some fun _ => 9) 2) 0 1 (fun _ => 9) rfl rfl
  exact ⟨h1, by decide!⟩

/-- C15. Colour scenario: with `maxIterations = 100`, so that `get_img` sets
`color_const = 255 / 100`, `map_to_color` maps the count `50` to `128`. -/
theorem colour_scenario_fifty (width height : ℕ) (img : Option (ℕ → ℕ)) :
    map_to_color 50 (get_img width height img 100).color_const = 128 := by
  show map_to_color 50 (255 / ((100 : ℕ) : ℚ)) = 128
  decide!

/-- C16 (the claim fails). For `n = 100` and count `1` the product is `2.55`:
`map_to_color` returns `255 - 2 = 253`, rounding to the nearest integer gives
`255 - 3 = 252`. Over binary32 the product is `2.5499999...` and the function returns `253`
as well. -/
theorem map_to_color_truncates :
    (map_to_color 1 (get_img 1 1 none 100).color_const : ℤ) = 253 ∧
      255 - round ((1 : ℚ) * (255 / ((100 : ℕ) : ℚ))) = 252 ∧
      binary32.map_to_color 1 (binary32.color_const 100) = 253 := by
  refine ⟨?_, ?_, ?_⟩ <;> decide!

/-- C16 (amended). For `n ≥ 1` and every count in `[1, n]`: in exact arithmetic (the
quotient `255 / n` and the product read as the exact operations),
`map_to_color count (255 / n)` is `255 - ⌊count * 255 / n⌋`: the conversion to
`unsigned char` discards the fractional part. Over binary32, where `n`, the quotient
`255.0f / n`, `count` and the product are rounded, the value of `map_to_color` differs from
`255 - ⌊count * 255 / n⌋` by at most `1` (`n` is an `unsigned`, so `n < 2^32`). -/
theorem map_to_color_floor (width height : ℕ) (img : Option (ℕ → ℕ)) (n count : ℕ)
    (h1 : 1 ≤ count) (hn : count ≤ n) :
    (map_to_color count (get_img width height img n).color_const : ℤ)
        = 255 - ⌊(count : ℚ) * (255 / (n : ℚ))⌋ ∧
      (n < 2 ^ 32 →
        |(binary32.map_to_color count (binary32.color_const n) : ℤ)
          - (255 - ⌊(count : ℚ) * (255 / (n : ℚ))⌋)| ≤ 1) :=
  ⟨map_to_color_floor_aux n count h1 hn, map_to_color_binary32_near_aux n count h1 hn⟩

/-- Witness for the amended C16: `n = 100`, count `50`, where `⌊127.5⌋ = 127`; over
binary32 the product is `127.5` as well and the value is `128`. -/
theorem map_to_color_floor_witness :
    (1 ≤ 50 ∧ 50 ≤ 100 ∧ 100 < 2 ^ 32) ∧
      (map_to_color 50 (get_img 1 1 none 100).color_const : ℤ) = 255 - 127 ∧
      |(binary32.map_to_color 50 (binary32.color_const 100) : ℤ)
        - (255 - ⌊((50 : ℕ) : ℚ) * (255 / ((100 : ℕ) : ℚ))⌋)| ≤ 1 ∧
      binary32.map_to_color 50 (binary32.color_const 100) = 128 :=
  ⟨⟨by decide, by decide, by decide⟩,
    (map_to_color_floor 1 1 none 100 50 (by decide) (by decide)).1.trans (by decide!),
    (map_to_color_floor 1 1 none 100 50 (by decide) (by decide)).2 (by decide),
    by decide!⟩

/-- C17. Pixel layout and frame of `color_pixel` in image mode: for a pixel `x < width`,
`y < height` of an image with `3 * width * height ≤ 2^32`, the call sets the byte at
`o = 3 * (y * width + x)` to `level = map_to_color count color_const`, the byte at `o + 1`
to `level >> 2`, the byte at `o + 2` to `level >> 1`, and leaves every other byte, the
other fields of the image and the globals as they are. -/
theorem color_pixel_layout (g : Globals) (img : Image) (y x count : ℕ) (b : ℕ → ℕ)
    (hg : g.CORRECTNESS_TEST = false) (hb : img.buffer = some b)
    (hx : x < img.width) (hy : y < img.height) (hsize : 3 * img.width * img.height ≤ 2 ^ 32) :
    color_pixel g img y x count
      = some (g, { img with buffer := some (fun i =>
          if i = 3 * (y * img.width + x) then map_to_color count img.color_const
          else if i = 3 * (y * img.width + x) + 1 then map_to_color count img.color_const >>> 2
          else if i = 3 * (y * img.width + x) + 2 then map_to_color count img.color_const >>> 1
          else b i) }) := by
  obtain ⟨ho, hlt⟩ := offset_eq_aux img y x hx hy hsize
  rw [color_pixel_image_aux g img y x count b hg hb, ho,
    Nat.mod_eq_of_lt (show 3 * (y * img.width + x) + 2 < 2 ^ 32 from hlt),
    Nat.mod_eq_of_lt (show 3 * (y * img.width + x) + 1 < 2 ^ 32 by omega)]
  congr 4
  funext i
  simp only [Function.update_apply]

/-- Witness for C17: the pixel `(1, 1)` of a 2 x 2 image whose twelve bytes are all `9`,
coloured with count `1` for `n = 2` (level `128`). -/
theorem color_pixel_layout_witness :
    ((⟨false, fun _ => 0⟩ : Globals).CORRECTNESS_TEST = false ∧
        (get_img 2 2 (some fun _ => 9) 2).buffer = some (fun _ => 9) ∧
        1 < (get_img 2 2 (some fun _ => 9) 2).width ∧
        1 < (get_img 2 2 (some fun _ => 9) 2).height ∧
        3 * (get_img 2 2 (some fun _ => 9) 2).width * (get_img 2 2 (some fun _ => 9) 2).height
          ≤ 2 ^ 32) ∧
      (color_pixel ⟨false, fun _ => 0⟩ (get_img 2 2 (some fun _ => 9) 2) 1 1 1).map
        (fun s => s.2.buffer.map fun b => (List.range 12).map b)
          = some (some [9, 9, 9, 9, 9, 9, 9, 9, 9, 128, 32, 64]) :=
  ⟨⟨rfl, rfl, by decide, by decide, by decide⟩,
    (congrArg (fun r : Option (Globals × Image) =>
        r.map (fun s => s.2.buffer.map fun b => (List.range 12).map b))
      (color_pixel_layout ⟨false, fun _ => 0⟩ (get_img 2 2 (some fun _ => 9) 2) 1 1 1
        (fun _ => 9) rfl rfl (by decide) (by decide) (by decide))).trans (by decide!)⟩

/-- C18 (the claim fails). For an image of width `2^32` the index `y * width + x` of the
pixel `(0, 1)` is `2^32`; in verification mode `color_pixel` stores the count `7` at index
`0` and leaves the entry at index `2^32` as it is. -/
theorem color_pixel_test_index_wraps :
    (color_pixel ⟨true, fun _ => 0⟩ (get_img (2 ^ 32) 2 none 2) 1 0 7).map
        (fun s => (s.1.CORRECTNESS_BUFFER 0, s.1.CORRECTNESS_BUFFER (1 * 2 ^ 32 + 0)))
      = some (7, 0) := by
  decide!

/-- C18 (amended). When `CORRECTNESS_TEST` is set and the index `y * width + x` is below
`2^32`, `color_pixel` stores the count at that index of `CORRECTNESS_BUFFER`, changes no
other entry of the buffer, returns the image as it was, whatever its buffer is (the null
pointer included), and leaves `CORRECTNESS_TEST` set. -/
theorem color_pixel_test_frame (g : Globals) (img : Image) (y x count : ℕ)
    (hg : g.CORRECTNESS_TEST = true) (hidx : y * img.width + x < 2 ^ 32) :
    color_pixel g img y x count
      = some ({ CORRECTNESS_TEST := true
                CORRECTNESS_BUFFER := fun i =>
                  if i = y * img.width + x then count else g.CORRECTNESS_BUFFER i },
              img) := by
  rw [color_pixel_test_aux g img y x count hg,
    Nat.mod_eq_of_lt (show y * img.width + x < 2 ^ 64 by omega), Nat.mod_eq_of_lt hidx]
  obtain ⟨ct, cb⟩ := g
  simp only at hg
  subst hg
  congr 3
  funext i
  simp only [Function.update_apply]

/-- Witness for the amended C18: the pixel `(1, 1)` of an image of width `3` with the null
pointer as buffer; the count `7` goes to entry `4`. -/
theorem color_pixel_test_frame_witness :
    ((⟨true, fun _ => 0⟩ : Globals).CORRECTNESS_TEST = true ∧
        1 * (get_img 3 2 none 5).width + 1 < 2 ^ 32) ∧
      (color_pixel ⟨true, fun _ => 0⟩ (get_img 3 2 none 5) 1 1 7).map
        (fun s => ((List.range 6).map s.1.CORRECTNESS_BUFFER, s.2.buffer.isNone))
          = some ([0, 0, 0, 0, 7, 0], true) :=
  ⟨⟨rfl, by decide⟩,
    (congrArg (fun r : Option (Globals × Image) =>
        r.map (fun s => ((List.range 6).map s.1.CORRECTNESS_BUFFER, s.2.buffer.isNone)))
      (color_pixel_test_frame ⟨true, fun _ => 0⟩ (get_img 3 2 none 5) 1 1 7 rfl
        (by decide))).trans (by decide!)⟩

/-- C19. Escape radius: over the reals, `radius_sqr` as `get_args` sets it is the square of
`radius = (c_betrag > 2) ? c_betrag : 2` for `c_betrag = sqrt (c_re^2 + c_im^2)`, that is
`(max |c| 2)^2`; it equals `max (c_re^2 + c_im^2) 4`, is at least `4` and is positive. -/
theorem get_args_radius_sqr (c_re c_im start_re start_im res : ℚ) (n : ℕ) :
    (((get_args c_re c_im start_re start_im res n).radius_sqr : ℚ) : ℝ)
        = (if Real.sqrt ((c_re : ℝ) * c_re + (c_im : ℝ) * c_im) > 2
            then Real.sqrt ((c_re : ℝ) * c_re + (c_im : ℝ) * c_im) else 2)
          * (if Real.sqrt ((c_re : ℝ) * c_re + (c_im : ℝ) * c_im) > 2
            then Real.sqrt ((c_re : ℝ) * c_re + (c_im : ℝ) * c_im) else 2) ∧
      (((get_args c_re c_im start_re start_im res n).radius_sqr : ℚ) : ℝ)
        = (max (Real.sqrt ((c_re : ℝ) * c_re + (c_im : ℝ) * c_im)) 2) ^ 2 ∧
      (get_args c_re c_im start_re start_im res n).radius_sqr
        = max (c_re * c_re + c_im * c_im) 4 ∧
      4 ≤ (get_args c_re c_im start_re start_im res n).radius_sqr ∧
      0 < (get_args c_re c_im start_re start_im res n).radius_sqr := by
  have hs0 : (0 : ℝ) ≤ (c_re : ℝ) * c_re + (c_im : ℝ) * c_im :=
    add_nonneg (mul_self_nonneg _) (mul_self_nonneg _)
  have hcast : (((c_re * c_re + c_im * c_im : ℚ)) : ℝ) = (c_re : ℝ) * c_re + (c_im : ℝ) * c_im := by
    push_cast
    ring
  have h4 : Real.sqrt ((c_re : ℝ) * c_re + (c_im : ℝ) * c_im) > 2
      ↔ c_re * c_re + c_im * c_im > 4 := by
    rw [gt_iff_lt, Real.lt_sqrt (by norm_num), ← hcast]
    constructor
    · intro h
      have : ((4 : ℚ) : ℝ) < ((c_re * c_re + c_im * c_im : ℚ) : ℝ) := by
        push_cast at h ⊢
        linarith
      exact_mod_cast this
    · intro h
      have : ((4 : ℚ) : ℝ) < ((c_re * c_re + c_im * c_im : ℚ) : ℝ) := by exact_mod_cast h
      push_cast at this ⊢
      linarith
  have hr := radius_sqr_get_args c_re c_im start_re start_im res n
  have hmain : (((get_args c_re c_im start_re start_im res n).radius_sqr : ℚ) : ℝ)
        = (if Real.sqrt ((c_re : ℝ) * c_re + (c_im : ℝ) * c_im) > 2
            then Real.sqrt ((c_re : ℝ) * c_re + (c_im : ℝ) * c_im) else 2)
          * (if Real.sqrt ((c_re : ℝ) * c_re + (c_im : ℝ) * c_im) > 2
            then Real.sqrt ((c_re : ℝ) * c_re + (c_im : ℝ) * c_im) else 2) := by
    simp only [get_args]
    by_cases h : c_re * c_re + c_im * c_im > 4
    · rw [if_pos h, if_pos (h4.mpr h), Real.mul_self_sqrt hs0, hcast]
    · rw [if_neg h, if_neg (fun h' => h (h4.mp h'))]
      norm_num
  refine ⟨hmain, ?_, ?_, hr.1, by linarith [hr.1]⟩
  · rw [hmain, sq]
    by_cases h : Real.sqrt ((c_re : ℝ) * c_re + (c_im : ℝ) * c_im) > 2
    · rw [if_pos h, max_eq_left h.le]
    · rw [if_neg h, max_eq_right (not_lt.mp h)]
  · simp only [get_args]
    by_cases h : c_re * c_re + c_im * c_im > 4
    · rw [if_pos h, max_eq_left h.le]
    · rw [if_neg h, max_eq_right (not_lt.mp h)]

/-- C20: `test` always gives a verdict. It is `passed` (the path that prints "Passed" and
returns, with `CORRECTNESS_TEST` reset) exactly when at every pixel the three blocks of
counts hold the value of `iterate_reference`; otherwise there is a first pixel in row-major
order at which a block differs, every earlier pixel agrees in all three blocks, and the
verdict names the first block that differs there in the order V0, V1, naive. -/
theorem test_verdict (_reals : Lanes ℚ) (memory : four_complexes)
    (iterations0 iterations1 iterations2 : ℕ → ℕ) (g : Globals) (args : Arguments)
    (width height : ℕ) :
    ∃ outcome g',
      test _reals memory iterations0 iterations1 iterations2 g args width height
        = some (outcome, g') ∧
      (outcome = TestOutcome.passed ↔
        ∀ y x, y < height → x < width →
          test.counts0 _reals iterations0 args width height (test.index width y x)
            = test.reference args y x ∧
          test.counts1 memory iterations1 args width height (test.index width y x)
            = test.reference args y x ∧
          test.counts2 iterations2 args width height (test.index width y x)
            = test.reference args y x) ∧
      (outcome = TestOutcome.passed → g'.CORRECTNESS_TEST = false) ∧
      (outcome ≠ TestOutcome.passed →
        ∃ y x, y < height ∧ x < width ∧
          (∀ y' x', y' < height → x' < width → (y' < y ∨ (y' = y ∧ x' < x)) →
            test.counts0 _reals iterations0 args width height (test.index width y' x')
              = test.reference args y' x' ∧
            test.counts1 memory iterations1 args width height (test.index width y' x')
              = test.reference args y' x' ∧
            test.counts2 iterations2 args width height (test.index width y' x')
              = test.reference args y' x') ∧
          ¬ (test.counts0 _reals iterations0 args width height (test.index width y x)
              = test.reference args y x ∧
            test.counts1 memory iterations1 args width height (test.index width y x)
              = test.reference args y x ∧
            test.counts2 iterations2 args width height (test.index width y x)
              = test.reference args y x) ∧
          outcome =
            (if test.counts0 _reals iterations0 args width height (test.index width y x)
                ≠ test.reference args y x then TestOutcome.failed_optimized
            else if test.counts1 memory iterations1 args width height (test.index width y x)
                ≠ test.reference args y x then TestOutcome.failed_less_optimized
            else TestOutcome.failed_naive)) :=
  test_verdict_aux _reals memory iterations0 iterations1 iterations2 g args width height

/-! ## The colour ramp -/

theorem map_to_color_antitone_aux (n i j : ℕ) (h1 : 1 ≤ i) (hij : i ≤ j) (hjn : j ≤ n) :
    map_to_color j (255 / (n : ℚ)) ≤ map_to_color i (255 / (n : ℚ)) := by
  have hi := map_to_color_floor_aux n i h1 (le_trans hij hjn)
  have hj := map_to_color_floor_aux n j (le_trans h1 hij) hjn
  have hc : (0 : ℚ) ≤ 255 / (n : ℚ) := by positivity
  have hle : (i : ℚ) * (255 / (n : ℚ)) ≤ (j : ℚ) * (255 / (n : ℚ)) :=
    mul_le_mul_of_nonneg_right (by exact_mod_cast hij) hc
  have hfl := Int.floor_le_floor hle
  have : (map_to_color j (255 / (n : ℚ)) : ℤ) ≤ (map_to_color i (255 / (n : ℚ)) : ℤ) := by
    rw [hi, hj]
    omega
  exact_mod_cast this

/-! ## The time measurement -/

theorem measure_loop_eq (call : EngineCall) :
    ∀ (rem : ℕ) (calls : List EngineCall),
      measure.loop call rem calls = calls ++ List.replicate rem call := by
  intro rem
  induction rem with
  | zero => intro calls; simp [measure.loop]
  | succ rem ih =>
    intro calls
    rw [measure.loop, ih, List.replicate_succ, List.append_assoc]
    rfl

theorem measure_returned_aux (implementation repetitions : ℤ) (args : Arguments) (img : Image)
    (print : Bool) (julia_impl : Engine) (hsel : measure.select implementation = some julia_impl)
    (hmax : repetitions ≤ 2 ^ 31 - 1) :
    measure implementation repetitions args img print
      = MeasureResult.returned (List.replicate repetitions.toNat
          ⟨julia_impl, args.c_re, args.c_im, args.start_re, args.start_im, img.width,
            img.height, args.res, args.n, img.buffer⟩) := by
  unfold measure
  rw [hsel]
  simp only
  rw [if_neg (by omega), measure_loop_eq, List.nil_append]

theorem measure_exit_aux (implementation repetitions : ℤ) (args : Arguments) (img : Image)
    (print : Bool) (h0 : implementation ≠ 0) (h1 : implementation ≠ 1)
    (h2 : implementation ≠ 2) :
    measure implementation repetitions args img print = MeasureResult.exit_failure := by
  unfold measure measure.select INTRIN_V0 INTRIN_V1 NAIVE
  rw [if_neg h0, if_neg h1, if_neg h2]

/-! ## The invariant of the main loop of V0 -/

theorem passes_succ_front (args : Arguments) :
    ∀ (k : ℕ) (st : intrin_v0.LoopState),
      intrin_v0.passes args (k + 1) st
        = if (intrin_v0.pass args st).2 then intrin_v0.pass args st
          else intrin_v0.passes args k (intrin_v0.pass args st).1 := by
  intro k
  induction k with
  | zero =>
    intro st
    simp only [intrin_v0.passes]
    cases h : (intrin_v0.pass args st).2 with
    | true => simp
    | false =>
      simp only [Bool.false_eq_true, if_false]
      exact Prod.ext rfl h
  | succ k ih =>
    intro st
    rw [intrin_v0.passes, ih st]
    cases h : (intrin_v0.pass args st).2 with
    | true => simp [h]
    | false =>
      simp only [Bool.false_eq_true, if_false]
      rfl

/-- The loop of V0 as a function and pass by pass: `main_loop` returns the registers
`_reals` and `iterations` of the state after `rem` passes. -/
theorem main_loop_eq_passes (args : Arguments) :
    ∀ (rem : ℕ) (_reals _imags : Lanes ℚ) (iterations : Lanes ℕ) (mask : ℕ),
      intrin_v0.main_loop args rem _reals _imags iterations mask
        = ((intrin_v0.passes args rem ⟨_reals, _imags, iterations, mask⟩).1.reals,
            (intrin_v0.passes args rem ⟨_reals, _imags, iterations, mask⟩).1.iterations) := by
  intro rem
  induction rem with
  | zero => intro r i it m; rfl
  | succ rem ih =>
    intro r i it m
    rw [passes_succ_front]
    simp only [intrin_v0.main_loop, intrin_v0.pass]
    by_cases h : (m &&& movemask fun j => decide (r j * r j + i j * i j ≤ args.radius_sqr)) = 0
    · simp only [h, if_true]
    · simp only [h, if_false, Bool.false_eq_true]
      rw [ih]

theorem pass_mask_testBit (args : Arguments) (st : intrin_v0.LoopState) (j : Fin 4) :
    (intrin_v0.pass args st).1.mask.testBit j
      = (st.mask.testBit j &&
          decide (st.reals j * st.reals j + st.imags j * st.imags j ≤ args.radius_sqr)) := by
  unfold intrin_v0.pass
  simp only
  split_ifs <;> simp only [Nat.testBit_and, testBit_movemask]

theorem pass_iterations (args : Arguments) (st : intrin_v0.LoopState) (j : Fin 4) :
    (intrin_v0.pass args st).1.iterations j
      = (st.iterations j +
          if st.reals j * st.reals j + st.imags j * st.imags j ≤ args.radius_sqr then 1 else 0)
        % 2 ^ 32 := by
  by_cases hm : (st.mask &&& movemask fun j =>
      decide (st.reals j * st.reals j + st.imags j * st.imags j ≤ args.radius_sqr)) = 0
  · simp only [intrin_v0.pass, hm, if_true, decide_eq_true_eq]
  · simp only [intrin_v0.pass, hm, if_false, decide_eq_true_eq]

theorem pass_inv (args : Arguments) (habs : Absorbing args) (st : intrin_v0.LoopState)
    (hinv : intrin_v0.LoopInv args st) : intrin_v0.LoopInv args (intrin_v0.pass args st).1 := by
  obtain ⟨h1, _⟩ := hinv
  constructor
  · intro j hj
    rw [pass_mask_testBit] at hj
    have hout : args.radius_sqr < st.reals j * st.reals j + st.imags j * st.imags j := by
      cases hb : st.mask.testBit j with
      | false => exact h1 j hb
      | true =>
        rw [hb, Bool.true_and, decide_eq_false_iff_not] at hj
        exact not_le.mp hj
    unfold intrin_v0.pass
    simp only
    split_ifs
    · exact hout
    · exact absorbing_step args habs _ _ hout
  · intro j
    rw [pass_iterations]
    exact Nat.mod_lt _ (by norm_num)

theorem passes_inv (args : Arguments) (habs : Absorbing args) (st : intrin_v0.LoopState)
    (hinv : intrin_v0.LoopInv args st) :
    ∀ k, intrin_v0.LoopInv args (intrin_v0.passes args k st).1 := by
  intro k
  induction k with
  | zero => exact hinv
  | succ k ih =>
    rw [intrin_v0.passes]
    split_ifs
    · exact ih
    · exact pass_inv args habs _ ih

/-- A lane whose bit is clear keeps its bit clear and its counter in the next pass. -/
theorem pass_frozen (args : Arguments) (st : intrin_v0.LoopState)
    (hinv : intrin_v0.LoopInv args st) (j : Fin 4) (hbit : st.mask.testBit j = false) :
    (intrin_v0.pass args st).1.mask.testBit j = false ∧
      (intrin_v0.pass args st).1.iterations j = st.iterations j := by
  constructor
  · rw [pass_mask_testBit, hbit, Bool.false_and]
  · rw [pass_iterations, if_neg (not_le.mpr (hinv.1 j hbit)), Nat.add_zero,
      Nat.mod_eq_of_lt (hinv.2 j)]

theorem passes_frozen (args : Arguments) (habs : Absorbing args) (st : intrin_v0.LoopState)
    (hinv : intrin_v0.LoopInv args st) (j : Fin 4) (k : ℕ)
    (hbit : (intrin_v0.passes args k st).1.mask.testBit j = false) :
    ∀ d, (intrin_v0.passes args (k + d) st).1.mask.testBit j = false ∧
      (intrin_v0.passes args (k + d) st).1.iterations j
        = (intrin_v0.passes args k st).1.iterations j := by
  intro d
  induction d with
  | zero => exact ⟨hbit, rfl⟩
  | succ d ih =>
    rw [← Nat.add_assoc, intrin_v0.passes]
    split_ifs
    · exact ih
    · have hf := pass_frozen args _ (passes_inv args habs st hinv (k + d)) j ih.1
      exact ⟨hf.1, hf.2.trans ih.2⟩

theorem loop_inv_init (args : Arguments) (_reals _imags : Lanes ℚ) :
    intrin_v0.LoopInv args ⟨_reals, _imags, fun _ => 0, 15⟩ := by
  constructor
  · intro j hj
    have h15 : Nat.testBit 15 j = false := hj
    exfalso
    revert h15
    fin_cases j <;> decide
  · intro j
    show (0 : ℕ) < 2 ^ 32
    norm_num

theorem passes_frozen_aux (args : Arguments) (habs : Absorbing args) (_reals _imags : Lanes ℚ)
    (j : Fin 4) (k k' : ℕ) (hk : k ≤ k')
    (hbit : (intrin_v0.passes args k ⟨_reals, _imags, fun _ => 0, 15⟩).1.mask.testBit j
      = false) :
    (intrin_v0.passes args k' ⟨_reals, _imags, fun _ => 0, 15⟩).1.iterations j
      = (intrin_v0.passes args k ⟨_reals, _imags, fun _ => 0, 15⟩).1.iterations j := by
  obtain ⟨d, rfl⟩ : ∃ d, k' = k + d := ⟨k' - k, by omega⟩
  exact (passes_frozen args habs _ (loop_inv_init args _reals _imags) j k hbit d).2

/-- The counter `inside_count` is the least index of an iterate outside the radius, cut off
at `rem`. -/
theorem inside_count_spec (args : Arguments) :
    ∀ (rem : ℕ) (a b : ℚ),
      (∀ i, i < inside_count args rem a b → ¬ escaped args a b i) ∧
        (inside_count args rem a b < rem → escaped args a b (inside_count args rem a b)) := by
  intro rem
  induction rem with
  | zero =>
    intro a b
    simp [inside_count]
  | succ rem ih =>
    intro a b
    have hstep : a * b * 2 + args.c_im = 2 * a * b + args.c_im := by ring
    by_cases h : a * a + b * b ≤ args.radius_sqr
    · have hc : inside_count args (rem + 1) a b
          = 1 + inside_count args rem (a * a - b * b + args.c_re) (2 * a * b + args.c_im) := by
        rw [inside_count, if_pos h, hstep]
      obtain ⟨ih1, ih2⟩ := ih (a * a - b * b + args.c_re) (2 * a * b + args.c_im)
      rw [hc]
      constructor
      · intro i hi
        cases i with
        | zero =>
          intro hesc
          exact absurd hesc (not_lt.mpr h)
        | succ i =>
          rw [escaped_shift]
          exact ih1 i (by omega)
      · intro hlt
        rw [Nat.add_comm 1, escaped_shift]
        exact ih2 (by omega)
    · have hc : inside_count args (rem + 1) a b = 0 := by
        rw [inside_count, if_neg h]
      rw [hc]
      constructor
      · intro i hi
        omega
      · intro _
        exact not_le.mp h

theorem main_loop_counter_aux (args : Arguments) (habs : Absorbing args)
    (hn32 : args.n < 2 ^ 32) (_reals _imags : Lanes ℚ) (j : Fin 4) :
    (intrin_v0.main_loop args args.n _reals _imags (fun _ => 0) 15).2 j
      = inside_count args args.n (_reals j) (_imags j) := by
  rw [main_loop_lane args habs args.n _reals _imags (fun _ => 0) 15
    (by
      intro j hj
      exfalso
      revert hj
      fin_cases j <;> decide)
    (by intro j; simpa using hn32) j]
  simp

/-- The invariant of C23 rests on the escape radius: for `radius_sqr = 1` and `c = -2` (not
a value `get_args` produces) the lane holding `3/2` has its bit cleared in the first pass
with counter `0`, comes back inside the radius (`z_1 = 1/4`) and is counted in the second
pass. -/
theorem pass_counter_resumes_without_absorbing :
    (intrin_v0.passes ⟨-2, 0, 0, 0, 1, 5, 1⟩ 1
        ⟨fun j => if j = 0 then 3 / 2 else 0, fun _ => 0, fun _ => 0, 15⟩).1.mask.testBit 0
      = false ∧
    (intrin_v0.passes ⟨-2, 0, 0, 0, 1, 5, 1⟩ 1
        ⟨fun j => if j = 0 then 3 / 2 else 0, fun _ => 0, fun _ => 0, 15⟩).1.iterations 0
      = 0 ∧
    (intrin_v0.passes ⟨-2, 0, 0, 0, 1, 5, 1⟩ 2
        ⟨fun j => if j = 0 then 3 / 2 else 0, fun _ => 0, fun _ => 0, 15⟩).1.iterations 0
      = 1 := by
  decide!

theorem main_loop_min_aux (args : Arguments) (habs : Absorbing args) (hn32 : args.n < 2 ^ 32)
    (_reals _imags : Lanes ℚ) (j : Fin 4) :
    (∀ e, escaped args (_reals j) (_imags j) e →
        (∀ i, i < e → ¬ escaped args (_reals j) (_imags j) i) →
        (intrin_v0.main_loop args args.n _reals _imags (fun _ => 0) 15).2 j = min e args.n) ∧
      ((∀ i, ¬ escaped args (_reals j) (_imags j) i) →
        (intrin_v0.main_loop args args.n _reals _imags (fun _ => 0) 15).2 j = args.n) := by
  rw [main_loop_counter_aux args habs hn32]
  obtain ⟨h1, h2⟩ := inside_count_spec args args.n (_reals j) (_imags j)
  have hle := inside_count_le args args.n (_reals j) (_imags j)
  constructor
  · intro e he hleast
    rcases Nat.lt_or_ge (inside_count args args.n (_reals j) (_imags j)) args.n with hlt | hge
    · have hv := h2 hlt
      have hev : e ≤ inside_count args args.n (_reals j) (_imags j) := by
        by_contra hcon
        exact hleast _ (by omega) hv
      have hve : inside_count args args.n (_reals j) (_imags j) ≤ e := by
        by_contra hcon
        exact h1 e (by omega) he
      rw [Nat.min_def]
      split_ifs <;> omega
    · have hen : args.n ≤ e := by
        by_contra hcon
        exact h1 e (by omega) he
      rw [Nat.min_eq_right hen]
      omega
  · intro hnone
    by_contra hcon
    exact hnone _ (h2 (by omega))

theorem color_batch_get (args : Arguments) (y x : ℕ) (results : Lanes ℕ) (j : Fin 4) :
    (intrin_v0.color_batch args y x results)[j.val]?
      = some (if results j = args.n then ⟨y, x - 3 + j, BLACK⟩
          else if results j = 0 then ⟨y, x - 3 + j, 1⟩
          else ⟨y, x - 3 + j, results j⟩) := by
  unfold intrin_v0.color_batch
  rw [List.getElem?_map]
  fin_cases j <;> rfl

/-! ## Start points outside the radius -/

theorem start_outside_naive_aux (args : Arguments) (habs : Absorbing args) (hn : 2 ≤ args.n)
    (re im : ℚ) (hout : args.radius_sqr < re * re + im * im) :
    iterate_reference re im args = 1 ∧ iterate_naive re im args = 1 := by
  have h1 : iterate_naive re im args = 1 :=
    iterate_naive_escape_aux args re im 1 (le_refl 1) (by omega)
      (escaped_of_absorbing args habs re im hout 1) (by intro j h1 h2; omega)
  exact ⟨(iterate_naive_eq_reference_aux args re im (by omega)).symm.trans h1, h1⟩

theorem start_outside_v0_aux (args : Arguments) (habs : Absorbing args) (hn : 2 ≤ args.n)
    (hn32 : args.n < 2 ^ 32) (_reals _imags : Lanes ℚ) (j : Fin 4)
    (hout : args.radius_sqr < _reals j * _reals j + _imags j * _imags j) (y x : ℕ) :
    (intrin_v0.main_loop args args.n _reals _imags (fun _ => 0) 15).2 j = 0 ∧
      (intrin_v0.color_batch args y x
        (intrin_v0.main_loop args args.n _reals _imags (fun _ => 0) 15).2)[j.val]?
        = some ⟨y, x - 3 + j, 1⟩ := by
  have h0 : (intrin_v0.main_loop args args.n _reals _imags (fun _ => 0) 15).2 j = 0 := by
    rw [main_loop_counter_aux args habs hn32, inside_count_outside args _ _ _ hout]
  refine ⟨h0, ?_⟩
  rw [color_batch_get, h0, if_neg (by omega), if_pos rfl]

theorem check_lane_frame (args : Arguments) (st : four_complexes × Bool × List ColorCall)
    (i : Fin 4) :
    (intrin_v1.check_lane args st i).1.bits = st.1.bits ∧
      (intrin_v1.check_lane args st i).1.count = st.1.count ∧
      (intrin_v1.check_lane args st i).1.x_coords = st.1.x_coords ∧
      (intrin_v1.check_lane args st i).1.y_coords = st.1.y_coords ∧
      ∀ c ∈ st.2.2, c ∈ (intrin_v1.check_lane args st i).2.2 := by
  unfold intrin_v1.check_lane
  simp only
  split_ifs <;> simp_all

theorem check_lanes_frame (args : Arguments) (l : List (Fin 4)) :
    ∀ st : four_complexes × Bool × List ColorCall,
      (l.foldl (intrin_v1.check_lane args) st).1.bits = st.1.bits ∧
        (l.foldl (intrin_v1.check_lane args) st).1.count = st.1.count ∧
        (l.foldl (intrin_v1.check_lane args) st).1.x_coords = st.1.x_coords ∧
        (l.foldl (intrin_v1.check_lane args) st).1.y_coords = st.1.y_coords ∧
        ∀ c ∈ st.2.2, c ∈ (l.foldl (intrin_v1.check_lane args) st).2.2 := by
  induction l with
  | nil => intro st; exact ⟨rfl, rfl, rfl, rfl, fun c hc => hc⟩
  | cons a l ih =>
    intro st
    rw [List.foldl_cons]
    obtain ⟨h1, h2, h3, h4, h5⟩ := ih (intrin_v1.check_lane args st a)
    obtain ⟨g1, g2, g3, g4, g5⟩ := check_lane_frame args st a
    exact ⟨h1.trans g1, h2.trans g2, h3.trans g3, h4.trans g4, fun c hc => h5 c (g5 c hc)⟩

/-- The special case of V1: a lane whose bit is set with counter `1` is coloured with `1`,
and the loop `while (full)` is left after the pass. -/
theorem check_lane_hit (args : Arguments) (st : four_complexes × Bool × List ColorCall)
    (i : Fin 4) (hb : st.1.bits i ≠ 0) (hc : st.1.count i = 1) :
    (intrin_v1.check_lane args st i).2.1 = false ∧
      (intrin_v1.check_lane args st i).2.2
        = st.2.2 ++ [⟨st.1.y_coords i, st.1.x_coords i, 1⟩] := by
  unfold intrin_v1.check_lane
  simp only [hb, hc, ne_eq, not_false_eq_true, if_true, and_self]

theorem check_lanes_hit (args : Arguments) (i : Fin 4) (l : List (Fin 4)) :
    ∀ st : four_complexes × Bool × List ColorCall, i ∈ l → st.1.bits i ≠ 0 →
      st.1.count i = 1 →
      (l.foldl (intrin_v1.check_lane args) st).2.1 = false ∧
        (⟨st.1.y_coords i, st.1.x_coords i, 1⟩ : ColorCall)
          ∈ (l.foldl (intrin_v1.check_lane args) st).2.2 := by
  induction l with
  | nil => intro st hi; simp at hi
  | cons a l ih =>
    intro st hi hb hc
    rw [List.foldl_cons]
    by_cases ha : a = i
    · subst ha
      obtain ⟨hf, hcalls⟩ := check_lane_hit args st a hb hc
      constructor
      · cases hfl : (l.foldl (intrin_v1.check_lane args) (intrin_v1.check_lane args st a)).2.1
          with
        | false => rfl
        | true =>
          have := check_lanes_full args l _ hfl
          rw [hf] at this
          exact absurd this (by simp)
      · exact (check_lanes_frame args l _).2.2.2.2 _ (by rw [hcalls]; simp)
    · have hi' : i ∈ l := by
        rcases List.mem_cons.mp hi with h | h
        · exact absurd h.symm ha
        · exact h
      obtain ⟨g1, g2, g3, g4, _⟩ := check_lane_frame args st a
      have := ih (intrin_v1.check_lane args st a) hi' (by rw [g1]; exact hb)
        (by rw [g2]; exact hc)
      rw [g3, g4] at this
      exact this

theorem start_outside_v1_aux (args : Arguments) (fuel : ℕ) (nums : four_complexes)
    (xreals ximags : Lanes ℚ) (xcount : Lanes ℕ) (calls : List ColorCall) (i : Fin 4)
    (hcount : xcount i = 0)
    (hout : args.radius_sqr < xreals i * xreals i + ximags i * ximags i) :
    (⟨nums.y_coords i, nums.x_coords i, 1⟩ : ColorCall)
      ∈ (intrin_v1.full_loop args (fuel + 1) nums xreals ximags xcount calls).2.2.2 := by
  have hhit := check_lanes_hit args i (List.finRange 4)
    ({ { nums with count := fun j => (xcount j + 1) % 2 ^ 32 } with
        bits := fun j =>
          if (next_of_four args xreals ximags).2.2 j > args.radius_sqr then 2 ^ 32 - 1 else 0 },
      true, calls)
    (List.mem_finRange i)
    (by
      show (if (next_of_four args xreals ximags).2.2 i > args.radius_sqr then 2 ^ 32 - 1 else 0)
        ≠ 0
      rw [if_pos (by simpa [next_of_four] using hout)]
      norm_num)
    (by
      show (xcount i + 1) % 2 ^ 32 = 1
      rw [hcount]
      norm_num)
  simp only [intrin_v1.full_loop]
  rw [if_neg (by rw [hhit.1]; simp)]
  exact hhit.2

/-! ## The drain pass of V1 -/

theorem compute_last_points_eq (args : Arguments) (nums : four_complexes) :
    intrin_v1.compute_last_points args nums
      = (List.finRange 4).flatMap (intrin_v1.last_point args nums) := rfl

theorem orbit_add (args : Arguments) (x y : ℚ) (k : ℕ) :
    ∀ m, orbit args x y (k + m) = orbit args (orbit args x y k).1 (orbit args x y k).2 m := by
  intro m
  induction m with
  | zero => rfl
  | succ m ih =>
    rw [← Nat.add_assoc]
    simp only [orbit, ih]

theorem escaped_add (args : Arguments) (x y : ℚ) (k m : ℕ) :
    escaped args x y (k + m)
      ↔ escaped args (orbit args x y k).1 (orbit args x y k).2 m := by
  unfold escaped
  rw [orbit_add]

theorem last_loop_none (args : Arguments) :
    ∀ (rem : ℕ) (a b : ℚ) (i : ℕ), (∀ m, m < rem → ¬ escaped args a b m) →
      intrin_v1.last_loop args rem a b i = (none, i + rem) := by
  intro rem
  induction rem with
  | zero => intro a b i _; rfl
  | succ rem ih =>
    intro a b i h
    have h0 : ¬ a * a + b * b > args.radius_sqr := h 0 (by omega)
    rw [intrin_v1.last_loop, if_neg h0, ih _ _ _ (fun m hm => by
      rw [← escaped_shift]
      exact h (m + 1) (by omega)), show i + 1 + rem = i + (rem + 1) by omega]

theorem last_loop_some (args : Arguments) :
    ∀ (rem : ℕ) (a b : ℚ) (i m : ℕ), m < rem → escaped args a b m →
      (∀ m', m' < m → ¬ escaped args a b m') →
      intrin_v1.last_loop args rem a b i = (some (i + m), i + m) := by
  intro rem
  induction rem with
  | zero => intro a b i m hm; omega
  | succ rem ih =>
    intro a b i m hm hesc hleast
    cases m with
    | zero =>
      have h0 : a * a + b * b > args.radius_sqr := hesc
      rw [intrin_v1.last_loop, if_pos h0]
      rfl
    | succ m =>
      have h0 : ¬ a * a + b * b > args.radius_sqr := hleast 0 (by omega)
      rw [intrin_v1.last_loop, if_neg h0,
        ih _ _ (i + 1) m (by omega) ((escaped_shift args a b m).mp hesc) (fun m' hm' => by
          rw [← escaped_shift]
          exact hleast (m' + 1) (by omega)),
        show i + 1 + m = i + (m + 1) by omega]

/-- A lane with counter `k`, `1 ≤ k < n`, that holds the iterate `z_k` of a point whose
iterates `z_0 .. z_{k-1}` are inside the radius is coloured once by the drain pass, with the
value of the reference iterator for the point. -/
theorem last_point_resumed (args : Arguments) (nums : four_complexes) (j : Fin 4)
    (x0 y0 : ℚ) (k : ℕ) (hlive : nums.reals j ≠ FLT_MAX) (hcount : nums.count j = k)
    (hk1 : 1 ≤ k) (hkn : k < args.n) (hre : nums.reals j = (orbit args x0 y0 k).1)
    (him : nums.imags j = (orbit args x0 y0 k).2)
    (hin : ∀ i, i < k → ¬ escaped args x0 y0 i) :
    intrin_v1.last_point args nums j
      = [⟨nums.y_coords j, nums.x_coords j, iterate_reference x0 y0 args⟩] := by
  have href : iterate_reference x0 y0 args = iterate_naive x0 y0 args :=
    (iterate_naive_eq_reference_aux args x0 y0 (by omega)).symm
  unfold intrin_v1.last_point
  rw [if_pos hlive]
  simp only
  rw [if_neg (by omega), hcount, hre, him, href]
  by_cases hex : ∃ m, m < args.n - k ∧
      escaped args (orbit args x0 y0 k).1 (orbit args x0 y0 k).2 m
  · obtain ⟨hm, hesc⟩ := Nat.find_spec hex
    have hmin : ∀ m', m' < Nat.find hex →
        ¬ escaped args (orbit args x0 y0 k).1 (orbit args x0 y0 k).2 m' := by
      intro m' hm' hcon
      exact Nat.find_min hex hm' ⟨by omega, hcon⟩
    rw [last_loop_some args _ _ _ k (Nat.find hex) hm hesc hmin]
    have hnaive : iterate_naive x0 y0 args = k + Nat.find hex := by
      apply iterate_naive_escape_aux args x0 y0 (k + Nat.find hex) (by omega) (by omega)
      · exact (escaped_add args x0 y0 k _).mpr hesc
      · intro i hi1 hi2
        by_cases hik : i < k
        · exact hin i hik
        · obtain ⟨d, rfl⟩ : ∃ d, i = k + d := ⟨i - k, by omega⟩
          rw [escaped_add]
          exact hmin d (by omega)
    rw [hnaive, if_neg (by omega)]
    rfl
  · have hnone : ∀ m, m < args.n - k →
        ¬ escaped args (orbit args x0 y0 k).1 (orbit args x0 y0 k).2 m := by
      intro m hm hcon
      exact hex ⟨m, hm, hcon⟩
    rw [last_loop_none args _ _ _ k hnone]
    have hnaive : iterate_naive x0 y0 args = BLACK := by
      apply iterate_naive_black_aux
      intro i hi1 hi2
      by_cases hik : i < k
      · exact hin i hik
      · obtain ⟨d, rfl⟩ : ∃ d, i = k + d := ⟨i - k, by omega⟩
        rw [escaped_add]
        exact hnone d (by omega)
    rw [hnaive, if_pos (by omega)]
    rfl

theorem last_point_fresh (args : Arguments) (nums : four_complexes) (j : Fin 4)
    (hlive : nums.reals j ≠ FLT_MAX) (hcount : nums.count j = 0) :
    intrin_v1.last_point args nums j
      = [⟨nums.y_coords j, nums.x_coords j,
          iterate_naive (nums.reals j) (nums.imags j) args⟩] := by
  unfold intrin_v1.last_point
  rw [if_pos hlive]
  simp only
  rw [if_pos hcount]

/-! ## The calls of V0, pixel by pixel -/

theorem countP_flatMap_range_zero (p : ColorCall → Bool) (f : ℕ → List ColorCall) :
    ∀ n, (∀ i, i < n → (f i).countP p = 0) → ((List.range n).flatMap f).countP p = 0 := by
  intro n
  induction n with
  | zero => intro _; rfl
  | succ n ih =>
    intro h
    rw [List.range_succ, List.flatMap_append, List.countP_append, List.flatMap_singleton,
      ih (fun i hi => h i (by omega)), h n (by omega)]

theorem countP_flatMap_range_one (p : ColorCall → Bool) (f : ℕ → List ColorCall) (k : ℕ) :
    ∀ n, k < n → (f k).countP p = 1 → (∀ i, i < n → i ≠ k → (f i).countP p = 0) →
      ((List.range n).flatMap f).countP p = 1 := by
  intro n
  induction n with
  | zero => intro hk; omega
  | succ n ih =>
    intro hk h1 h0
    rw [List.range_succ, List.flatMap_append, List.countP_append, List.flatMap_singleton]
    by_cases hkn : k = n
    · subst hkn
      rw [countP_flatMap_range_zero p f k (fun i hi => h0 i (by omega) (by omega)), h1]
    · rw [ih (by omega) h1 (fun i hi hik => h0 i (by omega) hik), h0 n (by omega) (Ne.symm hkn)]

/-- The batch of row `y` that ends at column `x ≥ 3` colours each of the pixels
`(x - 3, y) .. (x, y)` once, and no other pixel. -/
theorem color_batch_countP (args : Arguments) (y x : ℕ) (results : Lanes ℕ) (y0 x0 : ℕ)
    (hx : 3 ≤ x) :
    (intrin_v0.color_batch args y x results).countP (fun c => decide (c.y = y0 ∧ c.x = x0))
      = if y = y0 ∧ x - 3 ≤ x0 ∧ x0 ≤ x then 1 else 0 := by
  have hmap : ∀ i : Fin 4,
      (fun c : ColorCall => decide (c.y = y0 ∧ c.x = x0))
        (if results i = args.n then (⟨y, x - 3 + i, BLACK⟩ : ColorCall)
          else if results i = 0 then ⟨y, x - 3 + i, 1⟩ else ⟨y, x - 3 + i, results i⟩)
      = decide (y = y0 ∧ x - 3 + i.val = x0) := by
    intro i
    split_ifs <;> rfl
  unfold intrin_v0.color_batch
  rw [List.countP_map]
  have hfin : List.finRange 4 = [0, 1, 2, 3] := rfl
  rw [hfin]
  simp only [List.countP_cons, List.countP_nil, Function.comp, hmap, decide_eq_true_eq]
  have e0 : ((0 : Fin 4) : ℕ) = 0 := rfl
  have e1 : ((1 : Fin 4) : ℕ) = 1 := rfl
  have e2 : ((2 : Fin 4) : ℕ) = 2 := rfl
  have e3 : ((3 : Fin 4) : ℕ) = 3 := rfl
  rw [e0, e1, e2, e3]
  split_ifs <;> omega

theorem enumerate_countP (args : Arguments) (width height : ℕ) (_reals : Lanes ℚ)
    (y0 x0 : ℕ) (hy : y0 < height) :
    (intrin_v0.enumerate args width height _reals).countP
        (fun c => decide (c.y = y0 ∧ c.x = x0))
      = if x0 < width - width % 4 then 1 else 0 := by
  rw [intrin_v0_enumerate_eq]
  have hbatch : ∀ y b, (intrin_v0.batch_calls args y (4 * b + 3)).countP
        (fun c => decide (c.y = y0 ∧ c.x = x0))
      = if y = y0 ∧ x0 / 4 = b then 1 else 0 := by
    intro y b
    unfold intrin_v0.batch_calls
    rw [color_batch_countP args y (4 * b + 3) _ y0 x0 (by omega)]
    split_ifs <;> omega
  by_cases hx : x0 < width - width % 4
  · rw [if_pos hx]
    apply countP_flatMap_range_one _ _ y0 height hy
    · apply countP_flatMap_range_one _ _ (x0 / 4) (width / 4) (by omega)
      · rw [hbatch, if_pos ⟨rfl, rfl⟩]
      · intro b _ hb
        rw [hbatch, if_neg (by intro h; exact hb h.2.symm)]
    · intro y _ hyne
      apply countP_flatMap_range_zero
      intro b _
      rw [hbatch, if_neg (by intro h; exact hyne h.1)]
  · rw [if_neg hx]
    apply countP_flatMap_range_zero
    intro y _
    apply countP_flatMap_range_zero
    intro b hb
    rw [hbatch, if_neg (by intro h; omega)]

theorem compute_last_points_countP (args : Arguments) (width height : ℕ) (y0 x0 : ℕ)
    (hy : y0 < height) (hx : x0 < width) :
    (intrin_v0.compute_last_points args width height).countP
        (fun c => decide (c.y = y0 ∧ c.x = x0))
      = if width - width % 4 ≤ x0 then 1 else 0 := by
  have hform : intrin_v0.compute_last_points args width height
      = (List.range height).flatMap fun y =>
          (List.range (width - (width - width % 4))).flatMap fun d =>
            [(⟨y, width - width % 4 + d,
              iterate_naive (args.start_re + ((width - width % 4 + d : ℕ) : ℚ) * args.res)
                (args.start_im + (y : ℚ) * args.res) args⟩ : ColorCall)] := by
    unfold intrin_v0.compute_last_points
    simp only [List.range'_eq_map_range, List.map_map]
    congr 1
    funext y
    rw [List.map_eq_flatMap]
    rfl
  rw [hform]
  have hone : ∀ y d : ℕ,
      ([(⟨y, width - width % 4 + d,
          iterate_naive (args.start_re + ((width - width % 4 + d : ℕ) : ℚ) * args.res)
            (args.start_im + (y : ℚ) * args.res) args⟩ : ColorCall)]).countP
        (fun c => decide (c.y = y0 ∧ c.x = x0))
      = if y = y0 ∧ width - width % 4 + d = x0 then 1 else 0 := by
    intro y d
    simp only [List.countP_cons, List.countP_nil, decide_eq_true_eq, Nat.zero_add]
  by_cases hcol : width - width % 4 ≤ x0
  · rw [if_pos hcol]
    apply countP_flatMap_range_one _ _ y0 height hy
    · apply countP_flatMap_range_one _ _ (x0 - (width - width % 4)) _ (by omega)
      · rw [hone, if_pos ⟨rfl, by omega⟩]
      · intro d _ hd
        rw [hone, if_neg (by intro h; omega)]
    · intro y _ hyne
      apply countP_flatMap_range_zero
      intro d _
      rw [hone, if_neg (by intro h; exact hyne h.1)]
  · rw [if_neg hcol]
    apply countP_flatMap_range_zero
    intro y _
    apply countP_flatMap_range_zero
    intro d hd
    rw [hone, if_neg (by intro h; omega)]

theorem compute_last_points_columns (args : Arguments) (width height : ℕ) (c : ColorCall)
    (hc : c ∈ intrin_v0.compute_last_points args width height) :
    c.y < height ∧ width - width % 4 ≤ c.x ∧ c.x < width := by
  unfold intrin_v0.compute_last_points at hc
  simp only [List.mem_flatMap, List.mem_range, List.mem_map, List.mem_range'] at hc
  obtain ⟨y, hy, x, ⟨d, hd, rfl⟩, rfl⟩ := hc
  refine ⟨hy, ?_, ?_⟩ <;> simp only <;> omega

theorem julia_calls_once_aux (_reals : Lanes ℚ) (c_re c_im start_re start_im res : ℚ)
    (width height n : ℕ) :
    (∀ c ∈ julia _reals c_re c_im start_re start_im width height res n,
        c.y < height ∧ c.x < width) ∧
      ∀ x y, x < width → y < height →
        (julia _reals c_re c_im start_re start_im width height res n).countP
            (fun c => decide (c.y = y ∧ c.x = x)) = 1 ∧
          (x < width - width % 4 →
            (intrin_v0.enumerate (get_args c_re c_im start_re start_im res n) width height
              _reals).countP (fun c => decide (c.y = y ∧ c.x = x)) = 1) ∧
          (width - width % 4 ≤ x → width % 4 ≠ 0 ∧
            (intrin_v0.compute_last_points (get_args c_re c_im start_re start_im res n) width
              height).countP (fun c => decide (c.y = y ∧ c.x = x)) = 1) := by
  constructor
  · intro c hc
    unfold julia at hc
    simp only [List.mem_append] at hc
    rcases hc with h | h
    · have := enumerate_calls_columns _ width height _reals c h
      exact ⟨this.1, by omega⟩
    · split_ifs at h with hw
      · have := compute_last_points_columns _ width height c h
        exact ⟨this.1, this.2.2⟩
      · simp at h
  · intro x y hx hy
    have he := enumerate_countP (get_args c_re c_im start_re start_im res n) width height
      _reals y x hy
    have hl := compute_last_points_countP (get_args c_re c_im start_re start_im res n) width
      height y x hy hx
    refine ⟨?_, ?_, ?_⟩
    · unfold julia
      simp only [List.countP_append]
      rw [he]
      by_cases hcol : x < width - width % 4
      · rw [if_pos hcol]
        split_ifs with hw
        · rw [hl, if_neg (by omega)]
        · rfl
      · rw [if_neg hcol, if_pos (by omega : width % 4 ≠ 0), hl, if_pos (by omega)]
    · intro hcol
      rw [he, if_pos hcol]
    · intro hcol
      exact ⟨by omega, by rw [hl, if_pos hcol]⟩

/-! ## Claims C21 to C30 -/

/-- C21. The colour ramp is monotone: for `n ≥ 1` (implied by `1 ≤ i ≤ j ≤ n`) and counts
`1 ≤ i ≤ j ≤ n`, `map_to_color j (255 / n) ≤ map_to_color i (255 / n)`, with `255 / n` the
colour scale that `get_img` sets. -/
theorem map_to_color_antitone (width height : ℕ) (img : Option (ℕ → ℕ)) (n i j : ℕ)
    (h1 : 1 ≤ i) (hij : i ≤ j) (hjn : j ≤ n) :
    map_to_color j (get_img width height img n).color_const
      ≤ map_to_color i (get_img width height img n).color_const :=
  map_to_color_antitone_aux n i j h1 hij hjn

/-- Witness for C21: `n = 100`, counts `1` and `50`, with levels `253` and `128`. -/
theorem map_to_color_antitone_witness :
    (1 ≤ 1 ∧ 1 ≤ 50 ∧ 50 ≤ 100) ∧
      map_to_color 50 (get_img 1 1 none 100).color_const = 128 ∧
      map_to_color 1 (get_img 1 1 none 100).color_const = 253 ∧
      map_to_color 50 (get_img 1 1 none 100).color_const
        ≤ map_to_color 1 (get_img 1 1 none 100).color_const :=
  ⟨by decide, by decide!, by decide!,
    map_to_color_antitone 1 1 none 100 1 50 (by decide) (by decide) (by decide)⟩

/-- C22. Engine selection in `measure`: for `0 ≤ repetitions ≤ INT_MAX` and the
implementation ids `0`, `1`, `2`, `measure` returns after exactly `repetitions` calls, each
of them a call of `julia`, `julia_V1`, `julia_V2` respectively with the arguments
`args->c, args->start, img->width, img->height, args->res, args->n, img->buffer`; for every
other id it ends with `exit(EXIT_FAILURE)`, before any call. -/
theorem measure_selects (implementation repetitions : ℤ) (args : Arguments) (img : Image)
    (print : Bool) (h0 : 0 ≤ repetitions) (hmax : repetitions ≤ 2 ^ 31 - 1) :
    (∀ julia_impl : Engine,
        (implementation = 0 ∧ julia_impl = Engine.julia ∨
          implementation = 1 ∧ julia_impl = Engine.julia_V1 ∨
          implementation = 2 ∧ julia_impl = Engine.julia_V2) →
        ∃ calls : List EngineCall,
          measure implementation repetitions args img print = MeasureResult.returned calls ∧
          (calls.length : ℤ) = repetitions ∧
          ∀ call ∈ calls, call = ⟨julia_impl, args.c_re, args.c_im, args.start_re,
            args.start_im, img.width, img.height, args.res, args.n, img.buffer⟩) ∧
      (implementation ≠ 0 → implementation ≠ 1 → implementation ≠ 2 →
        measure implementation repetitions args img print = MeasureResult.exit_failure) := by
  refine ⟨?_, measure_exit_aux implementation repetitions args img print⟩
  intro julia_impl hsel
  have hs : measure.select implementation = some julia_impl := by
    rcases hsel with ⟨rfl, rfl⟩ | ⟨rfl, rfl⟩ | ⟨rfl, rfl⟩ <;> rfl
  refine ⟨_, measure_returned_aux implementation repetitions args img print julia_impl hs hmax,
    ?_, ?_⟩
  · rw [List.length_replicate]
    exact Int.toNat_of_nonneg h0
  · intro call hcall
    exact List.eq_of_mem_replicate hcall

/-- Witness for C22: three repetitions of engine `1` on a 2 x 2 image without buffer. -/
theorem measure_selects_witness :
    ((0 : ℤ) ≤ 3 ∧ (3 : ℤ) ≤ 2 ^ 31 - 1) ∧
      ∃ calls : List EngineCall,
        measure 1 3 (get_args 0 0 0 0 1 5) (get_img 2 2 none 5) false
          = MeasureResult.returned calls ∧
        (calls.length : ℤ) = 3 ∧
        ∀ call ∈ calls, call = ⟨Engine.julia_V1, 0, 0, 0, 0, 2, 2, 1, 5, none⟩ :=
  ⟨by decide,
    (measure_selects 1 3 (get_args 0 0 0 0 1 5) (get_img 2 2 none 5) false (by decide)
      (by decide)).1 Engine.julia_V1 (Or.inr (Or.inl ⟨rfl, rfl⟩))⟩

/-- Freeze on escape in V0 in exact arithmetic (C23 with every `float` operation read as
the exact operation): with `radius_sqr` as `get_args` sets it, in the main
iterations loop started as in `enumerate` (counters `0`, `mask = 15`) on any four points,
once the bit of lane `j` in `mask` is clear after `k` passes, the counter of lane `j` after
every later pass `k'` is the one after pass `k`. The states `passes` are those of the loop:
`main_loop` returns the registers of the state after `n` passes. -/
theorem v0_counter_frozen (c_re c_im start_re start_im res : ℚ) (n : ℕ)
    (_reals _imags : Lanes ℚ) (j : Fin 4) (k k' : ℕ) (hk : k ≤ k')
    (hbit : (intrin_v0.passes (get_args c_re c_im start_re start_im res n) k
      ⟨_reals, _imags, fun _ => 0, 15⟩).1.mask.testBit j = false) :
    intrin_v0.main_loop (get_args c_re c_im start_re start_im res n) n _reals _imags
        (fun _ => 0) 15
      = ((intrin_v0.passes (get_args c_re c_im start_re start_im res n) n
            ⟨_reals, _imags, fun _ => 0, 15⟩).1.reals,
          (intrin_v0.passes (get_args c_re c_im start_re start_im res n) n
            ⟨_reals, _imags, fun _ => 0, 15⟩).1.iterations) ∧
      (intrin_v0.passes (get_args c_re c_im start_re start_im res n) k'
          ⟨_reals, _imags, fun _ => 0, 15⟩).1.iterations j
        = (intrin_v0.passes (get_args c_re c_im start_re start_im res n) k
            ⟨_reals, _imags, fun _ => 0, 15⟩).1.iterations j :=
  ⟨main_loop_eq_passes _ n _reals _imags (fun _ => 0) 15,
    passes_frozen_aux _ (absorbing_get_args c_re c_im start_re start_im res n) _reals _imags
      j k k' hk hbit⟩

/-- Witness for the exact reading of C23: `c = 0`, `n = 5`, the points `3/2, 3, 0, 0`: the lane of `3/2` is counted
once and leaves the radius in the second pass, its counter is `1` after pass `2` and after
pass `4`. -/
theorem v0_counter_frozen_witness :
    (2 ≤ 4 ∧
      (intrin_v0.passes (get_args 0 0 0 0 1 5) 2
        ⟨fun j => if j = 0 then 3 / 2 else if j = 1 then 3 else 0, fun _ => 0, fun _ => 0,
          15⟩).1.mask.testBit (0 : Fin 4) = false) ∧
      (intrin_v0.passes (get_args 0 0 0 0 1 5) 4
        ⟨fun j => if j = 0 then 3 / 2 else if j = 1 then 3 else 0, fun _ => 0, fun _ => 0,
          15⟩).1.iterations 0 = 1 ∧
      (intrin_v0.passes (get_args 0 0 0 0 1 5) 2
        ⟨fun j => if j = 0 then 3 / 2 else if j = 1 then 3 else 0, fun _ => 0, fun _ => 0,
          15⟩).1.iterations 0 = 1 :=
  ⟨⟨by decide, by decide!⟩,
    ((v0_counter_frozen 0 0 0 0 1 5 (fun j => if j = 0 then 3 / 2 else if j = 1 then 3 else 0)
      (fun _ => 0) 0 2 4 (by decide) (by decide!)).2).trans (by decide!),
    by decide!⟩

/-- C24. Lane counter of V0: with `radius_sqr` as `get_args` sets it and `n < 2^32` (`n` is
an `unsigned`), for any four points, when the main iterations loop has ended the counter of
lane `j` is `min e n`, where `e` is the least index `i ≥ 0` with `|z_i|^2 > radius_sqr` for
the point of the lane, and it is `n` when there is no such index. -/
theorem v0_lane_counter (c_re c_im start_re start_im res : ℚ) (n : ℕ) (hn32 : n < 2 ^ 32)
    (_reals _imags : Lanes ℚ) (j : Fin 4) :
    (∀ e, escaped (get_args c_re c_im start_re start_im res n) (_reals j) (_imags j) e →
        (∀ i, i < e →
          ¬ escaped (get_args c_re c_im start_re start_im res n) (_reals j) (_imags j) i) →
        (intrin_v0.main_loop (get_args c_re c_im start_re start_im res n) n _reals _imags
          (fun _ => 0) 15).2 j = min e n) ∧
      ((∀ i, ¬ escaped (get_args c_re c_im start_re start_im res n) (_reals j) (_imags j) i) →
        (intrin_v0.main_loop (get_args c_re c_im start_re start_im res n) n _reals _imags
          (fun _ => 0) 15).2 j = n) :=
  main_loop_min_aux (get_args c_re c_im start_re start_im res n)
    (absorbing_get_args c_re c_im start_re start_im res n) hn32 _reals _imags j

/-- Witness for C24: `c = 0`, `n = 5`, the points `3/2, 3, 0, 0`, lane `1`: the point `3` is
outside the radius (`e = 0`) and the counter is `min 0 5 = 0`. -/
theorem v0_lane_counter_witness :
    5 < 2 ^ 32 ∧
      (intrin_v0.main_loop (get_args 0 0 0 0 1 5) 5
        (fun j => if j = 0 then 3 / 2 else if j = 1 then 3 else 0) (fun _ => 0)
        (fun _ => 0) 15).2 1 = min 0 5 :=
  ⟨by decide,
    (v0_lane_counter 0 0 0 0 1 5 (by decide)
      (fun j => if j = 0 then 3 / 2 else if j = 1 then 3 else 0) (fun _ => 0) 1).1 0
      (by decide!) (by intro i hi; omega)⟩

/-- C25. Start points outside the radius: with `radius_sqr` as `get_args` sets it and
`2 ≤ n < 2^32`, for a point `re + im i` with `|z_0|^2 > radius_sqr` both `iterate_reference`
and `iterate_naive` return `1`; in V0 the lane of such a point ends with counter `0`, for
which the loop over `results` passes `1` to `color_pixel`; in V1 a lane that enters the loop
`while (full)` with such a point and counter `0` has counter `1` and its bit set after the
first pass, and `1` is passed to `color_pixel` for its coordinates. -/
theorem start_outside_gives_one (c_re c_im start_re start_im res : ℚ) (n : ℕ) (hn : 2 ≤ n)
    (hn32 : n < 2 ^ 32) (re im : ℚ)
    (hout : (get_args c_re c_im start_re start_im res n).radius_sqr < re * re + im * im) :
    iterate_reference re im (get_args c_re c_im start_re start_im res n) = 1 ∧
      iterate_naive re im (get_args c_re c_im start_re start_im res n) = 1 ∧
      (∀ (_reals _imags : Lanes ℚ) (j : Fin 4) (y x : ℕ), _reals j = re → _imags j = im →
        (intrin_v0.main_loop (get_args c_re c_im start_re start_im res n) n _reals _imags
          (fun _ => 0) 15).2 j = 0 ∧
        (intrin_v0.color_batch (get_args c_re c_im start_re start_im res n) y x
          (intrin_v0.main_loop (get_args c_re c_im start_re start_im res n) n _reals _imags
            (fun _ => 0) 15).2)[j.val]? = some ⟨y, x - 3 + j, 1⟩) ∧
      (∀ (fuel : ℕ) (nums : four_complexes) (xreals ximags : Lanes ℚ) (xcount : Lanes ℕ)
          (calls : List ColorCall) (i : Fin 4), xreals i = re → ximags i = im →
          xcount i = 0 →
        (⟨nums.y_coords i, nums.x_coords i, 1⟩ : ColorCall)
          ∈ (intrin_v1.full_loop (get_args c_re c_im start_re start_im res n) (fuel + 1) nums
              xreals ximags xcount calls).2.2.2) := by
  have habs := absorbing_get_args c_re c_im start_re start_im res n
  obtain ⟨h1, h2⟩ := start_outside_naive_aux (get_args c_re c_im start_re start_im res n) habs
    hn re im hout
  refine ⟨h1, h2, ?_, ?_⟩
  · intro _reals _imags j y x hre him
    exact start_outside_v0_aux (get_args c_re c_im start_re start_im res n) habs hn hn32
      _reals _imags j (by rw [hre, him]; exact hout) y x
  · intro fuel nums xreals ximags xcount calls i hre him hcount
    exact start_outside_v1_aux (get_args c_re c_im start_re start_im res n) fuel nums xreals
      ximags xcount calls i hcount (by rw [hre, him]; exact hout)

/-- Witness for C25: `c = 0`, `n = 5` and the point `3`, with `|3|^2 = 9 > 4`. -/
theorem start_outside_gives_one_witness :
    (2 ≤ 5 ∧ 5 < 2 ^ 32 ∧ (get_args 0 0 0 0 1 5).radius_sqr < 3 * 3 + 0 * 0) ∧
      iterate_reference 3 0 (get_args 0 0 0 0 1 5) = 1 ∧
      iterate_naive 3 0 (get_args 0 0 0 0 1 5) = 1 :=
  ⟨⟨by decide, by decide, by decide!⟩,
    (start_outside_gives_one 0 0 0 0 1 5 (by decide) (by decide) 3 0 (by decide!)).1,
    by decide!⟩

/-- C26 (failing input): `julia_V1` with `c = 0`, start `0`, resolution `FLT_MAX / 4`,
`n = 2` on a 5 x 1 image. The pixel `(4, 0)` has the real part `FLT_MAX`; after it has been
processed `population` is `2` while one entry of the pool is not marked empty, and the
pixel is never passed to `color_pixel`. -/
theorem pool_population_at_sentinel :
    (intrin_v1.final_pool zero_memory 0 0 0 0 5 1 (FLT_MAX / 4) 2).population = 2 ∧
      intrin_v1.occupied (intrin_v1.final_pool zero_memory 0 0 0 0 5 1 (FLT_MAX / 4) 2) = 1 ∧
      julia_V1 zero_memory 0 0 0 0 5 1 (FLT_MAX / 4) 2
        = [⟨0, 1, 1⟩, ⟨0, 2, 1⟩, ⟨0, 3, 1⟩, ⟨0, 0, 0⟩] ∧
      recorded (julia_V1 zero_memory 0 0 0 0 5 1 (FLT_MAX / 4) 2) 0 4 = none := by
  refine ⟨?_, ?_, ?_, ?_⟩ <;> decide!

/-- The drain pass of V1 on the entries that are not marked empty (C27 for the lanes with
`reals[j] ≠ FLT_MAX`): `compute_last_points` makes the calls of `last_point`
for the four entries in turn. For an entry `j` that is not marked empty, with counter `k`,
`1 ≤ k < n`, holding the iterate `z_k` of a point `x0 + y0 i` whose iterates `z_0 .. z_{k-1}`
are inside the radius, `last_point` makes one call, with the value of `iterate_reference`
for `x0 + y0 i`; for an entry with counter `0` it makes one call, with `iterate_naive` of
the stored point. -/
theorem drain_resumes (args : Arguments) (nums : four_complexes) (j : Fin 4)
    (hlive : nums.reals j ≠ FLT_MAX) :
    intrin_v1.compute_last_points args nums
        = (List.finRange 4).flatMap (intrin_v1.last_point args nums) ∧
      (∀ (x0 y0 : ℚ) (k : ℕ), nums.count j = k → 1 ≤ k → k < args.n →
        nums.reals j = (orbit args x0 y0 k).1 → nums.imags j = (orbit args x0 y0 k).2 →
        (∀ i, i < k → ¬ escaped args x0 y0 i) →
        intrin_v1.last_point args nums j
          = [⟨nums.y_coords j, nums.x_coords j, iterate_reference x0 y0 args⟩]) ∧
      (nums.count j = 0 →
        intrin_v1.last_point args nums j
          = [⟨nums.y_coords j, nums.x_coords j,
              iterate_naive (nums.reals j) (nums.imags j) args⟩]) :=
  ⟨compute_last_points_eq args nums,
    fun x0 y0 k hcount hk1 hkn hre him hin =>
      last_point_resumed args nums j x0 y0 k hlive hcount hk1 hkn hre him hin,
    fun hcount => last_point_fresh args nums j hlive hcount⟩

/-- Witness for the drain pass on a marked entry: `c = 0`, `n = 3`, an entry with counter `1` that holds `9/4`, the first
iterate of the point `3/2`; the drain pass colours it with `1`, the value of
`iterate_reference` for `3/2`. -/
theorem drain_resumes_witness :
    ((9 / 4 : ℚ) ≠ FLT_MAX ∧ 1 ≤ 1 ∧ 1 < (get_args 0 0 0 0 1 3).n ∧
        (9 / 4 : ℚ) = (orbit (get_args 0 0 0 0 1 3) (3 / 2) 0 1).1 ∧
        (0 : ℚ) = (orbit (get_args 0 0 0 0 1 3) (3 / 2) 0 1).2 ∧
        ¬ escaped (get_args 0 0 0 0 1 3) (3 / 2) 0 0) ∧
      intrin_v1.last_point (get_args 0 0 0 0 1 3)
          { zero_memory with reals := fun _ => 9 / 4, count := fun _ => 1 } 0
        = [⟨0, 0, iterate_reference (3 / 2) 0 (get_args 0 0 0 0 1 3)⟩] ∧
      iterate_reference (3 / 2) 0 (get_args 0 0 0 0 1 3) = 1 :=
  ⟨⟨by decide!, by decide, by decide, by decide!, by decide!, by decide!⟩,
    (drain_resumes (get_args 0 0 0 0 1 3)
      { zero_memory with reals := fun _ => 9 / 4, count := fun _ => 1 } 0 (by decide!)).2.1
      (3 / 2) 0 1 rfl (by decide) (by decide) (by decide!) (by decide!)
      (by intro i hi; obtain rfl : i = 0 := by omega
          decide!),
    by decide!⟩

/-- C28 (failing inputs): `julia_V1` with `c = 0`, start `0`, resolution `FLT_MAX / 4`,
`n = 2` on a 5 x 3 image calls `color_pixel` three times for the pixel `(3, 0)` and never
for the pixels `(4, 0)` and `(4, 1)`, whose bytes keep the prior content of the buffer; with
start `FLT_MAX`, resolution `1` on a 1 x 4 image it calls `color_pixel` for the coordinates
`(7, 0)` that it reads from entries of its pool that were never written. -/
theorem julia_V1_calls_per_pixel_at_sentinel :
    (julia_V1 zero_memory 0 0 0 0 5 3 (FLT_MAX / 4) 2).countP
        (fun c => decide (c.y = 0 ∧ c.x = 3)) = 3 ∧
      (julia_V1 zero_memory 0 0 0 0 5 3 (FLT_MAX / 4) 2).countP
        (fun c => decide (c.y = 0 ∧ c.x = 4)) = 0 ∧
      (julia_V1 zero_memory 0 0 0 0 5 3 (FLT_MAX / 4) 2).countP
        (fun c => decide (c.y = 1 ∧ c.x = 4)) = 0 ∧
      buffer_bytes (run_julia_V1 zero_memory image_mode 0 0 0 0 5 3 (FLT_MAX / 4) 2
          (some fun _ => 7)) 45
        = some [0, 0, 0, 128, 32, 64, 128, 32, 64, 0, 0, 0, 7, 7, 7,
                128, 32, 64, 128, 32, 64, 128, 32, 64, 128, 32, 64, 7, 7, 7,
                128, 32, 64, 128, 32, 64, 128, 32, 64, 128, 32, 64, 128, 32, 64] ∧
      julia_V1 { zero_memory with x_coords := fun _ => 7 } 0 0 FLT_MAX 0 1 4 1 2
        = [⟨3, 0, 1⟩, ⟨0, 7, 1⟩, ⟨0, 7, 1⟩, ⟨0, 7, 1⟩] := by
  refine ⟨?_, ?_, ?_, ?_, ?_⟩ <;> decide!

/-- C29. V0 writes every pixel exactly once: for every width, height and parameter set,
every call of `julia` has coordinates inside the image, and for every pixel `(x, y)` of the
image exactly one call of `julia` has its coordinates; for `x < width - width % 4` it is a
call of `enumerate`, for the other columns (then `width % 4 ≠ 0`) a call of
`compute_last_points`. -/
theorem julia_calls_once (_reals : Lanes ℚ) (c_re c_im start_re start_im res : ℚ)
    (width height n : ℕ) :
    (∀ c ∈ julia _reals c_re c_im start_re start_im width height res n,
        c.y < height ∧ c.x < width) ∧
      ∀ x y, x < width → y < height →
        (julia _reals c_re c_im start_re start_im width height res n).countP
            (fun c => decide (c.y = y ∧ c.x = x)) = 1 ∧
          (x < width - width % 4 →
            (intrin_v0.enumerate (get_args c_re c_im start_re start_im res n) width height
              _reals).countP (fun c => decide (c.y = y ∧ c.x = x)) = 1) ∧
          (width - width % 4 ≤ x → width % 4 ≠ 0 ∧
            (intrin_v0.compute_last_points (get_args c_re c_im start_re start_im res n) width
              height).countP (fun c => decide (c.y = y ∧ c.x = x)) = 1) :=
  julia_calls_once_aux _reals c_re c_im start_re start_im res width height n

/-- Witness for C29: a 6 x 2 image, `c = 1/4`, `n = 5`; the pixel `(5, 1)` of the last
columns and the pixel `(2, 1)` of a batch. -/
theorem julia_calls_once_witness :
    (5 < 6 ∧ 2 < 6 ∧ 1 < 2 ∧ 6 - 6 % 4 ≤ 5 ∧ 2 < 6 - 6 % 4) ∧
      (julia (fun _ => 0) (1 / 4) 0 (-3 / 2) 0 6 2 (1 / 2) 5).countP
          (fun c => decide (c.y = 1 ∧ c.x = 5)) = 1 ∧
      (intrin_v0.compute_last_points (get_args (1 / 4) 0 (-3 / 2) 0 (1 / 2) 5) 6 2).countP
          (fun c => decide (c.y = 1 ∧ c.x = 5)) = 1 ∧
      (intrin_v0.enumerate (get_args (1 / 4) 0 (-3 / 2) 0 (1 / 2) 5) 6 2 (fun _ => 0)).countP
          (fun c => decide (c.y = 1 ∧ c.x = 2)) = 1 :=
  ⟨by decide,
    ((julia_calls_once (fun _ => 0) (1 / 4) 0 (-3 / 2) 0 (1 / 2) 6 2 5).2 5 1 (by decide)
      (by decide)).1,
    (((julia_calls_once (fun _ => 0) (1 / 4) 0 (-3 / 2) 0 (1 / 2) 6 2 5).2 5 1 (by decide)
      (by decide)).2.2 (by decide)).2,
    ((julia_calls_once (fun _ => 0) (1 / 4) 0 (-3 / 2) 0 (1 / 2) 6 2 5).2 2 1 (by decide)
      (by decide)).2.1 (by decide)⟩

/-- C30. The lanes of V0 do not interfere: with `radius_sqr` as `get_args` sets it and
`n < 2^32`, two runs of the main iterations loop on batches that hold the same point in lane
`j` end with the same counter in lane `j`, and the loop over `results` passes the same
colour for that lane to `color_pixel`, whatever the points of the other three lanes are. -/
theorem v0_lanes_independent (c_re c_im start_re start_im res : ℚ) (n : ℕ) (hn32 : n < 2 ^ 32)
    (_reals _imags _reals2 _imags2 : Lanes ℚ) (j : Fin 4) (hre : _reals j = _reals2 j)
    (him : _imags j = _imags2 j) (y x : ℕ) :
    (intrin_v0.main_loop (get_args c_re c_im start_re start_im res n) n _reals _imags
        (fun _ => 0) 15).2 j
      = (intrin_v0.main_loop (get_args c_re c_im start_re start_im res n) n _reals2 _imags2
        (fun _ => 0) 15).2 j ∧
    (intrin_v0.color_batch (get_args c_re c_im start_re start_im res n) y x
        (intrin_v0.main_loop (get_args c_re c_im start_re start_im res n) n _reals _imags
          (fun _ => 0) 15).2)[j.val]?
      = (intrin_v0.color_batch (get_args c_re c_im start_re start_im res n) y x
        (intrin_v0.main_loop (get_args c_re c_im start_re start_im res n) n _reals2 _imags2
          (fun _ => 0) 15).2)[j.val]? := by
  have h : (intrin_v0.main_loop (get_args c_re c_im start_re start_im res n) n _reals _imags
        (fun _ => 0) 15).2 j
      = (intrin_v0.main_loop (get_args c_re c_im start_re start_im res n) n _reals2 _imags2
        (fun _ => 0) 15).2 j := by
    have h1 : (intrin_v0.main_loop (get_args c_re c_im start_re start_im res n) n _reals
          _imags (fun _ => 0) 15).2 j
        = inside_count (get_args c_re c_im start_re start_im res n) n (_reals j) (_imags j) :=
      main_loop_counter_aux (get_args c_re c_im start_re start_im res n)
        (absorbing_get_args c_re c_im start_re start_im res n) hn32 _reals _imags j
    have h2 : (intrin_v0.main_loop (get_args c_re c_im start_re start_im res n) n _reals2
          _imags2 (fun _ => 0) 15).2 j
        = inside_count (get_args c_re c_im start_re start_im res n) n (_reals2 j) (_imags2 j) :=
      main_loop_counter_aux (get_args c_re c_im start_re start_im res n)
        (absorbing_get_args c_re c_im start_re start_im res n) hn32 _reals2 _imags2 j
    rw [h1, h2, hre, him]
  exact ⟨h, by rw [color_batch_get, color_batch_get, h]⟩

/-- Witness for C30: `c = 0`, `n = 5`, lane `0` holds the point `3/2` (counter `1`); the other
lanes hold `3, 0, 0` in one run, where the loop makes all five passes, and `3, 3, 3` in the
other, where it is left in the second pass. -/
theorem v0_lanes_independent_witness :
    (5 < 2 ^ 32 ∧
      (fun j : Fin 4 => if j = 0 then (3 / 2 : ℚ) else if j = 1 then 3 else 0) 0
        = (fun j : Fin 4 => if j = 0 then (3 / 2 : ℚ) else 3) 0 ∧
      (fun _ : Fin 4 => (0 : ℚ)) 0 = (fun _ : Fin 4 => (0 : ℚ)) 0) ∧
      (intrin_v0.main_loop (get_args 0 0 0 0 1 5) 5
        (fun j => if j = 0 then 3 / 2 else if j = 1 then 3 else 0) (fun _ => 0)
        (fun _ => 0) 15).2 0 = 1 ∧
      (intrin_v0.main_loop (get_args 0 0 0 0 1 5) 5
        (fun j => if j = 0 then 3 / 2 else 3) (fun _ => 0) (fun _ => 0) 15).2 0 = 1 ∧
      (intrin_v0.passes (get_args 0 0 0 0 1 5) 5
        ⟨fun j => if j = 0 then 3 / 2 else if j = 1 then 3 else 0, fun _ => 0, fun _ => 0,
          15⟩).2 = false ∧
      (intrin_v0.passes (get_args 0 0 0 0 1 5) 2
        ⟨fun j => if j = 0 then 3 / 2 else 3, fun _ => 0, fun _ => 0, 15⟩).2 = true :=
  ⟨⟨by decide, rfl, rfl⟩,
    ((v0_lanes_independent 0 0 0 0 1 5 (by decide)
      (fun j => if j = 0 then 3 / 2 else if j = 1 then 3 else 0) (fun _ => 0)
      (fun j => if j = 0 then 3 / 2 else 3) (fun _ => 0) 0 rfl rfl 0 3).1).trans (by decide!),
    by decide!, by decide!, by decide!⟩

/-! ## Points outside the radius diverge -/

/-- One application of the map at least doubles the excess of `|z|^2` over a bound `R` with
`R ≥ 4` and `R ≥ |c|^2`. -/
theorem step_grows_by (p q a b R : ℚ) (h4 : 4 ≤ R) (hc : p * p + q * q ≤ R)
    (hR : R < a * a + b * b) :
    2 * (a * a + b * b) - R
      ≤ (a * a - b * b + p) * (a * a - b * b + p) + (2 * a * b + q) * (2 * a * b + q) := by
  set s := a * a + b * b with hs
  set t := p * p + q * q with ht
  set d := (a * a - b * b) * p + 2 * a * b * q with hd
  have ht0 : 0 ≤ t := add_nonneg (mul_self_nonneg p) (mul_self_nonneg q)
  have hexp : (a * a - b * b + p) * (a * a - b * b + p) + (2 * a * b + q) * (2 * a * b + q)
      = s * s + 2 * d + t := by
    rw [hs, ht, hd]; ring
  have hcs : d * d ≤ s * s * t := by
    have : s * s * t - d * d = ((a * a - b * b) * q - 2 * a * b * p) ^ 2 := by
      rw [hs, ht, hd]; ring
    linarith [sq_nonneg ((a * a - b * b) * q - 2 * a * b * p)]
  have hs4 : 4 < s := by linarith
  have hkey : 4 * (s * s * t) ≤ (s * s - 2 * s + R + t) * (s * s - 2 * s + R + t) := by
    have e : (s * s - 2 * s + R + t) * (s * s - 2 * s + R + t) - 4 * (s * s * t)
        = s * s * s * (s - 4) + (s - R) * (3 * s - 3 * t) + (R - t) * (2 * (s * s) + s - t)
          + (s - R) * (s - R) := by ring
    have h1 : 0 ≤ s * s * s * (s - 4) := by
      have : 0 < s := by linarith
      have : 0 < s - 4 := by linarith
      positivity
    have h2 : 0 ≤ (s - R) * (3 * s - 3 * t) :=
      mul_nonneg (by linarith) (by linarith)
    have h3 : 0 ≤ (R - t) * (2 * (s * s) + s - t) :=
      mul_nonneg (by linarith) (by nlinarith)
    have h5 : 0 ≤ (s - R) * (s - R) := mul_self_nonneg _
    linarith
  rw [hexp]
  by_contra hcon
  push_neg at hcon
  have hpos : 0 < s * s - 2 * s + R + t := by nlinarith
  have hlt : s * s - 2 * s + R + t < -(2 * d) := by linarith
  have hsq : (s * s - 2 * s + R + t) * (s * s - 2 * s + R + t) < (-(2 * d)) * (-(2 * d)) :=
    mul_lt_mul'' hlt hlt hpos.le hpos.le
  have e2 : (-(2 * d)) * (-(2 * d)) = 4 * (d * d) := by ring
  linarith

/-- The squared absolute value of the `k`-th iterate of a point outside the radius grows at
least linearly in `k`. -/
theorem orbit_grows_aux (c_re c_im start_re start_im res : ℚ) (n : ℕ) (x y : ℚ)
    (hout : (get_args c_re c_im start_re start_im res n).radius_sqr < x * x + y * y) :
    ∀ k : ℕ,
      x * x + y * y + (k : ℚ) * (x * x + y * y
          - (get_args c_re c_im start_re start_im res n).radius_sqr)
        ≤ (orbit (get_args c_re c_im start_re start_im res n) x y k).1
            * (orbit (get_args c_re c_im start_re start_im res n) x y k).1
          + (orbit (get_args c_re c_im start_re start_im res n) x y k).2
            * (orbit (get_args c_re c_im start_re start_im res n) x y k).2 := by
  obtain ⟨h4, hc⟩ := radius_sqr_get_args c_re c_im start_re start_im res n
  intro k
  induction k with
  | zero => simp [orbit]
  | succ k ih =>
    have hk0 : (0 : ℚ) ≤ (k : ℚ) := Nat.cast_nonneg k
    have hRk : (get_args c_re c_im start_re start_im res n).radius_sqr
        < (orbit (get_args c_re c_im start_re start_im res n) x y k).1
            * (orbit (get_args c_re c_im start_re start_im res n) x y k).1
          + (orbit (get_args c_re c_im start_re start_im res n) x y k).2
            * (orbit (get_args c_re c_im start_re start_im res n) x y k).2 := by
      nlinarith
    have hstep := step_grows_by c_re c_im
      (orbit (get_args c_re c_im start_re start_im res n) x y k).1
      (orbit (get_args c_re c_im start_re start_im res n) x y k).2
      (get_args c_re c_im start_re start_im res n).radius_sqr h4 hc hRk
    have horb : orbit (get_args c_re c_im start_re start_im res n) x y (k + 1)
        = ((orbit (get_args c_re c_im start_re start_im res n) x y k).1
              * (orbit (get_args c_re c_im start_re start_im res n) x y k).1
            - (orbit (get_args c_re c_im start_re start_im res n) x y k).2
              * (orbit (get_args c_re c_im start_re start_im res n) x y k).2 + c_re,
          2 * (orbit (get_args c_re c_im start_re start_im res n) x y k).1
            * (orbit (get_args c_re c_im start_re start_im res n) x y k).2 + c_im) := rfl
    rw [horb]
    simp only
    push_cast
    nlinarith

theorem orbit_unbounded_aux (c_re c_im start_re start_im res : ℚ) (n : ℕ) (x y : ℚ)
    (hout : (get_args c_re c_im start_re start_im res n).radius_sqr < x * x + y * y)
    (B : ℚ) :
    ∃ k : ℕ,
      B < (orbit (get_args c_re c_im start_re start_im res n) x y k).1
            * (orbit (get_args c_re c_im start_re start_im res n) x y k).1
          + (orbit (get_args c_re c_im start_re start_im res n) x y k).2
            * (orbit (get_args c_re c_im start_re start_im res n) x y k).2 := by
  have hd : 0 < x * x + y * y - (get_args c_re c_im start_re start_im res n).radius_sqr := by
    linarith
  obtain ⟨k, hk⟩ := exists_nat_gt
    ((B - (x * x + y * y))
      / (x * x + y * y - (get_args c_re c_im start_re start_im res n).radius_sqr))
  refine ⟨k, ?_⟩
  have hg := orbit_grows_aux c_re c_im start_re start_im res n x y hout k
  rw [div_lt_iff₀ hd] at hk
  linarith

/-! ## Levels and offsets -/

theorem map_to_color_pos_aux (n count : ℕ) (hn : 2 ≤ n) (h1 : 1 ≤ count)
    (hc : count ≤ n - 1) : 1 ≤ map_to_color count (255 / (n : ℚ)) := by
  have hfl := map_to_color_floor_aux n count h1 (by omega)
  have hnpos : (0 : ℚ) < n := by exact_mod_cast (by omega : 0 < n)
  have hcn : (count : ℚ) + 1 ≤ n := by exact_mod_cast (by omega : count + 1 ≤ n)
  have hlt : (count : ℚ) * (255 / (n : ℚ)) < 255 := by
    rw [mul_div_assoc', div_lt_iff₀ hnpos]
    nlinarith
  have hfloor : ⌊(count : ℚ) * (255 / (n : ℚ))⌋ < 255 := by
    rw [Int.floor_lt]
    exact_mod_cast hlt
  have : (1 : ℤ) ≤ (map_to_color count (255 / (n : ℚ)) : ℤ) := by
    rw [hfl]
    omega
  exact_mod_cast this

theorem map_to_color_zero_iff_aux (n count : ℕ) (hn : 2 ≤ n) (hc : count ≤ n - 1) :
    map_to_color count (255 / (n : ℚ)) = 0 ↔ count = 0 := by
  constructor
  · intro h
    by_contra hne
    have := map_to_color_pos_aux n count hn (by omega) hc
    omega
  · intro h
    rw [h]
    rfl

theorem color_pixel_blue_aux (g : Globals) (img : Image) (y x count : ℕ) (b : ℕ → ℕ)
    (hg : g.CORRECTNESS_TEST = false) (hb : img.buffer = some b) :
    ∃ b' : ℕ → ℕ, color_pixel g img y x count = some (g, { img with buffer := some b' }) ∧
      b' (offset img y x) = map_to_color count img.color_const :=
  ⟨_, color_pixel_image_aux g img y x count b hg hb, by
    simp only [Function.update_apply, if_true]⟩

theorem pixel_index_inj (width y x y2 x2 : ℕ) (hx : x < width) (hx2 : x2 < width)
    (h : y * width + x = y2 * width + x2) : y = y2 ∧ x = x2 := by
  have hw : 0 < width := by omega
  have hdiv1 : (y * width + x) / width = y := by
    rw [Nat.add_comm, Nat.add_mul_div_right _ _ hw, Nat.div_eq_of_lt hx, Nat.zero_add]
  have hdiv2 : (y2 * width + x2) / width = y2 := by
    rw [Nat.add_comm, Nat.add_mul_div_right _ _ hw, Nat.div_eq_of_lt hx2, Nat.zero_add]
  have hy : y = y2 := by rw [← hdiv1, ← hdiv2, h]
  subst hy
  exact ⟨rfl, by omega⟩

theorem offset_bounds_aux (img : Image) (y x : ℕ) (hx : x < img.width) (hy : y < img.height)
    (hsize : 3 * img.width * img.height ≤ 2 ^ 32) :
    offset img y x = 3 * (y * img.width + x) ∧
      offset img y x + 2 < 3 * img.width * img.height := by
  obtain ⟨ho, _⟩ := offset_eq_aux img y x hx hy hsize
  have hlt := pixel_index_lt img.width img.height y x hx hy
  have e : 3 * img.width * img.height = 3 * (img.width * img.height) := Nat.mul_assoc _ _ _
  exact ⟨ho, by rw [ho, e]; omega⟩

theorem offset_disjoint_aux (img : Image) (y x y2 x2 : ℕ) (hx : x < img.width)
    (hy : y < img.height) (hx2 : x2 < img.width) (hy2 : y2 < img.height)
    (hsize : 3 * img.width * img.height ≤ 2 ^ 32) (hne : ¬ (y = y2 ∧ x = x2)) (i j : ℕ)
    (hi : i < 3) (hj : j < 3) : offset img y x + i ≠ offset img y2 x2 + j := by
  rw [(offset_eq_aux img y x hx hy hsize).1, (offset_eq_aux img y2 x2 hx2 hy2 hsize).1]
  intro h
  have : y * img.width + x = y2 * img.width + x2 := by omega
  exact hne (pixel_index_inj img.width y x y2 x2 hx hx2 this)

/-! ## The lifecycle of the verification mode -/

theorem test_lifecycle_aux (_reals : Lanes ℚ) (memory : four_complexes)
    (iterations0 iterations1 iterations2 : ℕ → ℕ) (g : Globals) (args : Arguments)
    (width height : ℕ) :
    ∃ outcome g',
      test _reals memory iterations0 iterations1 iterations2 g args width height
        = some (outcome, g') ∧
      g'.CORRECTNESS_BUFFER = test.counts2 iterations2 args width height ∧
      (outcome = TestOutcome.passed ↔ g'.CORRECTNESS_TEST = false) := by
  rw [test_eq_aux]
  obtain ⟨_, hsome⟩ := findSome_pixels
    (fun y x => test.compare args width (test.counts0 _reals iterations0 args width height)
      (test.counts1 memory iterations1 args width height)
      (test.counts2 iterations2 args width height) y x) width height
  cases hf : (List.range height).findSome? (fun y =>
      (List.range width).findSome? (fun x =>
        test.compare args width (test.counts0 _reals iterations0 args width height)
          (test.counts1 memory iterations1 args width height)
          (test.counts2 iterations2 args width height) y x)) with
  | none => exact ⟨TestOutcome.passed, _, rfl, rfl, by simp⟩
  | some v =>
    obtain ⟨y, x, _, _, hv, _⟩ := hsome v hf
    have hne := test_compare_ne_passed _ _ _ _ _ y x v hv
    exact ⟨v, _, rfl, rfl, by simp [hne]⟩

theorem test_initial_globals_aux (_reals : Lanes ℚ) (memory : four_complexes)
    (iterations0 iterations1 iterations2 : ℕ → ℕ) (g g2 : Globals) (args : Arguments)
    (width height : ℕ) :
    test _reals memory iterations0 iterations1 iterations2 g args width height
      = test _reals memory iterations0 iterations1 iterations2 g2 args width height := by
  rw [test_eq_aux, test_eq_aux]

/-! ## The loop `while (full)` of V1 is left within `max 1 n` passes -/

theorem check_lanes_live (args : Arguments) (l : List (Fin 4)) :
    ∀ st : four_complexes × Bool × List ColorCall,
      (l.foldl (intrin_v1.check_lane args) st).2.1 = true →
      ∀ i ∈ l, st.1.count i < args.n := by
  induction l with
  | nil => intro st _ i hi; simp at hi
  | cons a l ih =>
    intro st h i hi
    rw [List.foldl_cons] at h
    rcases List.mem_cons.mp hi with rfl | hmem
    · exact (check_lane_full args st i (check_lanes_full args l _ h)).2.2
    · have := ih _ h i hmem
      rw [(check_lane_frame args st a).2.1] at this
      exact this

theorem check_lane_population (args : Arguments)
    (st : four_complexes × Bool × List ColorCall) (i : Fin 4) :
    (intrin_v1.check_lane args st i).1.population ≤ st.1.population ∧
      ((intrin_v1.check_lane args st i).2.1 = false → st.2.1 = true →
        (intrin_v1.check_lane args st i).1.population ≤ st.1.population - 1) := by
  unfold intrin_v1.check_lane
  simp only
  split_ifs
  all_goals first
    | exact ⟨by simp, fun _ _ => le_refl _⟩
    | exact ⟨le_refl _, fun h1 h2 => by rw [h2] at h1; exact absurd h1 (by simp)⟩

theorem check_lanes_population (args : Arguments) (l : List (Fin 4)) :
    ∀ st : four_complexes × Bool × List ColorCall,
      (l.foldl (intrin_v1.check_lane args) st).1.population ≤ st.1.population ∧
        ((l.foldl (intrin_v1.check_lane args) st).2.1 = false → st.2.1 = true →
          (l.foldl (intrin_v1.check_lane args) st).1.population ≤ st.1.population - 1) := by
  induction l with
  | nil =>
    intro st
    exact ⟨le_refl _, fun h1 h2 => by
      rw [List.foldl_nil] at h1; rw [h2] at h1; exact absurd h1 (by simp)⟩
  | cons a l ih =>
    intro st
    rw [List.foldl_cons]
    obtain ⟨h1, h2⟩ := ih (intrin_v1.check_lane args st a)
    obtain ⟨g1, g2⟩ := check_lane_population args st a
    refine ⟨le_trans h1 g1, fun hf ht => ?_⟩
    cases hflag : (intrin_v1.check_lane args st a).2.1 with
    | true =>
      have := h2 hf hflag
      omega
    | false =>
      have := g2 hflag ht
      omega

/-- The loop is left within `max 1 (n - c)` passes when some lane enters it with a counter
`c` that the first increment does not wrap: after `p` passes without exit that lane has the
counter `c + p < n`. -/
theorem full_loop_passes_bound (args : Arguments) (hn32 : args.n < 2 ^ 32) (i : Fin 4) :
    ∀ (fuel : ℕ) (nums : four_complexes) (xreals ximags : Lanes ℚ) (xcount : Lanes ℕ)
      (calls : List ColorCall), xcount i + 1 < 2 ^ 32 →
      max 1 (args.n - xcount i) ≤ fuel →
      ∃ k, intrin_v1.full_loop_passes args fuel nums xreals ximags xcount calls = some k ∧
        1 ≤ k ∧ k ≤ max 1 (args.n - xcount i) := by
  intro fuel
  induction fuel with
  | zero =>
    intro nums xreals ximags xcount calls _ hf
    omega
  | succ fuel ih =>
    intro nums xreals ximags xcount calls hwrap hf
    simp only [intrin_v1.full_loop_passes]
    split_ifs with h
    · have hlive := check_lanes_live args (List.finRange 4) _ h i (List.mem_finRange i)
      simp only at hlive
      rw [Nat.mod_eq_of_lt hwrap] at hlive
      obtain ⟨k, hk, hk1, hk2⟩ := ih _ (next_of_four args xreals ximags).1
        (next_of_four args xreals ximags).2.1 (fun j => (xcount j + 1) % 2 ^ 32) _
        (by
          show (xcount i + 1) % 2 ^ 32 + 1 < 2 ^ 32
          rw [Nat.mod_eq_of_lt hwrap]
          omega)
        (by
          show max 1 (args.n - (xcount i + 1) % 2 ^ 32) ≤ fuel
          rw [Nat.mod_eq_of_lt hwrap]
          omega)
      have hk2' : k ≤ max 1 (args.n - (xcount i + 1)) := by
        have hk3 : k ≤ max 1 (args.n - (xcount i + 1) % 2 ^ 32) := hk2
        rw [Nat.mod_eq_of_lt hwrap] at hk3
        exact hk3
      refine ⟨k + 1, ?_, by omega, by omega⟩
      rw [hk]
      rfl
    · exact ⟨1, rfl, le_refl 1, by omega⟩

/-- When the loop is left (enough fuel), at least one entry has been released:
`population` has gone down. -/
theorem full_loop_population (args : Arguments) :
    ∀ (fuel : ℕ) (nums : four_complexes) (xreals ximags : Lanes ℚ) (xcount : Lanes ℕ)
      (calls : List ColorCall) (k : ℕ),
      intrin_v1.full_loop_passes args fuel nums xreals ximags xcount calls = some k →
      (intrin_v1.full_loop args fuel nums xreals ximags xcount calls).1.population
        ≤ nums.population - 1 := by
  intro fuel
  induction fuel with
  | zero =>
    intro nums xreals ximags xcount calls k h
    simp [intrin_v1.full_loop_passes] at h
  | succ fuel ih =>
    intro nums xreals ximags xcount calls k h
    simp only [intrin_v1.full_loop_passes] at h
    simp only [intrin_v1.full_loop]
    obtain ⟨p1, p2⟩ := check_lanes_population args (List.finRange 4)
      ({ { nums with count := fun j => (xcount j + 1) % 2 ^ 32 } with
          bits := fun j =>
            if (next_of_four args xreals ximags).2.2 j > args.radius_sqr then 2 ^ 32 - 1
            else 0 }, true, calls)
    split_ifs at h ⊢ with hflag
    · cases hrec : intrin_v1.full_loop_passes args fuel
          ((List.finRange 4).foldl (intrin_v1.check_lane args)
            ({ { nums with count := fun j => (xcount j + 1) % 2 ^ 32 } with
                bits := fun j =>
                  if (next_of_four args xreals ximags).2.2 j > args.radius_sqr then 2 ^ 32 - 1
                  else 0 }, true, calls)).1
          (next_of_four args xreals ximags).1 (next_of_four args xreals ximags).2.1
          (fun j => (xcount j + 1) % 2 ^ 32)
          ((List.finRange 4).foldl (intrin_v1.check_lane args)
            ({ { nums with count := fun j => (xcount j + 1) % 2 ^ 32 } with
                bits := fun j =>
                  if (next_of_four args xreals ximags).2.2 j > args.radius_sqr then 2 ^ 32 - 1
                  else 0 }, true, calls)).2.2 with
      | none => rw [hrec] at h; simp at h
      | some k' =>
        have := ih _ _ _ _ _ k' hrec
        simp only at p1 this ⊢
        omega
    · have := p2 (by simpa using hflag) rfl
      simp only at this ⊢
      exact this

theorem insert_cases (nums : four_complexes) (a b : ℚ) (y x : ℕ) :
    (∃ i : Fin 4, (intrin_v1.insert nums a b y x).count i = 0 ∧
        (intrin_v1.insert nums a b y x).population = nums.population + 1) ∨
      intrin_v1.insert nums a b y x = nums := by
  unfold intrin_v1.insert
  cases (List.finRange 4).find? (fun i => decide (nums.reals i = FLT_MAX)) with
  | none => exact Or.inr rfl
  | some i => exact Or.inl ⟨i, by simp, rfl⟩

/-- One pixel of the stream: if `population ≤ 3` before, then `population ≤ 3` after, and
if the loop `while (full)` is entered, some entry has the counter `0` and the loop is left
within `max 1 n` passes. -/
theorem enumerate_x_step (args : Arguments) (hn32 : args.n < 2 ^ 32) (y : ℕ) (im : ℚ)
    (st : four_complexes × List ColorCall) (x : ℕ) (hpop : st.1.population ≤ 3) :
    (intrin_v1.enumerate_x args y im st x).1.population ≤ 3 ∧
      (¬ (intrin_v1.insert st.1 (args.start_re + (x : ℚ) * args.res) im y x).population < 4 →
        ∃ k,
          intrin_v1.full_loop_passes args (args.n + 1)
              (intrin_v1.insert st.1 (args.start_re + (x : ℚ) * args.res) im y x)
              (intrin_v1.insert st.1 (args.start_re + (x : ℚ) * args.res) im y x).reals
              (intrin_v1.insert st.1 (args.start_re + (x : ℚ) * args.res) im y x).imags
              (intrin_v1.insert st.1 (args.start_re + (x : ℚ) * args.res) im y x).count st.2
            = some k ∧
          1 ≤ k ∧ k ≤ max 1 args.n) := by
  have hloop : ¬ (intrin_v1.insert st.1 (args.start_re + (x : ℚ) * args.res) im y x).population
        < 4 →
      ∃ k,
        intrin_v1.full_loop_passes args (args.n + 1)
            (intrin_v1.insert st.1 (args.start_re + (x : ℚ) * args.res) im y x)
            (intrin_v1.insert st.1 (args.start_re + (x : ℚ) * args.res) im y x).reals
            (intrin_v1.insert st.1 (args.start_re + (x : ℚ) * args.res) im y x).imags
            (intrin_v1.insert st.1 (args.start_re + (x : ℚ) * args.res) im y x).count st.2
          = some k ∧
        1 ≤ k ∧ k ≤ max 1 args.n ∧
        (intrin_v1.insert st.1 (args.start_re + (x : ℚ) * args.res) im y x).population
          = 4 := by
    intro hfull
    rcases insert_cases st.1 (args.start_re + (x : ℚ) * args.res) im y x with
      ⟨i, hi, hp⟩ | heq
    · obtain ⟨k, hk, hk1, hk2⟩ := full_loop_passes_bound args hn32 i (args.n + 1)
        (intrin_v1.insert st.1 (args.start_re + (x : ℚ) * args.res) im y x)
        (intrin_v1.insert st.1 (args.start_re + (x : ℚ) * args.res) im y x).reals
        (intrin_v1.insert st.1 (args.start_re + (x : ℚ) * args.res) im y x).imags
        (intrin_v1.insert st.1 (args.start_re + (x : ℚ) * args.res) im y x).count st.2
        (by rw [hi]; norm_num) (by rw [hi]; omega)
      rw [hi] at hk2
      exact ⟨k, hk, hk1, by simpa using hk2, by omega⟩
    · rw [heq] at hfull
      omega
  refine ⟨?_, fun hfull => ?_⟩
  · unfold intrin_v1.enumerate_x
    simp only
    split_ifs with hlt
    · simp only
      omega
    · obtain ⟨k, hk, _, _, hp4⟩ := hloop hlt
      have := full_loop_population args _ _ _ _ _ _ k hk
      simp only
      omega
  · obtain ⟨k, hk, hk1, hk2, _⟩ := hloop hfull
    exact ⟨k, hk, hk1, hk2⟩

theorem foldl_population (f : four_complexes × List ColorCall → ℕ → four_complexes × List ColorCall)
    (hf : ∀ st x, st.1.population ≤ 3 → (f st x).1.population ≤ 3) (l : List ℕ) :
    ∀ st : four_complexes × List ColorCall, st.1.population ≤ 3 →
      (l.foldl f st).1.population ≤ 3 := by
  induction l with
  | nil => intro st h; exact h
  | cons a l ih => intro st h; exact ih _ (hf st a h)

theorem state_before_population (args : Arguments) (hn32 : args.n < 2 ^ 32) (width : ℕ)
    (nums : four_complexes) (hpop : nums.population ≤ 3) (y x : ℕ) :
    (intrin_v1.state_before args width nums y x).1.population ≤ 3 := by
  unfold intrin_v1.state_before
  apply foldl_population _ (fun st x h => (enumerate_x_step args hn32 y _ st x h).1)
  apply foldl_population _ _ _ _ hpop
  intro st y' h
  unfold intrin_v1.enumerate_y
  exact foldl_population _ (fun st x h => (enumerate_x_step args hn32 y' _ st x h).1) _ st h

theorem state_before_enumerate (args : Arguments) (width height : ℕ) (nums : four_complexes) :
    intrin_v1.enumerate args width height nums
      = intrin_v1.state_before args width nums height 0 := rfl

theorem state_before_succ (args : Arguments) (width : ℕ) (nums : four_complexes) (y x : ℕ) :
    intrin_v1.state_before args width nums y (x + 1)
      = intrin_v1.enumerate_x args y (args.start_im + (y : ℚ) * args.res)
          (intrin_v1.state_before args width nums y x) x := by
  unfold intrin_v1.state_before
  rw [List.range_succ, List.foldl_append]
  rfl

theorem state_before_row (args : Arguments) (width : ℕ) (nums : four_complexes) (y : ℕ) :
    intrin_v1.state_before args width nums (y + 1) 0
      = intrin_v1.state_before args width nums y width := by
  unfold intrin_v1.state_before
  rw [List.range_succ, List.foldl_append]
  rfl

/-- The body of the loop over `x` of V1 `enumerate` tests and runs the loop on `pool_at`. -/
theorem enumerate_x_pool_at (args : Arguments) (width : ℕ) (nums : four_complexes) (y x : ℕ) :
    intrin_v1.enumerate_x args y (args.start_im + (y : ℚ) * args.res)
        (intrin_v1.state_before args width nums y x) x
      = if (intrin_v1.pool_at args width nums y x).population < 4 then
          (intrin_v1.pool_at args width nums y x,
            (intrin_v1.state_before args width nums y x).2)
        else
          ({ (intrin_v1.full_loop args (args.n + 1) (intrin_v1.pool_at args width nums y x)
                (intrin_v1.pool_at args width nums y x).reals
                (intrin_v1.pool_at args width nums y x).imags
                (intrin_v1.pool_at args width nums y x).count
                (intrin_v1.state_before args width nums y x).2).1 with
              reals := fun i =>
                if (intrin_v1.full_loop args (args.n + 1) (intrin_v1.pool_at args width nums y x)
                    (intrin_v1.pool_at args width nums y x).reals
                    (intrin_v1.pool_at args width nums y x).imags
                    (intrin_v1.pool_at args width nums y x).count
                    (intrin_v1.state_before args width nums y x).2).1.reals i = FLT_MAX
                then FLT_MAX
                else (intrin_v1.full_loop args (args.n + 1)
                    (intrin_v1.pool_at args width nums y x)
                    (intrin_v1.pool_at args width nums y x).reals
                    (intrin_v1.pool_at args width nums y x).imags
                    (intrin_v1.pool_at args width nums y x).count
                    (intrin_v1.state_before args width nums y x).2).2.1 i,
              imags := (intrin_v1.full_loop args (args.n + 1)
                  (intrin_v1.pool_at args width nums y x)
                  (intrin_v1.pool_at args width nums y x).reals
                  (intrin_v1.pool_at args width nums y x).imags
                  (intrin_v1.pool_at args width nums y x).count
                  (intrin_v1.state_before args width nums y x).2).2.2.1 },
            (intrin_v1.full_loop args (args.n + 1) (intrin_v1.pool_at args width nums y x)
              (intrin_v1.pool_at args width nums y x).reals
              (intrin_v1.pool_at args width nums y x).imags
              (intrin_v1.pool_at args width nums y x).count
              (intrin_v1.state_before args width nums y x).2).2.2.2) := rfl

/-! ## Claims C31 to C35 -/

/-- C31. The loop `while (full)` of V1 ends: for `n < 2^32` (`n` is an `unsigned`), in a run
of `enumerate` on the pool that `get_aligned_four_complexes` returns, whenever a pixel
`(x, y)` is about to be processed `population ≤ 3`; if the insertion of the pixel fills the
pool (`population` not below `4`), the loop `while (full)` is left after `k` passes with
`1 ≤ k ≤ max 1 n`, and `intrin_v1.full_loop` returns the same for every fuel from `n + 1`
on. `state_before` at `(0, height)` is the final state of `enumerate`. -/
theorem v1_loop_terminates (memory : four_complexes) (c_re c_im start_re start_im res : ℚ)
    (n : ℕ) (hn32 : n < 2 ^ 32) (width height : ℕ) (y x : ℕ) :
    intrin_v1.enumerate (get_args c_re c_im start_re start_im res n) width height
        (get_aligned_four_complexes memory)
      = intrin_v1.state_before (get_args c_re c_im start_re start_im res n) width
          (get_aligned_four_complexes memory) height 0 ∧
    (intrin_v1.state_before (get_args c_re c_im start_re start_im res n) width
      (get_aligned_four_complexes memory) y x).1.population ≤ 3 ∧
    (¬ (intrin_v1.pool_at (get_args c_re c_im start_re start_im res n) width
          (get_aligned_four_complexes memory) y x).population < 4 →
      (∃ k,
        intrin_v1.full_loop_passes (get_args c_re c_im start_re start_im res n) (n + 1)
            (intrin_v1.pool_at (get_args c_re c_im start_re start_im res n) width
              (get_aligned_four_complexes memory) y x)
            (intrin_v1.pool_at (get_args c_re c_im start_re start_im res n) width
              (get_aligned_four_complexes memory) y x).reals
            (intrin_v1.pool_at (get_args c_re c_im start_re start_im res n) width
              (get_aligned_four_complexes memory) y x).imags
            (intrin_v1.pool_at (get_args c_re c_im start_re start_im res n) width
              (get_aligned_four_complexes memory) y x).count
            (intrin_v1.state_before (get_args c_re c_im start_re start_im res n) width
              (get_aligned_four_complexes memory) y x).2
          = some k ∧
        1 ≤ k ∧ k ≤ max 1 n) ∧
      ∀ fuel, n + 1 ≤ fuel →
        intrin_v1.full_loop (get_args c_re c_im start_re start_im res n) fuel
            (intrin_v1.pool_at (get_args c_re c_im start_re start_im res n) width
              (get_aligned_four_complexes memory) y x)
            (intrin_v1.pool_at (get_args c_re c_im start_re start_im res n) width
              (get_aligned_four_complexes memory) y x).reals
            (intrin_v1.pool_at (get_args c_re c_im start_re start_im res n) width
              (get_aligned_four_complexes memory) y x).imags
            (intrin_v1.pool_at (get_args c_re c_im start_re start_im res n) width
              (get_aligned_four_complexes memory) y x).count
            (intrin_v1.state_before (get_args c_re c_im start_re start_im res n) width
              (get_aligned_four_complexes memory) y x).2
          = intrin_v1.full_loop (get_args c_re c_im start_re start_im res n) (n + 1)
            (intrin_v1.pool_at (get_args c_re c_im start_re start_im res n) width
              (get_aligned_four_complexes memory) y x)
            (intrin_v1.pool_at (get_args c_re c_im start_re start_im res n) width
              (get_aligned_four_complexes memory) y x).reals
            (intrin_v1.pool_at (get_args c_re c_im start_re start_im res n) width
              (get_aligned_four_complexes memory) y x).imags
            (intrin_v1.pool_at (get_args c_re c_im start_re start_im res n) width
              (get_aligned_four_complexes memory) y x).count
            (intrin_v1.state_before (get_args c_re c_im start_re start_im res n) width
              (get_aligned_four_complexes memory) y x).2) := by
  have hpop := state_before_population (get_args c_re c_im start_re start_im res n) hn32 width
    (get_aligned_four_complexes memory) (by simp [get_aligned_four_complexes]) y x
  refine ⟨rfl, hpop, fun hfull => ⟨?_, fun fuel hfuel => ?_⟩⟩
  · exact (enumerate_x_step (get_args c_re c_im start_re start_im res n) hn32 y
      (start_im + (y : ℚ) * res) _ x hpop).2 hfull
  · exact full_loop_fuel_enough (get_args c_re c_im start_re start_im res n) hn32 fuel hfuel
      _ _ _ _ _

/-- Witness for C31: `c = 0`, start `0`, resolution `1/4`, `n = 3`, width `4`: the pixel
`(3, 0)` fills the pool with the points `0, 1/4, 1/2, 3/4`, which stay inside the radius;
the loop is left after `3 = max 1 n` passes. -/
theorem v1_loop_terminates_witness :
    (3 < 2 ^ 32 ∧
      ¬ (intrin_v1.pool_at (get_args 0 0 0 0 (1 / 4) 3) 4
          (get_aligned_four_complexes zero_memory) 0 3).population < 4) ∧
      (∃ k,
        intrin_v1.full_loop_passes (get_args 0 0 0 0 (1 / 4) 3) (3 + 1)
            (intrin_v1.pool_at (get_args 0 0 0 0 (1 / 4) 3) 4
              (get_aligned_four_complexes zero_memory) 0 3)
            (intrin_v1.pool_at (get_args 0 0 0 0 (1 / 4) 3) 4
              (get_aligned_four_complexes zero_memory) 0 3).reals
            (intrin_v1.pool_at (get_args 0 0 0 0 (1 / 4) 3) 4
              (get_aligned_four_complexes zero_memory) 0 3).imags
            (intrin_v1.pool_at (get_args 0 0 0 0 (1 / 4) 3) 4
              (get_aligned_four_complexes zero_memory) 0 3).count
            (intrin_v1.state_before (get_args 0 0 0 0 (1 / 4) 3) 4
              (get_aligned_four_complexes zero_memory) 0 3).2
          = some k ∧
        1 ≤ k ∧ k ≤ max 1 3) ∧
      intrin_v1.full_loop_passes (get_args 0 0 0 0 (1 / 4) 3) (3 + 1)
          (intrin_v1.pool_at (get_args 0 0 0 0 (1 / 4) 3) 4
            (get_aligned_four_complexes zero_memory) 0 3)
          (intrin_v1.pool_at (get_args 0 0 0 0 (1 / 4) 3) 4
            (get_aligned_four_complexes zero_memory) 0 3).reals
          (intrin_v1.pool_at (get_args 0 0 0 0 (1 / 4) 3) 4
            (get_aligned_four_complexes zero_memory) 0 3).imags
          (intrin_v1.pool_at (get_args 0 0 0 0 (1 / 4) 3) 4
            (get_aligned_four_complexes zero_memory) 0 3).count
          (intrin_v1.state_before (get_args 0 0 0 0 (1 / 4) 3) 4
            (get_aligned_four_complexes zero_memory) 0 3).2
        = some 3 :=
  ⟨⟨by decide, by decide!⟩,
    ((v1_loop_terminates zero_memory 0 0 0 0 (1 / 4) 3 (by decide) 4 1 0 3).2.2
      (by decide!)).1,
    by decide!⟩

/-- C32. Escaped pixels are never pure black: for `n ≥ 2` and every count in `[1, n - 1]`,
`map_to_color count (255 / n) ≥ 1`, and `color_pixel` in image mode leaves this level, which
is not `0`, in the first (blue) byte of the pixel; among the counts `0 .. n - 1` only `0`
has the level `0`. -/
theorem escaped_never_black (width height n count : ℕ) (hn : 2 ≤ n) (h1 : 1 ≤ count)
    (hc : count ≤ n - 1) :
    1 ≤ map_to_color count (get_img width height none n).color_const ∧
      (∀ (g : Globals) (b : ℕ → ℕ) (y x : ℕ), g.CORRECTNESS_TEST = false →
        ∃ b' : ℕ → ℕ,
          color_pixel g (get_img width height (some b) n) y x count
            = some (g, { get_img width height (some b) n with buffer := some b' }) ∧
          b' (offset (get_img width height (some b) n) y x) ≠ 0) ∧
      ∀ count2, count2 ≤ n - 1 →
        (map_to_color count2 (get_img width height none n).color_const = 0 ↔ count2 = 0) := by
  have hpos := map_to_color_pos_aux n count hn h1 hc
  refine ⟨hpos, ?_, fun count2 hc2 => map_to_color_zero_iff_aux n count2 hn hc2⟩
  intro g b y x hg
  obtain ⟨b', h1, h2⟩ := color_pixel_blue_aux g (get_img width height (some b) n) y x count b
    hg rfl
  refine ⟨b', h1, ?_⟩
  rw [h2]
  have : 1 ≤ map_to_color count (get_img width height (some b) n).color_const := hpos
  omega

/-- Witness for C32: `n = 100` and the count `99`, with level `3`. -/
theorem escaped_never_black_witness :
    (2 ≤ 100 ∧ 1 ≤ 99 ∧ 99 ≤ 100 - 1) ∧
      map_to_color 99 (get_img 1 1 none 100).color_const = 3 ∧
      1 ≤ map_to_color 99 (get_img 1 1 none 100).color_const :=
  ⟨by decide, by decide!,
    (escaped_never_black 1 1 100 99 (by decide) (by decide) (by decide)).1⟩

/-- C33. Pixel offsets stay in bounds and do not overlap: for an image with
`3 * width * height ≤ 2^32` and a pixel `x < width`, `y < height`, `offset img y x` is
`3 * (y * width + x)` and `offset img y x + 2 < 3 * width * height`; the three bytes of two
distinct pixels of the image are at distinct indices. -/
theorem offsets_in_bounds_disjoint (img : Image) (y x : ℕ) (hx : x < img.width)
    (hy : y < img.height) (hsize : 3 * img.width * img.height ≤ 2 ^ 32) :
    offset img y x = 3 * (y * img.width + x) ∧
      offset img y x + 2 < 3 * img.width * img.height ∧
      ∀ y2 x2, x2 < img.width → y2 < img.height → ¬ (y = y2 ∧ x = x2) →
        ∀ i j, i < 3 → j < 3 → offset img y x + i ≠ offset img y2 x2 + j :=
  ⟨(offset_bounds_aux img y x hx hy hsize).1, (offset_bounds_aux img y x hx hy hsize).2,
    fun y2 x2 hx2 hy2 hne i j hi hj =>
      offset_disjoint_aux img y x y2 x2 hx hy hx2 hy2 hsize hne i j hi hj⟩

/-- Witness for C33: the pixel `(2, 1)` of a 3 x 2 image, at offset `15`, the last pixel of
the `18` bytes. -/
theorem offsets_in_bounds_disjoint_witness :
    (2 < (get_img 3 2 none 5).width ∧ 1 < (get_img 3 2 none 5).height ∧
        3 * (get_img 3 2 none 5).width * (get_img 3 2 none 5).height ≤ 2 ^ 32) ∧
      offset (get_img 3 2 none 5) 1 2 = 15 ∧
      offset (get_img 3 2 none 5) 1 2 + 2 < 18 :=
  ⟨by decide,
    (offsets_in_bounds_disjoint (get_img 3 2 none 5) 1 2 (by decide) (by decide)
      (by decide)).1,
    (offsets_in_bounds_disjoint (get_img 3 2 none 5) 1 2 (by decide) (by decide)
      (by decide)).2.1⟩

/-- C34. Lifecycle of the verification mode: `test` never dereferences the null image
pointer it hands to the engines and its result does not depend on the globals it finds (it
sets `CORRECTNESS_TEST` before the first engine runs); when it ends, `CORRECTNESS_BUFFER` is
the block of counts of the last engine run, and `CORRECTNESS_TEST` is `false` exactly when
it ends by returning (outcome `passed`; the other outcomes end the program). After a return
every engine run on an image buffer stores levels in the buffer (`paint`) and leaves the
globals as they are. -/
theorem test_lifecycle (_reals : Lanes ℚ) (memory : four_complexes)
    (iterations0 iterations1 iterations2 : ℕ → ℕ) (g : Globals) (args : Arguments)
    (width height : ℕ) :
    ∃ outcome g',
      test _reals memory iterations0 iterations1 iterations2 g args width height
        = some (outcome, g') ∧
      (∀ g2 : Globals,
        test _reals memory iterations0 iterations1 iterations2 g2 args width height
          = some (outcome, g')) ∧
      g'.CORRECTNESS_BUFFER = test.counts2 iterations2 args width height ∧
      (outcome = TestOutcome.passed ↔ g'.CORRECTNESS_TEST = false) ∧
      (outcome = TestOutcome.passed →
        ∀ (_reals2 : Lanes ℚ) (memory2 : four_complexes) (c_re c_im start_re start_im res : ℚ)
          (w h n : ℕ) (b : ℕ → ℕ),
          run_julia _reals2 g' c_re c_im start_re start_im w h res n (some b)
            = some (g', some (paint w (255 / (n : ℚ))
                (julia _reals2 c_re c_im start_re start_im w h res n) b)) ∧
          run_julia_V1 memory2 g' c_re c_im start_re start_im w h res n (some b)
            = some (g', some (paint w (255 / (n : ℚ))
                (julia_V1 memory2 c_re c_im start_re start_im w h res n) b)) ∧
          run_julia_V2 g' c_re c_im start_re start_im w h res n (some b)
            = some (g', some (paint w (255 / (n : ℚ))
                (julia_V2 c_re c_im start_re start_im w h res n) b))) := by
  obtain ⟨outcome, g', h1, h2, h3⟩ := test_lifecycle_aux _reals memory iterations0 iterations1
    iterations2 g args width height
  refine ⟨outcome, g', h1, ?_, h2, h3, ?_⟩
  · intro g2
    rw [test_initial_globals_aux _reals memory iterations0 iterations1 iterations2 g2 g]
    exact h1
  · intro hp _reals2 memory2 c_re c_im start_re start_im res w h n b
    have hg := h3.mp hp
    exact ⟨run_julia_image _reals2 g' c_re c_im start_re start_im w h res n b hg,
      run_julia_V1_image memory2 g' c_re c_im start_re start_im w h res n b hg,
      run_julia_V2_image g' c_re c_im start_re start_im w h res n b hg⟩

/-- Witness for C34: `test` on a 4 x 1 image with `c = 0`, start `0`, resolution `1`,
`n = 2` returns, with `CORRECTNESS_TEST` reset, also when it is entered with the flag set;
`julia` run afterwards on a buffer of twelve bytes `7` leaves the levels of the counts
`0, 0, 1, 1`. -/
theorem test_lifecycle_witness :
    ∃ g' : Globals,
      test zero_memory.reals zero_memory (fun _ => 0) (fun _ => 0) (fun _ => 0)
          ⟨true, fun _ => 0⟩ (get_args 0 0 0 0 1 2) 4 1 = some (TestOutcome.passed, g') ∧
      g'.CORRECTNESS_TEST = false ∧
      buffer_bytes (run_julia zero_memory.reals g' 0 0 0 0 4 1 1 2 (some fun _ => 7)) 12
        = some [0, 0, 0, 0, 0, 0, 128, 32, 64, 128, 32, 64] := by
  obtain ⟨outcome, g', h1, -, -, h3, h4⟩ := test_lifecycle zero_memory.reals zero_memory
    (fun _ => 0) (fun _ => 0) (fun _ => 0) ⟨true, fun _ => 0⟩ (get_args 0 0 0 0 1 2) 4 1
  have hout : (test zero_memory.reals zero_memory (fun _ => 0) (fun _ => 0) (fun _ => 0)
      ⟨true, fun _ => 0⟩ (get_args 0 0 0 0 1 2) 4 1).map (fun r => r.1)
      = some TestOutcome.passed := by decide!
  rw [h1] at hout
  have hp : outcome = TestOutcome.passed := by simpa using hout
  subst hp
  refine ⟨g', h1, h3.mp rfl, ?_⟩
  rw [(h4 rfl zero_memory.reals zero_memory 0 0 0 0 1 4 1 2 (fun _ => 7)).1]
  show some ((List.range 12).map (paint 4 (255 / ((2 : ℕ) : ℚ))
      (julia zero_memory.reals 0 0 0 0 4 1 1 2) (fun _ => 7)))
    = some [0, 0, 0, 0, 0, 0, 128, 32, 64, 128, 32, 64]
  decide!

/-- C35. Escaped points diverge: with `radius_sqr` as `get_args` sets it, for every `c` and
every point `z_0 = x + y i` with `|z_0|^2 > radius_sqr`, the iterates are unbounded: for
every bound `B` there is a `k` with `|z_k|^2 > B`. -/
theorem escaped_points_diverge (c_re c_im start_re start_im res : ℚ) (n : ℕ) (x y : ℚ)
    (hout : (get_args c_re c_im start_re start_im res n).radius_sqr < x * x + y * y)
    (B : ℚ) :
    ∃ k : ℕ,
      B < (orbit (get_args c_re c_im start_re start_im res n) x y k).1
            * (orbit (get_args c_re c_im start_re start_im res n) x y k).1
          + (orbit (get_args c_re c_im start_re start_im res n) x y k).2
            * (orbit (get_args c_re c_im start_re start_im res n) x y k).2 :=
  orbit_unbounded_aux c_re c_im start_re start_im res n x y hout B

/-- Witness for C35: `c = 0`, the point `3` and the bound `1000`. -/
theorem escaped_points_diverge_witness :
    (get_args 0 0 0 0 1 5).radius_sqr < 3 * 3 + 0 * 0 ∧
      ∃ k : ℕ,
        (1000 : ℚ) < (orbit (get_args 0 0 0 0 1 5) 3 0 k).1
              * (orbit (get_args 0 0 0 0 1 5) 3 0 k).1
            + (orbit (get_args 0 0 0 0 1 5) 3 0 k).2
              * (orbit (get_args 0 0 0 0 1 5) 3 0 k).2 :=
  ⟨by decide!, escaped_points_diverge 0 0 0 0 1 5 3 0 (by decide!) 1000⟩

/-! ## The program over binary32: where it leaves the exact reading -/

/-- C3 (failing input). Over binary32, with `c = 0`, `n = 2` and the start point
`a = 0x1.7ffffep+127` (a finite `float`, so `radius_sqr = 4`): `a * a` overflows to `+inf`
and `2 * a * 0` is `inf * 0`, a NaN, so the computed `|z_1|^2` is a NaN. The test
`|z_1|^2 > radius_sqr` of `iterate_naive` is false and the function returns `BLACK`; the
test `|z_1|^2 <= radius_sqr` of `iterate_reference` is false as well and the function
returns `1`. -/
theorem iterate_naive_ne_iterate_reference_at_nan :
    F32.round (12582911 * 2 ^ 104) = F32.fin (12582911 * 2 ^ 104) ∧
      (binary32.get_args (F32.fin 0) (F32.fin 0) (F32.fin (12582911 * 2 ^ 104)) (F32.fin 0)
        (F32.fin 1) 2).radius_sqr = F32.fin 4 ∧
      binary32.norm_sqr
        (binary32.get_args (F32.fin 0) (F32.fin 0) (F32.fin (12582911 * 2 ^ 104)) (F32.fin 0)
          (F32.fin 1) 2) (F32.fin (12582911 * 2 ^ 104)) (F32.fin 0) 1 = F32.nan ∧
      binary32.iterate_naive (F32.fin (12582911 * 2 ^ 104)) (F32.fin 0)
        (binary32.get_args (F32.fin 0) (F32.fin 0) (F32.fin (12582911 * 2 ^ 104)) (F32.fin 0)
          (F32.fin 1) 2) = BLACK ∧
      binary32.iterate_reference (F32.fin (12582911 * 2 ^ 104)) (F32.fin 0)
        (binary32.get_args (F32.fin 0) (F32.fin 0) (F32.fin (12582911 * 2 ^ 104)) (F32.fin 0)
          (F32.fin 1) 2) = 1 := by
  refine ⟨?_, ?_, ?_, ?_, ?_⟩ <;> decide!

/-- C9 (the claim fails over binary32). First input: `c = 1 - 2^-22`, `n = 3`, the point
`a = 1 + 2^-23` (both are `float`s, `radius_sqr = 4`). The exact `z_1 = a^2 + c` is
`2 + 2^-46`, outside the radius, so the least `k` with `|z_k|^2 > radius_sqr` is `1`; the
`float` product `a * a` is rounded to `1 + 2^-22`, the computed `z_1` is `2` and
`iterate_reference` returns `2`. Second input: `c = 0`, `n = 2`, the point
`0x1.7ffffep+127`: the computed `|z_1|^2` is a NaN, for which `|z_1|^2 > radius_sqr` does
not hold, and `iterate_reference` returns `1`, not `BLACK`. -/
theorem iterate_reference_not_least_escape_binary32 :
    (F32.round (8388609 / 8388608) = F32.fin (8388609 / 8388608) ∧
        F32.round (4194303 / 4194304) = F32.fin (4194303 / 4194304) ∧
        (binary32.get_args (F32.fin (4194303 / 4194304)) (F32.fin 0)
          (F32.fin (8388609 / 8388608)) (F32.fin 0) (F32.fin 1) 3).radius_sqr = F32.fin 4 ∧
        escaped (get_args (4194303 / 4194304) 0 (8388609 / 8388608) 0 1 3)
          (8388609 / 8388608) 0 1 ∧
        iterate_reference (8388609 / 8388608) 0
          (get_args (4194303 / 4194304) 0 (8388609 / 8388608) 0 1 3) = 1 ∧
        binary32.iterate_reference (F32.fin (8388609 / 8388608)) (F32.fin 0)
          (binary32.get_args (F32.fin (4194303 / 4194304)) (F32.fin 0)
            (F32.fin (8388609 / 8388608)) (F32.fin 0) (F32.fin 1) 3) = 2) ∧
      (F32.gt
          (binary32.norm_sqr
            (binary32.get_args (F32.fin 0) (F32.fin 0) (F32.fin (12582911 * 2 ^ 104))
              (F32.fin 0) (F32.fin 1) 2) (F32.fin (12582911 * 2 ^ 104)) (F32.fin 0) 1)
          (binary32.get_args (F32.fin 0) (F32.fin 0) (F32.fin (12582911 * 2 ^ 104))
            (F32.fin 0) (F32.fin 1) 2).radius_sqr = false ∧
        binary32.iterate_reference (F32.fin (12582911 * 2 ^ 104)) (F32.fin 0)
          (binary32.get_args (F32.fin 0) (F32.fin 0) (F32.fin (12582911 * 2 ^ 104))
            (F32.fin 0) (F32.fin 1) 2) = 1) := by
  refine ⟨⟨?_, ?_, ?_, ?_, ?_, ?_⟩, ?_, ?_⟩ <;> decide!

/-- The colour map over binary32 against the exact formula `255 - ⌊count * 255 / n⌋`: the
quotient `255.0f / n` and the product are rounded, and where the exact product is an integer
the rounded one can fall below it. For `n = 237`, count `79` the exact product is `85` and
the function returns `171`, not `170`; for `n = 7`, count `7` it returns `1`, not `0`. -/
theorem map_to_color_binary32_rounds :
    binary32.map_to_color 79 (binary32.color_const 237) = 171 ∧
      (map_to_color 79 (get_img 1 1 none 237).color_const : ℤ) = 170 ∧
      binary32.map_to_color 7 (binary32.color_const 7) = 1 ∧
      (map_to_color 7 (get_img 1 1 none 7).color_const : ℤ) = 0 := by
  refine ⟨?_, ?_, ?_, ?_⟩ <;> decide!

/-- C23 (failing input). V0 over binary32 with `c = 2i` (so `radius_sqr = 4`),
`start = -0x1.9930ap+0 + 0x1.116832p+0 i`, `res = 1/2`, `n = 4`, on the batch of the pixels
`0 .. 3` of row `0`. Lane `0` is inside the radius in the first pass (counter `1`). In the
second pass its computed `|z_1|^2` is `4 + 2^-21`: the pass clears the lane's bit of `mask`
(`mask = 6`), the counter stays `1`, and the loop goes on. In the third pass the computed
`|z_2|^2` is `4`, and the counter of lane `0` is incremented to `2`. The loop ends with the
counter `2`, which V0 passes to `color_pixel` for the pixel `(0, 0)`, while
`iterate_reference` returns `1` for its point. -/
theorem v0_counter_resumes_binary32 :
    (F32.round (-838021 / 524288) = F32.fin (-838021 / 524288) ∧
        F32.round (8959001 / 8388608) = F32.fin (8959001 / 8388608)) ∧
      (binary32.get_args (F32.fin 0) (F32.fin 2) (F32.fin (-838021 / 524288))
        (F32.fin (8959001 / 8388608)) (F32.fin (1 / 2)) 4).radius_sqr = F32.fin 4 ∧
      ((binary32.batch_state
          (binary32.get_args (F32.fin 0) (F32.fin 2) (F32.fin (-838021 / 524288))
            (F32.fin (8959001 / 8388608)) (F32.fin (1 / 2)) 4) 0 3).reals 0
            = F32.fin (-838021 / 524288) ∧
        (binary32.batch_state
          (binary32.get_args (F32.fin 0) (F32.fin 2) (F32.fin (-838021 / 524288))
            (F32.fin (8959001 / 8388608)) (F32.fin (1 / 2)) 4) 0 3).imags 0
            = F32.fin (8959001 / 8388608)) ∧
      (binary32.norm_sqr
          (binary32.get_args (F32.fin 0) (F32.fin 2) (F32.fin (-838021 / 524288))
            (F32.fin (8959001 / 8388608)) (F32.fin (1 / 2)) 4)
          (F32.fin (-838021 / 524288)) (F32.fin (8959001 / 8388608)) 1
            = F32.fin (4 + 1 / 2 ^ 21) ∧
        binary32.norm_sqr
          (binary32.get_args (F32.fin 0) (F32.fin 2) (F32.fin (-838021 / 524288))
            (F32.fin (8959001 / 8388608)) (F32.fin (1 / 2)) 4)
          (F32.fin (-838021 / 524288)) (F32.fin (8959001 / 8388608)) 2 = F32.fin 4) ∧
      ((binary32.passes
          (binary32.get_args (F32.fin 0) (F32.fin 2) (F32.fin (-838021 / 524288))
            (F32.fin (8959001 / 8388608)) (F32.fin (1 / 2)) 4) 2
          (binary32.batch_state
            (binary32.get_args (F32.fin 0) (F32.fin 2) (F32.fin (-838021 / 524288))
              (F32.fin (8959001 / 8388608)) (F32.fin (1 / 2)) 4) 0 3)).1.mask = 6 ∧
        (binary32.passes
          (binary32.get_args (F32.fin 0) (F32.fin 2) (F32.fin (-838021 / 524288))
            (F32.fin (8959001 / 8388608)) (F32.fin (1 / 2)) 4) 2
          (binary32.batch_state
            (binary32.get_args (F32.fin 0) (F32.fin 2) (F32.fin (-838021 / 524288))
              (F32.fin (8959001 / 8388608)) (F32.fin (1 / 2)) 4) 0 3)).1.iterations 0 = 1 ∧
        (binary32.passes
          (binary32.get_args (F32.fin 0) (F32.fin 2) (F32.fin (-838021 / 524288))
            (F32.fin (8959001 / 8388608)) (F32.fin (1 / 2)) 4) 2
          (binary32.batch_state
            (binary32.get_args (F32.fin 0) (F32.fin 2) (F32.fin (-838021 / 524288))
              (F32.fin (8959001 / 8388608)) (F32.fin (1 / 2)) 4) 0 3)).2 = false) ∧
      (binary32.passes
          (binary32.get_args (F32.fin 0) (F32.fin 2) (F32.fin (-838021 / 524288))
            (F32.fin (8959001 / 8388608)) (F32.fin (1 / 2)) 4) 3
          (binary32.batch_state
            (binary32.get_args (F32.fin 0) (F32.fin 2) (F32.fin (-838021 / 524288))
              (F32.fin (8959001 / 8388608)) (F32.fin (1 / 2)) 4) 0 3)).1.iterations 0 = 2 ∧
      binary32.batch_calls
          (binary32.get_args (F32.fin 0) (F32.fin 2) (F32.fin (-838021 / 524288))
            (F32.fin (8959001 / 8388608)) (F32.fin (1 / 2)) 4) 0 3
        = [⟨0, 0, 2⟩, ⟨0, 1, 3⟩, ⟨0, 2, 3⟩, ⟨0, 3, 1⟩] ∧
      binary32.iterate_reference (F32.fin (-838021 / 524288)) (F32.fin (8959001 / 8388608))
        (binary32.get_args (F32.fin 0) (F32.fin 2) (F32.fin (-838021 / 524288))
          (F32.fin (8959001 / 8388608)) (F32.fin (1 / 2)) 4) = 1 := by
  refine ⟨⟨?_, ?_⟩, ?_, ⟨?_, ?_⟩, ⟨?_, ?_⟩, ⟨?_, ?_, ?_⟩, ?_, ?_, ?_⟩ <;> decide!

/-- C27 (failing input). `julia_V1` with `c = 0`, start `0`, resolution `FLT_MAX / 4`,
`n = 2` on a 5 x 1 image, in exact arithmetic. At the end of the image entry `1` of the pool
holds the pixel `(4, 0)` with counter `0` (`population` is `2`), and its real part
`4 * res` equals `FLT_MAX`: the body of `compute_last_points` makes no call for the entry
and the pixel is never recorded, while `iterate_naive` of its start point is `1`. -/
theorem drain_skips_sentinel_lane :
    (intrin_v1.final_pool zero_memory 0 0 0 0 5 1 (FLT_MAX / 4) 2).population = 2 ∧
      (intrin_v1.final_pool zero_memory 0 0 0 0 5 1 (FLT_MAX / 4) 2).x_coords 1 = 4 ∧
      (intrin_v1.final_pool zero_memory 0 0 0 0 5 1 (FLT_MAX / 4) 2).y_coords 1 = 0 ∧
      (intrin_v1.final_pool zero_memory 0 0 0 0 5 1 (FLT_MAX / 4) 2).count 1 = 0 ∧
      (intrin_v1.final_pool zero_memory 0 0 0 0 5 1 (FLT_MAX / 4) 2).reals 1
        = 0 + ((4 : ℕ) : ℚ) * (FLT_MAX / 4) ∧
      (intrin_v1.final_pool zero_memory 0 0 0 0 5 1 (FLT_MAX / 4) 2).imags 1
        = 0 + ((0 : ℕ) : ℚ) * (FLT_MAX / 4) ∧
      intrin_v1.last_point (get_args 0 0 0 0 (FLT_MAX / 4) 2)
        (intrin_v1.final_pool zero_memory 0 0 0 0 5 1 (FLT_MAX / 4) 2) 1 = [] ∧
      recorded (julia_V1 zero_memory 0 0 0 0 5 1 (FLT_MAX / 4) 2) 0 4 = none ∧
      iterate_naive (0 + ((4 : ℕ) : ℚ) * (FLT_MAX / 4)) (0 + ((0 : ℕ) : ℚ) * (FLT_MAX / 4))
        (get_args 0 0 0 0 (FLT_MAX / 4) 2) = 1 := by
  refine ⟨?_, ?_, ?_, ?_, ?_, ?_, ?_, ?_, ?_⟩ <;> decide!

end Julia
